import Mathlib

/-!
Verification of the content-scanning core of the `bond-apis` repository:
the Aho-Corasick pattern automaton (`src/modules/aho_corasick.py`), the
text normalizer (`src/modules/normalizer.py`), the Base64 span helpers
(`src/modules/base64_helpers.py`) and the regex execution engine
(`src/modules/regex_engine.py`), shallowly embedded in Lean 4.

Texts are modelled as `List Char` (Python `str` is a sequence of code
points).  Python `list`s become Lean `List`s, Python `dict`s keyed by
characters become association lists, Python `set`s of strings become
duplicate-free lists (insertion only when absent), and `float` weights
become exact rationals.
-/

namespace BondApis

/-! ## Models of Python string/character primitives

Python's `str.isalnum`, `str.isalpha`, `str.isdigit`, `str.isprintable`
and `str.lower` consult the Unicode character database, which is external
to the repository; they are modelled here by their exact behaviour on the
ASCII range (every concrete text in this development is ASCII). -/

/-- Model of Python `ch.isalnum()` for a single character (ASCII range). -/
def pyIsAlnumChar (c : Char) : Bool := c.isAlphanum

/-- Model of Python `ch.isalpha()` for a single character (ASCII range). -/
def pyIsAlphaChar (c : Char) : Bool := c.isAlpha

/-- Model of Python `ch.isdigit()` for a single character (ASCII range). -/
def pyIsDigitChar (c : Char) : Bool := c.isDigit

/-- Model of Python `str.isalnum()`: nonempty and every character alphanumeric. -/
def pyStrIsAlnum (s : List Char) : Bool := !s.isEmpty && s.all pyIsAlnumChar

/-- Model of Python `str.isalpha()`: nonempty and every character alphabetic. -/
def pyStrIsAlpha (s : List Char) : Bool := !s.isEmpty && s.all pyIsAlphaChar

/-- Model of Python `str.isdigit()`: nonempty and every character a digit. -/
def pyStrIsDigit (s : List Char) : Bool := !s.isEmpty && s.all pyIsDigitChar

/-- Model of Python `ch.isprintable()` (ASCII range: codes 32–126). -/
def pyIsPrintableChar (c : Char) : Bool := 32 ≤ c.toNat && c.toNat ≤ 126

/-- Model of Python `\s` / `str.isspace()` on the ASCII range
(space, tab, newline, carriage return, form feed, vertical tab). -/
def pyIsSpaceChar (c : Char) : Bool :=
  c == ' ' || c == '\t' || c == '\n' || c == '\r' || c.toNat == 11 || c.toNat == 12

/-- Model of Python `str.lower()` on one character (ASCII case mapping). -/
def pyLowerChar (c : Char) : Char := c.toLower

/-- Model of Python `s.lower()`. -/
def pyLower (s : List Char) : List Char := s.map pyLowerChar

/-- First index (0-based) at which `pat` occurs in `s`, scanning left to
right; `none` when it does not occur.  Models Python `str.find` ≥ 0. -/
def firstOccur (pat s : List Char) : Option Nat :=
  match s with
  | [] => if pat = [] then some 0 else none
  | _ :: rest =>
    if pat.isPrefixOf s then some 0
    else (firstOccur pat rest).map (· + 1)

/-- Model of Python `sub in word` (substring containment). -/
def pyContains (word sub : List Char) : Bool := (firstOccur sub word).isSome

theorem firstOccur_bound {pat s : List Char} {i : Nat}
    (h : firstOccur pat s = some i) : i + pat.length ≤ s.length := by
  induction s generalizing i with
  | nil =>
    by_cases hp : pat = ([] : List Char)
    · subst hp
      simp [firstOccur] at h
      omega
    · simp [firstOccur, hp] at h
  | cons c rest ih =>
    by_cases hp : pat.isPrefixOf (c :: rest)
    · have hle : pat.length ≤ (c :: rest).length :=
        (List.isPrefixOf_iff_prefix.mp hp).length_le
      simp [firstOccur, hp] at h
      omega
    · simp [firstOccur, hp] at h
      obtain ⟨j, hj, hji⟩ := h
      have := ih hj
      simp at this ⊢
      omega

/-- Fuel-driven loop of `pyCount`: each found occurrence strictly shortens
the remaining word (the occurrence bound `firstOccur_bound`), so fuel
`word.length + 1` is never exhausted. -/
def pyCountGo (sub : List Char) : Nat → List Char → Nat
  | 0, _ => 0
  | fuel + 1, word =>
    match firstOccur sub word with
    | none => 0
    | some i => 1 + pyCountGo sub fuel (word.drop (i + sub.length))

/-- Model of Python `word.count(sub)` for `sub` nonempty: the number of
non-overlapping occurrences, scanning left to right.  (For the empty
`sub` Python returns `len(word) + 1`.) -/
def pyCount (word sub : List Char) : Nat :=
  if sub = [] then word.length + 1
  else pyCountGo sub (word.length + 1) word

/-! ## `src/modules/base64_helpers.py` -/

/-- Membership in
`BASE64_CHARS = set("ABCDEFGHIJKLMNOPQRSTUVWXYZabcdefghijklmnopqrstuvwxyz0123456789+/=")`. -/
def isBase64Char (c : Char) : Bool := c.isAlphanum || c == '+' || c == '/' || c == '='

/-- The scanning loop of `find_base64_like_spans`: `i` is the index of the
next character (head of the remaining list), `start` is the start of the
currently open run (`None` when no run is open), `spans` the accumulator. -/
def findSpansGo (minLen : Nat) (i : Nat) (start : Option Nat)
    (spans : List (Nat × Nat)) : List Char → List (Nat × Nat)
  | [] =>
    match start with
    | some s => if minLen ≤ i - s then spans ++ [(s, i)] else spans
    | none => spans
  | ch :: rest =>
    if isBase64Char ch then
      findSpansGo minLen (i + 1) (some (start.getD i)) spans rest
    else
      match start with
      | some s =>
        findSpansGo minLen (i + 1) none
          (if minLen ≤ i - s then spans ++ [(s, i)] else spans) rest
      | none => findSpansGo minLen (i + 1) none spans rest

/-- `find_base64_like_spans(text, min_len)`: maximal runs of Base64-alphabet
characters of length ≥ `min_len`, as half-open index pairs. -/
def find_base64_like_spans (text : List Char) (minLen : Nat) : List (Nat × Nat) :=
  findSpansGo minLen 0 none [] text

/-- Specification predicate: `[s, e)` is a maximal run of Base64-alphabet
characters inside `t` (nonempty, in bounds, every interior character in the
alphabet, and both neighbours — when they exist — outside the alphabet). -/
def IsMaxB64Run (t : List Char) (s e : Nat) : Prop :=
  s < e ∧ e ≤ t.length ∧
  (∀ j, s ≤ j → j < e → isBase64Char (t.getD j ' ') = true) ∧
  (s = 0 ∨ isBase64Char (t.getD (s - 1) ' ') = false) ∧
  (e = t.length ∨ isBase64Char (t.getD e ' ') = false)

/-- Two maximal runs with the same start coincide. -/
theorem IsMaxB64Run.end_unique {t : List Char} {s e e₂ : Nat}
    (h : IsMaxB64Run t s e) (h₂ : IsMaxB64Run t s e₂) : e = e₂ := by
  obtain ⟨hse, hel, hin, _, hr⟩ := h
  obtain ⟨hse₂, hel₂, hin₂, _, hr₂⟩ := h₂
  by_contra hne
  rcases Nat.lt_or_ge e e₂ with hlt | hge
  · have hb : isBase64Char (t.getD e ' ') = true := hin₂ e (by omega) hlt
    rcases hr with h | h
    · omega
    · rw [h] at hb
      exact absurd hb (by simp)
  · have hlt₂ : e₂ < e := by omega
    have hb : isBase64Char (t.getD e₂ ' ') = true := hin e₂ (by omega) hlt₂
    rcases hr₂ with h | h
    · omega
    · rw [h] at hb
      exact absurd hb (by simp)

/-- Loop invariant on the `start` register of `findSpansGo` at index `i`:
no run is open exactly when the previous character breaks runs; an open
run `[s, i)` is nonempty, all-alphabet and left-maximal. -/
def SpanStartInv (t : List Char) (i : Nat) : Option Nat → Prop
  | none => i = 0 ∨ isBase64Char (t.getD (i - 1) ' ') = false
  | some s => s < i ∧ (∀ j, s ≤ j → j < i → isBase64Char (t.getD j ' ') = true) ∧
      (s = 0 ∨ isBase64Char (t.getD (s - 1) ' ') = false)

/-- Which maximal-run starts are still pending (not yet in the
accumulator) when the loop sits at index `i` with register `start`. -/
def SpanPending (i : Nat) : Option Nat → Nat → Prop
  | none, s' => i ≤ s'
  | some s, s' => s' = s ∨ i ≤ s'

theorem drop_cons_facts {t : List Char} {i : Nat} {ch : Char} {rest : List Char}
    (h : t.drop i = ch :: rest) :
    i < t.length ∧ t.getD i ' ' = ch ∧ t.drop (i + 1) = rest := by
  have h1 : i < t.length := by
    by_contra hge
    have hnil : t.drop i = [] := List.drop_eq_nil_of_le (by omega)
    rw [hnil] at h
    cases h
  have h2 : t[i]? = some ch := by
    have hd := List.getElem?_drop t i 0
    rw [h] at hd
    simpa using hd.symm
  refine ⟨h1, ?_, ?_⟩
  · simp [List.getD_eq_getElem?_getD, h2]
  · have ht : t.drop (i + 1) = (t.drop i).tail := (List.tail_drop t i).symm
    rw [ht, h]
    rfl

/-- Combined loop invariant theorem for `findSpansGo`: membership
characterisation of the result, and left-to-right ordering. -/
theorem findSpansGo_spec (m : Nat) (t : List Char) :
    ∀ rest i start spans, rest = t.drop i → i ≤ t.length →
    SpanStartInv t i start →
    (∀ p ∈ spans, (p : Nat × Nat).2 ≤ start.getD i) →
    spans.Pairwise (fun a b => a.2 ≤ b.1) →
    ((∀ p : Nat × Nat, p ∈ findSpansGo m i start spans rest ↔
        p ∈ spans ∨ (IsMaxB64Run t p.1 p.2 ∧ m ≤ p.2 - p.1 ∧ SpanPending i start p.1)) ∧
      (findSpansGo m i start spans rest).Pairwise (fun a b => a.2 ≤ b.1)) := by
  intro rest
  induction rest with
  | nil =>
    intro i start spans hrest hi hinv hbound hpw
    have hlen : i = t.length := by
      have : t.length ≤ i := by
        by_contra hlt
        have : t.drop i ≠ [] := by
          apply List.ne_nil_of_length_pos
          simp
          omega
        exact this hrest.symm
      omega
    cases start with
    | none =>
      refine ⟨fun p => ?_, by simpa [findSpansGo] using hpw⟩
      simp only [findSpansGo]
      constructor
      · exact fun h => Or.inl h
      · rintro (h | ⟨⟨h1, h2, _⟩, _, hp⟩)
        · exact h
        · simp only [SpanPending] at hp
          exact (by omega : False).elim
    | some s =>
      obtain ⟨hsi, hintr, hleft⟩ := hinv
      have hmax : IsMaxB64Run t s i :=
        ⟨hsi, by omega, fun j hj hj2 => hintr j hj hj2, hleft, Or.inl hlen⟩
      constructor
      · intro p
        simp only [findSpansGo]
        by_cases hm : m ≤ i - s
        · simp only [if_pos hm, List.mem_append, List.mem_singleton]
          constructor
          · rintro (h | h)
            · exact Or.inl h
            · refine Or.inr ⟨?_, ?_, ?_⟩
              · rw [h]
                exact hmax
              · rw [h]
                exact hm
              · rw [h]
                exact Or.inl rfl
          · rintro (h | ⟨hrun, hm2, hp⟩)
            · exact Or.inl h
            · simp only [SpanPending] at hp
              rcases hp with hp | hp
              · have h2i : p.2 = i := IsMaxB64Run.end_unique (hp ▸ hrun) hmax
                refine Or.inr ?_
                rcases p with ⟨a, b⟩
                simp_all
              · have h1 := hrun.1
                have h2 := hrun.2.1
                exact (by omega : False).elim
        · simp only [if_neg hm]
          constructor
          · exact fun h => Or.inl h
          · rintro (h | ⟨hrun, hm2, hp⟩)
            · exact h
            · simp only [SpanPending] at hp
              rcases hp with hp | hp
              · have h2i : p.2 = i := IsMaxB64Run.end_unique (hp ▸ hrun) hmax
                exfalso
                apply hm
                rw [← h2i, ← hp]
                exact hm2
              · have h1 := hrun.1
                have h2 := hrun.2.1
                exact (by omega : False).elim
      · simp only [findSpansGo]
        by_cases hm : m ≤ i - s
        · simp only [if_pos hm]
          rw [List.pairwise_append]
          refine ⟨hpw, by simp, ?_⟩
          intro a ha b hb
          rw [List.mem_singleton] at hb
          subst hb
          exact hbound a ha
        · simp only [if_neg hm]
          exact hpw
  | cons ch rest' ih =>
    intro i start spans hrest hi hinv hbound hpw
    obtain ⟨hilt, hch, hrest'⟩ := drop_cons_facts hrest.symm
    by_cases hb : isBase64Char ch = true
    · -- current character extends (or opens) a run
      have hbi : isBase64Char (t.getD i ' ') = true := by rw [hch]; exact hb
      cases start with
      | none =>
        have hinv' : SpanStartInv t (i + 1) (some i) := by
          refine ⟨by omega, ?_, ?_⟩
          · intro j hj hj2
            have : j = i := by omega
            rw [this]
            exact hbi
          · exact hinv
        have hbound' : ∀ p ∈ spans, (p : Nat × Nat).2 ≤ (some i).getD (i + 1) := by
          intro p hp
          simpa using hbound p hp
        obtain ⟨hmem, hpw2⟩ := ih (i + 1) (some i) spans hrest'.symm (by omega) hinv' hbound' hpw
        constructor
        · intro p
          simp only [findSpansGo, if_pos hb, Option.getD_none]
          rw [hmem p]
          apply or_congr_right
          apply and_congr_right
          intro _
          apply and_congr_right
          intro _
          simp only [SpanPending]
          omega
        · simpa [findSpansGo, if_pos hb] using hpw2
      | some s =>
        obtain ⟨hsi, hintr, hleft⟩ := hinv
        have hinv' : SpanStartInv t (i + 1) (some s) := by
          refine ⟨by omega, ?_, hleft⟩
          intro j hj hj2
          by_cases hji : j = i
          · rw [hji]; exact hbi
          · exact hintr j hj (by omega)
        have hbound' : ∀ p ∈ spans, (p : Nat × Nat).2 ≤ (some s).getD (i + 1) := by
          intro p hp
          simpa using hbound p hp
        obtain ⟨hmem, hpw2⟩ := ih (i + 1) (some s) spans hrest'.symm (by omega) hinv' hbound' hpw
        constructor
        · intro p
          simp only [findSpansGo, if_pos hb, Option.getD_some]
          rw [hmem p]
          apply or_congr_right
          constructor
          · rintro ⟨hrun, hm2, hp⟩
            refine ⟨hrun, hm2, ?_⟩
            simp only [SpanPending] at hp ⊢
            rcases hp with hp | hp
            · exact Or.inl hp
            · exact Or.inr (by omega)
          · rintro ⟨hrun, hm2, hp⟩
            refine ⟨hrun, hm2, ?_⟩
            simp only [SpanPending] at hp ⊢
            rcases hp with hp | hp
            · exact Or.inl hp
            · -- a pending run cannot start exactly at `i`: the previous
              -- character belongs to the open run, so it is in the alphabet
              rcases Nat.lt_or_ge p.1 (i + 1) with hlt | hge
              · exfalso
                have hpi : p.1 = i := by omega
                rcases hrun.2.2.2.1 with h0 | h0
                · omega
                · have hc : isBase64Char (t.getD (p.1 - 1) ' ') = true :=
                    hintr (p.1 - 1) (by omega) (by omega)
                  rw [h0] at hc
                  cases hc
              · exact Or.inr hge
        · simpa [findSpansGo, if_pos hb] using hpw2
    · -- current character breaks any run
      have hbi : isBase64Char (t.getD i ' ') = false := by
        rw [hch]
        exact Bool.not_eq_true _ ▸ (by simpa using hb)
      have hnoStart : ∀ (e : Nat), ¬ IsMaxB64Run t i e := by
        intro e hrun
        have : isBase64Char (t.getD i ' ') = true := hrun.2.2.1 i (le_refl i) hrun.1
        rw [hbi] at this
        cases this
      cases start with
      | none =>
        have hinv' : SpanStartInv t (i + 1) none := Or.inr (by simpa using hbi)
        have hbound' : ∀ p ∈ spans, (p : Nat × Nat).2 ≤ (none : Option Nat).getD (i + 1) := by
          intro p hp
          have := hbound p hp
          simp at this ⊢
          omega
        obtain ⟨hmem, hpw2⟩ := ih (i + 1) none spans hrest'.symm (by omega) hinv' hbound' hpw
        constructor
        · intro p
          simp only [findSpansGo, if_neg hb]
          rw [hmem p]
          apply or_congr_right
          constructor
          · rintro ⟨hrun, hm2, hp⟩
            exact ⟨hrun, hm2, by simp only [SpanPending] at hp ⊢; omega⟩
          · rintro ⟨hrun, hm2, hp⟩
            refine ⟨hrun, hm2, ?_⟩
            simp only [SpanPending] at hp ⊢
            rcases Nat.lt_or_ge p.1 (i + 1) with hlt | hge
            · exfalso
              have : p.1 = i := by omega
              exact hnoStart p.2 (this ▸ hrun)
            · exact hge
        · simpa [findSpansGo, if_neg hb] using hpw2
      | some s =>
        obtain ⟨hsi, hintr, hleft⟩ := hinv
        have hmax : IsMaxB64Run t s i :=
          ⟨hsi, by omega, hintr, hleft, Or.inr hbi⟩
        set spans' := if m ≤ i - s then spans ++ [(s, i)] else spans with hspans'
        have hinv' : SpanStartInv t (i + 1) none := Or.inr (by simpa using hbi)
        have hbound' : ∀ p ∈ spans', (p : Nat × Nat).2 ≤ (none : Option Nat).getD (i + 1) := by
          intro p hp
          simp only [Option.getD_none]
          rw [hspans'] at hp
          by_cases hm : m ≤ i - s
          · rw [if_pos hm] at hp
            rcases List.mem_append.mp hp with h | h
            · have := hbound p h
              simp at this
              omega
            · rw [List.mem_singleton] at h
              rw [h]
              omega
          · rw [if_neg hm] at hp
            have := hbound p hp
            simp at this
            omega
        have hpw' : spans'.Pairwise (fun a b => a.2 ≤ b.1) := by
          rw [hspans']
          by_cases hm : m ≤ i - s
          · rw [if_pos hm, List.pairwise_append]
            refine ⟨hpw, by simp, ?_⟩
            intro a ha b hb2
            rw [List.mem_singleton] at hb2
            subst hb2
            simpa using hbound a ha
          · rw [if_neg hm]
            exact hpw
        obtain ⟨hmem, hpw2⟩ := ih (i + 1) none spans' hrest'.symm (by omega) hinv' hbound' hpw'
        constructor
        · intro p
          have hgo : findSpansGo m i (some s) spans (ch :: rest') =
              findSpansGo m (i + 1) none spans' rest' := by
            simp only [findSpansGo, if_neg hb, hspans']
          rw [hgo, hmem p]
          constructor
          · rintro (hp | ⟨hrun, hm2, hpend⟩)
            · rw [hspans'] at hp
              by_cases hm : m ≤ i - s
              · rw [if_pos hm] at hp
                rcases List.mem_append.mp hp with h | h
                · exact Or.inl h
                · rw [List.mem_singleton] at h
                  refine Or.inr ⟨h ▸ hmax, by rw [h]; exact hm, ?_⟩
                  rw [h]
                  exact Or.inl rfl
              · rw [if_neg hm] at hp
                exact Or.inl hp
            · exact Or.inr ⟨hrun, hm2, Or.inr (by simp only [SpanPending] at hpend; omega)⟩
          · rintro (hp | ⟨hrun, hm2, hpend⟩)
            · refine Or.inl ?_
              rw [hspans']
              by_cases hm : m ≤ i - s
              · rw [if_pos hm]
                exact List.mem_append.mpr (Or.inl hp)
              · rw [if_neg hm]
                exact hp
            · rcases hpend with hpend | hpend
              · -- the pending open run is closed at exactly `(s, i)`
                have hend : p.2 = i := IsMaxB64Run.end_unique (hpend ▸ hrun) hmax
                have hpeq : p = (s, i) := by
                  rcases p with ⟨a, b⟩
                  simp_all
                refine Or.inl ?_
                rw [hspans', if_pos (by rw [hpeq] at hm2; simpa using hm2)]
                exact List.mem_append.mpr (Or.inr (by rw [hpeq]; simp))
              · refine Or.inr ⟨hrun, hm2, ?_⟩
                simp only [SpanPending]
                rcases Nat.lt_or_ge p.1 (i + 1) with hlt | hge
                · exfalso
                  rcases Nat.lt_or_ge p.1 i with hlt2 | hge2
                  · omega
                  · have : p.1 = i := by omega
                    exact hnoStart p.2 (this ▸ hrun)
                · exact hge
        · have hgo : findSpansGo m i (some s) spans (ch :: rest') =
              findSpansGo m (i + 1) none spans' rest' := by
            simp only [findSpansGo, if_neg hb, hspans']
          rw [hgo]
          exact hpw2

/-- Full characterisation of `find_base64_like_spans`. -/
theorem find_base64_like_spans_spec (t : List Char) (m : Nat) :
    (∀ p : Nat × Nat, p ∈ find_base64_like_spans t m ↔
      IsMaxB64Run t p.1 p.2 ∧ m ≤ p.2 - p.1) ∧
    (find_base64_like_spans t m).Pairwise (fun a b => a.2 ≤ b.1) := by
  have h := findSpansGo_spec m t t 0 none [] (by simp) (by omega)
    (Or.inl rfl) (by simp) (by simp)
  rw [show findSpansGo m 0 none [] t = find_base64_like_spans t m from rfl] at h
  refine ⟨fun p => ?_, h.2⟩
  rw [h.1 p]
  simp [SpanPending]

/-! ## UTF-8 and Base64 codecs (models of `bytes.decode`/`base64.b64decode`
and `base64.b64encode` from the Python standard library, used by
`src/modules/normalizer.py`) -/

/-- UTF-8 encoding of one code point (RFC 3629). -/
def utf8EncodeChar (c : Char) : List Nat :=
  let n := c.toNat
  if n < 0x80 then [n]
  else if n < 0x800 then [0xC0 + n / 64, 0x80 + n % 64]
  else if n < 0x10000 then
    [0xE0 + n / 4096, 0x80 + (n / 64) % 64, 0x80 + n % 64]
  else
    [0xF0 + n / 262144, 0x80 + (n / 4096) % 64, 0x80 + (n / 64) % 64, 0x80 + n % 64]

/-- UTF-8 encoding of a string, as a byte list (model of `str.encode`). -/
def utf8Encode (s : List Char) : List Nat := s.flatMap utf8EncodeChar

/-- Is `b` a UTF-8 continuation byte (`0x80 ≤ b < 0xC0`)? -/
def utf8IsCont (b : Nat) : Bool := 0x80 ≤ b && b < 0xC0

/-- One pass of UTF-8 decoding with an error substitution `repl`
(spliced in place of an invalid byte, which is skipped; with `repl = []`
this models `errors="ignore"`, with `repl = [U+FFFD]` it models
`errors="replace"`; CPython may skip an invalid multi-byte prefix in one
step where this model skips it byte by byte — the difference never shows
on the inputs of this development, which are valid or purely ASCII).
Every step consumes at least one byte, so fuel `bs.length` suffices. -/
def utf8DecodeGo (repl : List Char) : Nat → List Nat → List Char
  | 0, _ => []
  | fuel + 1, bs =>
    match bs with
    | [] => []
    | b :: rest =>
      if b < 0x80 then Char.ofNat b :: utf8DecodeGo repl fuel rest
      else if 0xC2 ≤ b ∧ b ≤ 0xDF then
        if 1 ≤ rest.length ∧ utf8IsCont (rest.getD 0 0) = true then
          Char.ofNat ((b - 0xC0) * 64 + (rest.getD 0 0 - 0x80)) ::
            utf8DecodeGo repl fuel (rest.drop 1)
        else repl ++ utf8DecodeGo repl fuel rest
      else if 0xE0 ≤ b ∧ b ≤ 0xEF then
        if 2 ≤ rest.length ∧ utf8IsCont (rest.getD 0 0) = true ∧
            utf8IsCont (rest.getD 1 0) = true ∧
            (b ≠ 0xE0 ∨ 0xA0 ≤ rest.getD 0 0) ∧ (b ≠ 0xED ∨ rest.getD 0 0 < 0xA0) then
          Char.ofNat ((b - 0xE0) * 4096 + (rest.getD 0 0 - 0x80) * 64 +
              (rest.getD 1 0 - 0x80)) ::
            utf8DecodeGo repl fuel (rest.drop 2)
        else repl ++ utf8DecodeGo repl fuel rest
      else if 0xF0 ≤ b ∧ b ≤ 0xF4 then
        if 3 ≤ rest.length ∧ utf8IsCont (rest.getD 0 0) = true ∧
            utf8IsCont (rest.getD 1 0) = true ∧ utf8IsCont (rest.getD 2 0) = true ∧
            (b ≠ 0xF0 ∨ 0x90 ≤ rest.getD 0 0) ∧ (b ≠ 0xF4 ∨ rest.getD 0 0 < 0x90) then
          Char.ofNat ((b - 0xF0) * 262144 + (rest.getD 0 0 - 0x80) * 4096 +
              (rest.getD 1 0 - 0x80) * 64 + (rest.getD 2 0 - 0x80)) ::
            utf8DecodeGo repl fuel (rest.drop 3)
        else repl ++ utf8DecodeGo repl fuel rest
      else repl ++ utf8DecodeGo repl fuel rest

/-- UTF-8 decoding of a byte list with an error substitution `repl`. -/
def utf8DecodeWith (repl : List Char) (bs : List Nat) : List Char :=
  utf8DecodeGo repl bs.length bs

/-- Model of `bytes.decode("utf-8", errors="ignore")`. -/
def utf8DecodeIgnore (bs : List Nat) : List Char := utf8DecodeWith [] bs

/-- Model of `bytes.decode("utf-8", errors="replace")`. -/
def utf8DecodeReplace (bs : List Nat) : List Char :=
  utf8DecodeWith [Char.ofNat 0xFFFD] bs

/-- The Base64 alphabet value of a character (`None` off the alphabet;
`'='` is not a data character). -/
def b64CharVal (c : Char) : Option Nat :=
  if 'A' ≤ c ∧ c ≤ 'Z' then some (c.toNat - 65)
  else if 'a' ≤ c ∧ c ≤ 'z' then some (c.toNat - 97 + 26)
  else if '0' ≤ c ∧ c ≤ '9' then some (c.toNat - 48 + 52)
  else if c = '+' then some 62
  else if c = '/' then some 63
  else none

/-- The Base64 alphabet character of a 6-bit value. -/
def b64AlphaChar (n : Nat) : Char :=
  if n < 26 then Char.ofNat (65 + n)
  else if n < 52 then Char.ofNat (97 + n - 26)
  else if n < 62 then Char.ofNat (48 + n - 52)
  else if n = 62 then '+'
  else '/'

/-- Reassemble bytes from a list of 6-bit values (4 values → 3 bytes; a
final group of 3 → 2 bytes, of 2 → 1 byte, of 1 → none). -/
def b64Quads : List Nat → List Nat
  | a :: b :: c :: d :: rest =>
    (a * 4 + b / 16) :: ((b % 16) * 16 + c / 4) :: ((c % 4) * 64 + d) :: b64Quads rest
  | [a, b, c] => [a * 4 + b / 16, (b % 16) * 16 + c / 4]
  | [a, b] => [a * 4 + b / 16]
  | [_] => []
  | [] => []

/-- The number of trailing `'='` characters of `s`. -/
def trailingEq (s : List Char) : Nat := (s.reverse.takeWhile (· = '=')).length

/-- Model of `base64.b64decode(s, validate=True)` as a byte list: the input
must match `[A-Za-z0-9+/]*={0,2}` (padding only at the end, at most two),
and the number of data characters must not be 1 more than a multiple of 4. -/
def b64decodeBytes (s : List Char) : Option (List Nat) :=
  let pad := trailingEq s
  if 2 < pad then none
  else
    match (s.take (s.length - pad)).mapM b64CharVal with
    | none => none
    | some vals => if vals.length % 4 = 1 then none else some (b64Quads vals)

/-- Model of `base64.b64encode` on a byte list, as Base64 characters. -/
def b64encodeBytes : List Nat → List Char
  | a :: b :: c :: rest =>
    b64AlphaChar (a / 4) :: b64AlphaChar ((a % 4) * 16 + b / 16) ::
    b64AlphaChar ((b % 16) * 4 + c / 64) :: b64AlphaChar (c % 64) :: b64encodeBytes rest
  | [a, b] =>
    [b64AlphaChar (a / 4), b64AlphaChar ((a % 4) * 16 + b / 16),
     b64AlphaChar ((b % 16) * 4), '=']
  | [a] => [b64AlphaChar (a / 4), b64AlphaChar ((a % 4) * 16), '=', '=']
  | [] => []

/-- Base64-encode a string: encode its UTF-8 bytes (model of
`base64.b64encode(s.encode()).decode()`). -/
def b64encodeStr (s : List Char) : List Char := b64encodeBytes (utf8Encode s)

/-! ## Models of `unicodedata.normalize`, `urllib.parse.unquote` and
`re.sub` as used by `src/modules/normalizer.py` -/

/-- Model of `unicodedata.normalize("NFKC", s)`.  NFKC is the identity on
every ASCII string — and every string this development feeds through it is
ASCII; the Unicode character database itself is external to the repository. -/
def unicodeNFKC (s : List Char) : List Char := s

/-- Hexadecimal value of a character, if any. -/
def hexVal (c : Char) : Option Nat :=
  if '0' ≤ c ∧ c ≤ '9' then some (c.toNat - 48)
  else if 'a' ≤ c ∧ c ≤ 'f' then some (c.toNat - 97 + 10)
  else if 'A' ≤ c ∧ c ≤ 'F' then some (c.toNat - 65 + 10)
  else none

/-- The maximal run of `%XX` byte escapes at the head of the list:
the decoded bytes and the remaining characters. -/
def percentRun : List Char → List Nat × List Char
  | [] => ([], [])
  | [c] => ([], [c])
  | [c, d] => ([], [c, d])
  | c :: h1 :: h2 :: rest =>
    if c = '%' then
      match hexVal h1, hexVal h2 with
      | some v1, some v2 =>
        let p := percentRun rest
        ((v1 * 16 + v2) :: p.1, p.2)
      | _, _ => ([], c :: h1 :: h2 :: rest)
    else ([], c :: h1 :: h2 :: rest)

theorem percentRun_length : ∀ (s : List Char),
    (percentRun s).2.length + 3 * (percentRun s).1.length = s.length
  | [] => by simp [percentRun]
  | [c] => by simp [percentRun]
  | [c, d] => by simp [percentRun]
  | c :: h1 :: h2 :: rest => by
    by_cases hc : c = '%'
    · cases hv1 : hexVal h1 with
      | none => simp [percentRun, hc, hv1]
      | some v1 =>
        cases hv2 : hexVal h2 with
        | none => simp [percentRun, hc, hv1, hv2]
        | some v2 =>
          have ih := percentRun_length rest
          simp only [percentRun, if_pos hc, hv1, hv2]
          simp
          omega
    · simp [percentRun, hc]

/-- Fuel-driven loop of `pyUnquote` (each step strictly shortens the
remaining list — `percentRun_length` — so fuel `s.length` suffices). -/
def pyUnquoteGo : Nat → List Char → List Char
  | 0, s => s
  | fuel + 1, s =>
    match s with
    | [] => []
    | c :: rest =>
      if c = '%' then
        if (percentRun (c :: rest)).1 = [] then c :: pyUnquoteGo fuel rest
        else
          utf8DecodeReplace (percentRun (c :: rest)).1 ++
            pyUnquoteGo fuel (percentRun (c :: rest)).2
      else c :: pyUnquoteGo fuel rest

/-- Model of `urllib.parse.unquote`: maximal runs of `%XX` escapes are
decoded as UTF-8 byte sequences (`errors="replace"`); a `%` not followed
by two hex digits stays literal. -/
def pyUnquote (s : List Char) : List Char := pyUnquoteGo s.length s

/-- Fuel-driven loop of `replaceRuns` (`dropWhile` never lengthens the
list, so fuel `s.length` suffices). -/
def replaceRunsGo (p : Char → Bool) (r : Char) : Nat → List Char → List Char
  | 0, s => s
  | fuel + 1, s =>
    match s with
    | [] => []
    | c :: rest =>
      if p c then r :: replaceRunsGo p r fuel (rest.dropWhile p)
      else c :: replaceRunsGo p r fuel rest

/-- Replace every maximal run of characters satisfying `p` by the single
character `r` (model of `re.sub(pattern-class+, r, s)`). -/
def replaceRuns (p : Char → Bool) (r : Char) (s : List Char) : List Char :=
  replaceRunsGo p r s.length s

/-- Model of Python `str.strip()` (with the ASCII whitespace model). -/
def pyStrip (s : List Char) : List Char :=
  ((s.dropWhile pyIsSpaceChar).reverse.dropWhile pyIsSpaceChar).reverse

/-! ## `src/modules/normalizer.py` -/

/-- The `Normalizer` configuration, with the constructor defaults of
`Normalizer.__init__`. -/
structure Normalizer where
  max_decode_depth : Nat := 2
  enable_base64 : Bool := true
  enable_url_decode : Bool := true
  enable_unicode_norm : Bool := true
  collapse_whitespace : Bool := true
  lowercase : Bool := false
  enable_substring_base64 : Bool := true
  min_base64_substring_len : Nat := 8
  base64_entropy_threshold : ℚ := ⟨5, 2, by decide, by decide⟩
  max_base64_substrings : Nat := 10
  enable_separator_normalization : Bool := false

/-- Decides `shannon_entropy(s) < q` exactly.  With character counts `c`
over the distinct characters of `s` and `n = |s|`, the entropy of
`base64_helpers.shannon_entropy` is `(log₂ n^n - log₂ ∏ c^c) / n`; for
`q = a / b` with `a = max(num q, 0)` and `b = den q`, monotonicity of
`log₂` turns the comparison into the integer comparison
`n^(b·n) < 2^(a·n) · ∏ c^(b·c)`.  (The source compares floating-point
values; this model decides the real comparison exactly.) -/
def shannonEntropyLt (s : List Char) (q : ℚ) : Bool :=
  if s.isEmpty then decide ((0 : ℚ) < q)
  else
    let n := s.length
    let a := q.num.toNat
    let b := q.den
    decide (n ^ (b * n) <
      2 ^ (a * n) * ((s.dedup).map (fun c => (s.count c) ^ (b * s.count c))).prod)

/-- `Normalizer._is_mostly_printable` with its default threshold `0.9`:
nonempty, and at least 90% of the characters printable. -/
def is_mostly_printable (text : List Char) : Bool :=
  if text.isEmpty then false
  else 9 * text.length ≤ 10 * text.countP pyIsPrintableChar

/-- `Normalizer._safe_base64_decode`: remove all whitespace, require the
length to be a multiple of 4, decode with strict validation, and decode
the bytes as UTF-8 ignoring errors; `None` on any failure. -/
def safe_base64_decode (text : List Char) : Option (List Char) :=
  let compact := text.filter (fun c => !pyIsSpaceChar c)
  if compact.length % 4 ≠ 0 then none
  else (b64decodeBytes compact).map utf8DecodeIgnore

/-- The loop of `Normalizer._recursive_base64_decode`: `depth` counts the
decodes done so far (for the step names), `fuel` the remaining range. -/
def recursiveB64Go (depth fuel : Nat) (out : List Char) (steps : List String) :
    List Char × List String :=
  match fuel with
  | 0 => (out, steps)
  | fuel + 1 =>
    match safe_base64_decode out with
    | none => (out, steps)
    | some candidate =>
      if is_mostly_printable candidate then
        recursiveB64Go (depth + 1) fuel candidate
          (steps ++ ["base64_decode_depth_" ++ toString (depth + 1)])
      else (out, steps)

/-- `Normalizer._recursive_base64_decode`. -/
def recursive_base64_decode (nm : Normalizer) (text : List Char) :
    List Char × List String :=
  recursiveB64Go 0 nm.max_decode_depth text []

/-- The loop of `Normalizer._decode_base64_substrings`: processes the
candidate spans left to right. `last` is the end of the last replaced
span, `acc` the replacement segments built so far (`new_text`). -/
def decodeSubsGo (nm : Normalizer) (out : List Char) :
    List (Nat × Nat) → Nat → List (List Char) → Bool → List String →
    List (List Char) × Nat × Bool × List String
  | [], last, acc, modified, steps => (acc, last, modified, steps)
  | (s, e) :: spans, last, acc, modified, steps =>
    let candidate := (out.drop s).take (e - s)
    if shannonEntropyLt candidate nm.base64_entropy_threshold then
      decodeSubsGo nm out spans last acc modified steps
    else
      match safe_base64_decode candidate with
      | none => decodeSubsGo nm out spans last acc modified steps
      | some decoded =>
        if decoded.isEmpty then decodeSubsGo nm out spans last acc modified steps
        else if is_mostly_printable decoded then
          decodeSubsGo nm out spans e
            (acc ++ [(out.drop last).take (s - last), decoded]) true
            (steps ++ ["base64_substring_decode"])
        else decodeSubsGo nm out spans last acc modified steps

/-- `Normalizer._decode_base64_substrings`. -/
def decode_base64_substrings (nm : Normalizer) (text : List Char) :
    List Char × List String :=
  let spans := find_base64_like_spans text nm.min_base64_substring_len
  if spans.isEmpty then (text, [])
  else
    let res := decodeSubsGo nm text (spans.take nm.max_base64_substrings) 0 [] false []
    if res.2.2.1 then ((res.1 ++ [text.drop res.2.1]).flatten, res.2.2.2)
    else (text, res.2.2.2)

/-- Stage 1 of `normalize`: Unicode NFKC normalization. -/
def stageUnicode (nm : Normalizer) (out : List Char) : List Char × List String :=
  if nm.enable_unicode_norm then
    let new_out := unicodeNFKC out
    if new_out ≠ out then (new_out, ["unicode_nfkc"]) else (out, [])
  else (out, [])

/-- Stage 2 of `normalize`: URL percent-decoding. -/
def stageUrl (nm : Normalizer) (out : List Char) : List Char × List String :=
  if nm.enable_url_decode then
    let decoded := pyUnquote out
    if decoded ≠ out then (decoded, ["url_decode"]) else (out, [])
  else (out, [])

/-- Stage 3A of `normalize`: entropy-gated substring Base64 decoding
(requires both the master and the substring flag). -/
def stageSubstringB64 (nm : Normalizer) (out : List Char) : List Char × List String :=
  if nm.enable_base64 && nm.enable_substring_base64 then
    decode_base64_substrings nm out
  else (out, [])

/-- Stage 3 of `normalize`: bounded whole-text recursive Base64 decoding. -/
def stageRecursiveB64 (nm : Normalizer) (out : List Char) : List Char × List String :=
  if nm.enable_base64 then recursive_base64_decode nm out else (out, [])

/-- The separator class `[_\-#]` of the separator-normalization stage. -/
def isSepChar (c : Char) : Bool := c == '_' || c == '-' || c == '#'

/-- Stage 4 of `normalize`: separator normalization. -/
def stageSeparators (nm : Normalizer) (out : List Char) : List Char × List String :=
  if nm.enable_separator_normalization then
    let new_out := replaceRuns isSepChar ' ' out
    if new_out ≠ out then (new_out, ["normalize_separators"]) else (out, [])
  else (out, [])

/-- Stage 4 (second) of `normalize`: whitespace collapse and trim. -/
def stageWhitespace (nm : Normalizer) (out : List Char) : List Char × List String :=
  if nm.collapse_whitespace then
    let new_out := pyStrip (replaceRuns pyIsSpaceChar ' ' out)
    if new_out ≠ out then (new_out, ["collapse_whitespace"]) else (out, [])
  else (out, [])

/-- Stage 5 of `normalize`: optional lowercasing. -/
def stageLowercase (nm : Normalizer) (out : List Char) : List Char × List String :=
  if nm.lowercase then
    let new_out := pyLower out
    if new_out ≠ out then (new_out, ["lowercase"]) else (out, [])
  else (out, [])

/-- The stages of `Normalizer.normalize`, in the source's fixed order. -/
def normalizeStages (nm : Normalizer) : List (List Char → List Char × List String) :=
  [stageUnicode nm, stageUrl nm, stageSubstringB64 nm, stageRecursiveB64 nm,
   stageSeparators nm, stageWhitespace nm, stageLowercase nm]

/-- Run stages in order, threading the text and concatenating the steps. -/
def applyStages (stages : List (List Char → List Char × List String))
    (text : List Char) : List Char × List String :=
  stages.foldl (fun acc st => ((st acc.1).1, acc.2 ++ (st acc.1).2)) (text, [])

/-- `Normalizer.normalize`: the fixed seven-stage pipeline. -/
def normalize (nm : Normalizer) (text : List Char) : List Char × List String :=
  applyStages (normalizeStages nm) text

/-! ## `src/modules/regex_engine.py`

Python's `re` module is external to the repository; it is modelled for the
pattern fragment the rules of this development use — literal characters,
the class `\d`, and `{n}` counted repetition — with `re.finditer`'s
leftmost, non-overlapping scan semantics. -/

/-- The integer constant `re.IGNORECASE` (bit 1, value 2). -/
def RE_IGNORECASE : Nat := 2

/-- `RegexRule` with its dataclass defaults: `flags = re.IGNORECASE`
(an integer bitmask field, not a boolean case-sensitivity flag),
`entity_type = None`, `confidence = 1.0`. -/
structure RegexRule where
  id : String
  pattern : String
  flags : Nat := RE_IGNORECASE
  entity_type : Option String := none
  confidence : ℚ := 1
  deriving DecidableEq, Repr

/-- `RegexMatch` (the field `end` is spelled `mend`: `end` is a Lean keyword). -/
structure RegexMatch where
  rule_id : String
  entity_type : String
  start : Nat
  mend : Nat
  text : List Char
  confidence : ℚ
  deriving DecidableEq, Repr

/-- One element of a compiled pattern: a literal character or `\d`. -/
inductive RElem where
  | lit (c : Char)
  | digit
  deriving DecidableEq, Repr

/-- Parse the digits of a `{n}` repetition up to the closing brace. -/
def reCount : List Char → Nat → Bool → Option (Nat × List Char)
  | [], _, _ => none
  | c :: rest, acc, seen =>
    if c.isDigit then reCount rest (acc * 10 + (c.toNat - 48)) true
    else if c = '}' ∧ seen then some (acc, rest)
    else none

/-- Fuel-driven loop of `re.compile` for the supported fragment (`acc`
holds the elements parsed so far, in reverse); `none` models a compile
error.  Each step strictly shortens the remaining pattern, so fuel
`pattern.length` suffices. -/
def reCompileGo : Nat → List RElem → List Char → Option (List RElem)
  | _, acc, [] => some acc.reverse
  | 0, _, _ :: _ => none
  | fuel + 1, acc, c :: rest =>
    if c = '\\' then
      match rest with
      | [] => none
      | d :: rest2 =>
        if d = 'd' then reCompileGo fuel (RElem.digit :: acc) rest2 else none
    else if c = '{' then
      match acc, reCount rest 0 false with
      | prev :: acc2, some (n, rest2) =>
        if n = 0 then none
        else reCompileGo fuel (List.replicate n prev ++ acc2) rest2
      | _, _ => none
    else if c = '}' then none
    else reCompileGo fuel (RElem.lit c :: acc) rest

/-- `re.compile(pattern, flags)` (the flags act at match time). -/
def reCompile (pattern : List Char) : Option (List RElem) :=
  reCompileGo pattern.length [] pattern

/-- Does the element `e` match character `c` under `flags`?  With the
`re.IGNORECASE` bit set, literals compare case-insensitively. -/
def relemMatches (flags : Nat) (e : RElem) (c : Char) : Bool :=
  match e with
  | .digit => pyIsDigitChar c
  | .lit l => if flags.testBit 1 then pyLowerChar l = pyLowerChar c else l = c

/-- Match the element sequence against `t` starting at `i`; returns the
end offset on success. -/
def reMatchAt (flags : Nat) (t : List Char) : List RElem → Nat → Option Nat
  | [], i => some i
  | e :: es, i =>
    match t[i]? with
    | some c => if relemMatches flags e c then reMatchAt flags t es (i + 1) else none
    | none => none

/-- The scan loop of `re.finditer`: leftmost matches, continuing after
each match (advancing one position past a zero-width match). -/
def reFinditerGo (flags : Nat) (elems : List RElem) (t : List Char) :
    Nat → Nat → List (Nat × Nat)
  | 0, _ => []
  | fuel + 1, pos =>
    if pos > t.length then []
    else
      match reMatchAt flags t elems pos with
      | some e =>
        (pos, e) :: reFinditerGo flags elems t fuel (if e = pos then pos + 1 else e)
      | none => reFinditerGo flags elems t fuel (pos + 1)

/-- `re.finditer` as `(start, end)` spans. -/
def reFinditer (flags : Nat) (elems : List RElem) (t : List Char) : List (Nat × Nat) :=
  reFinditerGo flags elems t (t.length + 1) 0

/-- `RegexEngine`: the rules with their compiled patterns. -/
structure RegexEngine where
  rules : List (RegexRule × List RElem)
  deriving DecidableEq, Repr

/-- `RegexEngine.__init__`: compile every rule once; `none` models the
fatal construction error on a malformed pattern. -/
def RegexEngine.build (rules : List RegexRule) : Option RegexEngine :=
  (rules.mapM (fun r => (reCompile r.pattern.toList).map (fun c => (r, c)))).map
    RegexEngine.mk

/-- `RegexEngine.run`: every compiled rule against the text, in rule
order, with `entity_type or "UNKNOWN"` falsy-default semantics. -/
def RegexEngine.run (eng : RegexEngine) (text : List Char) : List RegexMatch :=
  eng.rules.flatMap (fun rc =>
    (reFinditer rc.1.flags rc.2 text).map (fun se =>
      { rule_id := rc.1.id
        entity_type :=
          match rc.1.entity_type with
          | some et => if et = "" then "UNKNOWN" else et
          | none => "UNKNOWN"
        start := se.1
        mend := se.2
        text := (text.drop se.1).take (se.2 - se.1)
        confidence := rc.1.confidence }))

/-! ## `src/modules/aho_corasick.py` -/

def MATCH_SUBSTRING : Nat := 1
def MATCH_PREFIX : Nat := 2
def MATCH_SUFFIX : Nat := 4
def MATCH_FULL_WORD : Nat := 8
def MATCH_FILTERED_WORD : Nat := 16

def WORD_TYPE_ANY : Nat := 0
def WORD_TYPE_ALPHA : Nat := 1
def WORD_TYPE_DIGIT : Nat := 2
def WORD_TYPE_ALNUM : Nat := 4

/-- The `MATCH_WEIGHTS` table (looked up only at its five keys). -/
def matchWeight (mt : Nat) : ℚ :=
  if mt = MATCH_FULL_WORD then 1
  else if mt = MATCH_PREFIX then 3 / 5
  else if mt = MATCH_SUFFIX then 3 / 5
  else if mt = MATCH_SUBSTRING then 1 / 5
  else 7 / 10

/-- The `CharType` enumeration. -/
inductive CharType where
  | any
  | alpha
  | digit
  | alphanumeric
  deriving DecidableEq, Repr

/-- The `WordFilter` dataclass (Python dicts become association lists). -/
structure WordFilter where
  min_length : Option Nat := none
  max_length : Option Nat := none
  exact_length : Option Nat := none
  word_type : CharType := CharType.any
  label : Option String := none
  must_contain : Option (List (List Char)) := none
  min_occurrences : Option (List (List Char × Nat)) := none
  max_occurrences : Option (List (List Char × Nat)) := none

/-- Python truthiness of an optional list (`None` and `[]` are falsy). -/
def pyTruthyOptList {α : Type} : Option (List α) → Bool
  | none => false
  | some l => !l.isEmpty

/-- Python truthiness of an optional string (`None` and `""` are falsy). -/
def pyTruthyOptStr : Option String → Bool
  | none => false
  | some s => s ≠ ""

/-- A match record of `search` (a Python dict with fixed keys; the
`filter_labels` key is present only on filtered-word matches, hence the
`Option`; `end` is spelled `mend`: `end` is a Lean keyword). -/
structure ACMatch where
  keyword : List Char
  start : Nat
  mend : Nat
  length : Nat
  is_word_start : Bool
  is_word_end : Bool
  match_type : Nat
  word_type : Nat
  weight : ℚ
  filter_labels : Option (List String) := none
  deriving DecidableEq, Repr

/-- The `AhoCorasick` state: dense arrays of per-state transition maps
(association lists with unique keys), output sets (duplicate-free lists)
and failure links. -/
structure AhoCorasick where
  transitions : List (List (Char × Nat))
  outputs : List (List (List Char))
  fail : List Nat
  is_built : Bool

/-- `AhoCorasick.__init__`: the lone root state. -/
def AhoCorasick.init : AhoCorasick := ⟨[[]], [[]], [0], false⟩

/-- Lookup in a per-state transition map (Python `char in dict` /
`dict[char]` / `dict.get(char)`). -/
def lookupTrans (m : List (Char × Nat)) (c : Char) : Option Nat :=
  (m.find? (fun p => p.1 = c)).map (·.2)

/-- The insertion loop of `add_pattern`: walk existing edges, appending a
fresh state (index `len(transitions)`) for each missing one; returns the
automaton and the terminal state. -/
def addPatternGo (ac : AhoCorasick) (state : Nat) : List Char → AhoCorasick × Nat
  | [] => (ac, state)
  | c :: cs =>
    match lookupTrans (ac.transitions.getD state []) c with
    | some nxt => addPatternGo ac nxt cs
    | none =>
      let n := ac.transitions.length
      let ac' : AhoCorasick :=
        { transitions :=
            (ac.transitions.set state ((ac.transitions.getD state []) ++ [(c, n)])) ++ [[]]
          outputs := ac.outputs ++ [[]]
          fail := ac.fail ++ [0]
          is_built := ac.is_built }
      addPatternGo ac' n cs

/-- Add to a Python set modelled as a duplicate-free list. -/
def setAdd (l : List (List Char)) (x : List Char) : List (List Char) :=
  if x ∈ l then l else l ++ [x]

/-- Union of two Python sets modelled as duplicate-free lists
(`set.update`). -/
def setUnion (a b : List (List Char)) : List (List Char) :=
  a ++ b.filter (fun x => decide (x ∉ a))

/-- `add_pattern`: a `RuntimeError` after `build()`, otherwise trie
insertion and registration of the pattern at its terminal state. -/
def add_pattern (ac : AhoCorasick) (pattern : List Char) : Except String AhoCorasick :=
  if ac.is_built then .error "Cannot add patterns after building the automaton."
  else
    let r := addPatternGo ac 0 pattern
    .ok { r.1 with
          outputs := r.1.outputs.set r.2 (setAdd (r.1.outputs.getD r.2 []) pattern) }

/-- The `while fail_state > 0 and char not in transitions[fail_state]`
walk of `build` and `search`, with fuel (the walk strictly decreases trie
depth, so fuel `len(transitions)` never runs out on API-built automata). -/
def failWalk (ac : AhoCorasick) (c : Char) : Nat → Nat → Nat
  | 0, st => st
  | fuel + 1, st =>
    if 0 < st ∧ (lookupTrans (ac.transitions.getD st []) c) = none then
      failWalk ac c fuel (ac.fail.getD st 0)
    else st

/-- Body of the BFS loop of `build` for one dequeued state `cur`:
for each child edge `(c, nxt)` set `fail[nxt]` via the failure walk and
union the child's outputs with those of its failure state. -/
def buildChildrenGo (cur : Nat) : AhoCorasick → List (Char × Nat) → AhoCorasick
  | ac, [] => ac
  | ac, (c, nxt) :: rest =>
    let fs := failWalk ac c ac.transitions.length (ac.fail.getD cur 0)
    let f := (lookupTrans (ac.transitions.getD fs []) c).getD 0
    let ac' : AhoCorasick :=
      { ac with
        fail := ac.fail.set nxt f
        outputs :=
          ac.outputs.set nxt (setUnion (ac.outputs.getD nxt []) (ac.outputs.getD f [])) }
    buildChildrenGo cur ac' rest

/-- The BFS `while queue` loop of `build`, with fuel (each state is
enqueued at most once, so fuel `len(transitions)` suffices). -/
def buildLoop : Nat → List Nat → AhoCorasick → AhoCorasick
  | 0, _, ac => ac
  | _ + 1, [], ac => ac
  | fuel + 1, cur :: queue, ac =>
    let children := ac.transitions.getD cur []
    buildLoop fuel (queue ++ children.map (·.2)) (buildChildrenGo cur ac children)

/-- `build`: initialise the root's children (failure to root), then the
BFS over the trie; finally mark the automaton built. -/
def build (ac : AhoCorasick) : AhoCorasick :=
  let roots := (ac.transitions.getD 0 []).map (·.2)
  let ac0 : AhoCorasick := { ac with fail := roots.foldl (fun f n => f.set n 0) ac.fail }
  let ac1 := buildLoop ac.transitions.length roots ac0
  { ac1 with is_built := true }

/-- Step 3 of `search`: the non-alphanumeric characters of all filters'
`must_contain` substrings (a Python set; only membership is used). -/
def allowedSpecialChars (wfs : List WordFilter) : List Char :=
  (wfs.flatMap (fun wf => (wf.must_contain.getD []).flatMap id)).filter
    (fun c => !pyIsAlnumChar c)

/-- Does `word` pass every constraint of `wf` (the chain of `continue`
checks of `_process_word_filters`, label excluded)? -/
def filterAccepts (word : List Char) (wf : WordFilter) : Bool :=
  let length := word.length
  (match wf.exact_length with | some n => length = n | none => true) &&
  (match wf.min_length with | some n => n ≤ length | none => true) &&
  (match wf.max_length with | some n => length ≤ n | none => true) &&
  (match wf.word_type with
    | CharType.alpha => pyStrIsAlpha word
    | CharType.digit => pyStrIsDigit word
    | CharType.alphanumeric => pyStrIsAlnum word
    | CharType.any => true) &&
  (if pyTruthyOptList wf.must_contain then
      (wf.must_contain.getD []).all (fun sub => pyContains word sub)
    else true) &&
  (if pyTruthyOptList wf.min_occurrences then
      (wf.min_occurrences.getD []).all (fun p => p.2 ≤ pyCount word p.1)
    else true) &&
  (if pyTruthyOptList wf.max_occurrences then
      (wf.max_occurrences.getD []).all (fun p => pyCount word p.1 ≤ p.2)
    else true)

/-- `_process_word_filters` on the word `text[s:e]`: `none` when no
(truthy-labelled) filter matched, otherwise the FILTERED_WORD match
carrying the labels of all matching filters, in filter order. -/
def process_word_filters (text : List Char) (s e : Nat) (wfs : List WordFilter) :
    Option ACMatch :=
  let word := (text.drop s).take (e - s)
  let matching_labels := (wfs.filter (fun wf => filterAccepts word wf)).filterMap
    (fun wf => match wf.label with
      | some l => if l = "" then none else some l
      | none => none)
  if matching_labels.isEmpty then none
  else
    some { keyword := word
           start := s
           mend := e
           length := word.length
           is_word_start := true
           is_word_end := true
           match_type := MATCH_FILTERED_WORD
           word_type :=
             if pyStrIsAlpha word then WORD_TYPE_ALPHA
             else if pyStrIsDigit word then WORD_TYPE_DIGIT
             else if pyStrIsAlnum word then WORD_TYPE_ALNUM
             else WORD_TYPE_ANY
           weight := matchWeight MATCH_FILTERED_WORD
           filter_labels := some matching_labels }

/-- Step 4a of `search`: the failure walk, then the transition (root on
total failure). -/
def searchStep (ac : AhoCorasick) (st : Nat) (c : Char) : Nat :=
  let st' := failWalk ac c ac.transitions.length st
  (lookupTrans (ac.transitions.getD st' []) c).getD 0

/-- Step 4b of `search`: the matches reported at state `st` after reading
the character at index `i`.  (Python computes `start = i - len + 1`,
which on an API-built automaton is never negative since every reported
pattern is a suffix of the text read so far; `Nat` subtraction models it.) -/
def emitMatches (text : List Char) (i : Nat) (st : Nat) (ac : AhoCorasick) :
    List ACMatch :=
  (ac.outputs.getD st []).map (fun pattern =>
    let start := i + 1 - pattern.length
    let e := i + 1
    let is_word_start : Bool := start = 0 || !pyIsAlnumChar (text.getD (start - 1) ' ')
    let is_word_end : Bool := e = text.length || !pyIsAlnumChar (text.getD e ' ')
    let match_type :=
      if is_word_start && is_word_end then MATCH_FULL_WORD
      else if is_word_start then MATCH_PREFIX
      else if is_word_end then MATCH_SUFFIX
      else MATCH_SUBSTRING
    { keyword := pattern
      start := start
      mend := e
      length := pattern.length
      is_word_start := is_word_start
      is_word_end := is_word_end
      match_type := match_type
      word_type :=
        if pyStrIsAlpha pattern then WORD_TYPE_ALPHA
        else if pyStrIsDigit pattern then WORD_TYPE_DIGIT
        else if pyStrIsAlnum pattern then WORD_TYPE_ALNUM
        else WORD_TYPE_ANY
      weight := matchWeight match_type
      filter_labels := none })

/-- The character loop of `search` (step 4): `i` the current index, `st`
the automaton state, `cws` the `current_word_start` register (`-1`
modelled as `none`), `results` the accumulator; returns the results and
the final `current_word_start`. -/
def searchGo (ac : AhoCorasick) (text : List Char) (wfs : List WordFilter)
    (hasFilters : Bool) (allowed : List Char) :
    List Char → Nat → Nat → Option Nat → List ACMatch → List ACMatch × Option Nat
  | [], _, _, cws, results => (results, cws)
  | c :: rest, i, st, cws, results =>
    let st' := searchStep ac st c
    let results := results ++ emitMatches text i st' ac
    if hasFilters then
      if pyIsAlnumChar c || c ∈ allowed then
        searchGo ac text wfs hasFilters allowed rest (i + 1) st' (some (cws.getD i)) results
      else
        match cws with
        | some ws =>
          searchGo ac text wfs hasFilters allowed rest (i + 1) st' none
            (results ++ (process_word_filters text ws i wfs).toList)
        | none => searchGo ac text wfs hasFilters allowed rest (i + 1) st' none results
    else searchGo ac text wfs hasFilters allowed rest (i + 1) st' cws results

/-- `search`: builds the automaton when not yet built (mutating `self` —
returned as the first component), then scans.  `word_filters` is the
optional Python argument; `if word_filters:` truthiness makes `None` and
`[]` equivalent. -/
def search (ac : AhoCorasick) (text : List Char)
    (word_filters : Option (List WordFilter)) : AhoCorasick × List ACMatch :=
  let ac := if ac.is_built then ac else build ac
  let wfs := word_filters.getD []
  let hasFilters := pyTruthyOptList word_filters
  let allowed := allowedSpecialChars wfs
  let r := searchGo ac text wfs hasFilters allowed text 0 0 none []
  let results :=
    match hasFilters, r.2 with
    | true, some ws => r.1 ++ (process_word_filters text ws text.length wfs).toList
    | _, _ => r.1
  (ac, results)

/-- The sort key of `search_normalized`: start ascending, then length
descending (as a total preorder for a stable insertion sort, matching
Python's stable `list.sort`). -/
def matchLE (a b : ACMatch) : Prop :=
  a.start < b.start ∨ (a.start = b.start ∧ b.length ≤ a.length)

instance : DecidableRel matchLE := fun a b => by
  unfold matchLE
  infer_instance

/-- The greedy non-overlap filter of `search_normalized`
(`last_end_index` starts at `-1`, hence the `Int`). -/
def normalizeMatchesGo : List ACMatch → Int → List ACMatch
  | [], _ => []
  | m :: rest, last =>
    if (m.start : Int) ≥ last then m :: normalizeMatchesGo rest (m.mend : Int)
    else normalizeMatchesGo rest last

/-- `search_normalized`: sort by `(start, -length)` then keep greedily. -/
def search_normalized (ac : AhoCorasick) (text : List Char)
    (word_filters : Option (List WordFilter)) : AhoCorasick × List ACMatch :=
  let r := search ac text word_filters
  (r.1, normalizeMatchesGo (r.2.insertionSort matchLE) (-1))

/-! ## Proofs about the regex engine -/

theorem pyLowerChar_idem (c : Char) : pyLowerChar (pyLowerChar c) = pyLowerChar c := by
  unfold pyLowerChar Char.toLower
  simp only []
  by_cases h : c.toNat ≥ 65 ∧ c.toNat ≤ 90
  · rw [if_pos h]
    have hv : (c.toNat + 32).isValidChar := by
      constructor
      have := h.2
      omega
    have ht : (Char.ofNat (c.toNat + 32)).toNat = c.toNat + 32 := by
      rw [Char.ofNat, dif_pos hv]
      rfl
    rw [ht, if_neg (by omega)]
  · rw [if_neg h, if_neg h]

theorem pyLowerChar_toNat (c : Char) :
    pyLowerChar c = c ∨ (65 ≤ c.toNat ∧ c.toNat ≤ 90 ∧
      (pyLowerChar c).toNat = c.toNat + 32) := by
  unfold pyLowerChar Char.toLower
  simp only []
  by_cases h : c.toNat ≥ 65 ∧ c.toNat ≤ 90
  · refine Or.inr ⟨h.1, h.2, ?_⟩
    rw [if_pos h]
    have hv : (c.toNat + 32).isValidChar := by
      constructor
      have := h.2
      omega
    rw [Char.ofNat, dif_pos hv]
    rfl
  · rw [if_neg h]
    exact Or.inl rfl

theorem charLe_toNat (a b : Char) : a ≤ b ↔ a.toNat ≤ b.toNat := by
  simp [Char.le_def, UInt32.le_def, BitVec.le_def, Char.toNat]
  exact Iff.rfl

theorem isDigit_toNat (x : Char) : x.isDigit = true ↔ (48 ≤ x.toNat ∧ x.toNat ≤ 57) := by
  simp [Char.isDigit, Char.le_def, UInt32.le_def, BitVec.le_def, Char.toNat]
  exact Iff.rfl

theorem isAlpha_toNat (x : Char) : x.isAlpha = true ↔
    ((65 ≤ x.toNat ∧ x.toNat ≤ 90) ∨ (97 ≤ x.toNat ∧ x.toNat ≤ 122)) := by
  simp [Char.isAlpha, Char.isUpper, Char.isLower, Char.le_def, UInt32.le_def,
    BitVec.le_def, Char.toNat]
  exact Iff.rfl

theorem isAlphanum_toNat (x : Char) : x.isAlphanum = true ↔
    ((48 ≤ x.toNat ∧ x.toNat ≤ 57) ∨ (65 ≤ x.toNat ∧ x.toNat ≤ 90) ∨
     (97 ≤ x.toNat ∧ x.toNat ≤ 122)) := by
  simp only [Char.isAlphanum, Bool.or_eq_true, isAlpha_toNat, isDigit_toNat]
  tauto

theorem pyIsDigit_lower (c : Char) : pyIsDigitChar (pyLowerChar c) = pyIsDigitChar c := by
  rcases pyLowerChar_toNat c with h | ⟨h1, h2, h3⟩
  · rw [h]
  · unfold pyIsDigitChar
    have hfalse : Char.isDigit (pyLowerChar c) = false := by
      rw [Bool.eq_false_iff]
      intro hcon
      rw [isDigit_toNat, h3] at hcon
      omega
    have hfalse2 : Char.isDigit c = false := by
      rw [Bool.eq_false_iff]
      intro hcon
      rw [isDigit_toNat] at hcon
      omega
    rw [hfalse, hfalse2]

theorem relemMatches_lower (e : RElem) (c : Char) :
    relemMatches RE_IGNORECASE e (pyLowerChar c) = relemMatches RE_IGNORECASE e c := by
  cases e with
  | digit => exact pyIsDigit_lower c
  | lit l =>
    have hbit : (RE_IGNORECASE).testBit 1 = true := by decide
    simp only [relemMatches, hbit, if_pos]
    rw [pyLowerChar_idem]

theorem reMatchAt_lower (t : List Char) :
    ∀ (es : List RElem) (i : Nat),
    reMatchAt RE_IGNORECASE (pyLower t) es i = reMatchAt RE_IGNORECASE t es i
  | [], _ => rfl
  | e :: es, i => by
    cases ht : t[i]? with
    | none =>
      have h2 : (pyLower t)[i]? = none := by simp [pyLower, ht]
      simp [reMatchAt, ht, h2]
    | some c =>
      have h2 : (pyLower t)[i]? = some (pyLowerChar c) := by simp [pyLower, ht]
      simp only [reMatchAt, ht, h2]
      rw [relemMatches_lower]
      split
      · exact reMatchAt_lower t es (i + 1)
      · rfl

theorem reFinditerGo_lower (elems : List RElem) (t : List Char) :
    ∀ (fuel pos : Nat),
    reFinditerGo RE_IGNORECASE elems (pyLower t) fuel pos =
      reFinditerGo RE_IGNORECASE elems t fuel pos
  | 0, _ => rfl
  | fuel + 1, pos => by
    have hlen : (pyLower t).length = t.length := by simp [pyLower]
    simp only [reFinditerGo, hlen, reMatchAt_lower]
    split
    · rfl
    · split
      · rw [reFinditerGo_lower elems t fuel]
      · rw [reFinditerGo_lower elems t fuel]

theorem reFinditer_lower (elems : List RElem) (t : List Char) :
    reFinditer RE_IGNORECASE elems (pyLower t) = reFinditer RE_IGNORECASE elems t := by
  unfold reFinditer
  rw [show (pyLower t).length = t.length by simp [pyLower]]
  exact reFinditerGo_lower elems t (t.length + 1) 0

/-- C10: a `RegexRule` constructed without an explicit `flags` value
defaults to `flags = re.IGNORECASE` (the integer 2) — an integer bitmask
field, not a boolean case-sensitivity flag — and under that default the
engine matches at the same spans on a case-changed text (so matching is
independent of letter case). -/
theorem claimC10 :
    (∀ (i p : String), ({ id := i, pattern := p } : RegexRule).flags = RE_IGNORECASE) ∧
    RE_IGNORECASE = 2 ∧
    (∀ (i p : String) (elems : List RElem) (t : List Char),
      ((RegexEngine.mk [({ id := i, pattern := p }, elems)]).run (pyLower t)).map
          (fun m => (m.start, m.mend)) =
        ((RegexEngine.mk [({ id := i, pattern := p }, elems)]).run t).map
          (fun m => (m.start, m.mend))) := by
  refine ⟨fun _ _ => rfl, rfl, ?_⟩
  intro i p elems t
  simp only [RegexEngine.run, List.flatMap_cons, List.flatMap_nil, List.append_nil]
  rw [reFinditer_lower]
  simp [List.map_map]

/-- C7 is false as stated: the single match's text is `"555-123-4567"`
(the characters actually present in the scanned string), not the
`"555-123-4467"` the claim asserts. -/
theorem claimC7_counterexample :
    ((RegexEngine.build [{ id := "phone",
                           pattern := "\\d{3}-\\d{3}-\\d{4}",
                           entity_type := some "PHONE" }]).map
      (fun eng => (eng.run "call 555-123-4567 now".toList).map RegexMatch.text) =
      some ["555-123-4567".toList]) ∧
    "555-123-4567".toList ≠ "555-123-4467".toList := by
  constructor
  · decide
  · decide

/-- C7 (amended): running a RegexEngine holding the single rule
`{pattern: "\d{3}-\d{3}-\d{4}"}` on `"call 555-123-4567 now"` returns
exactly one match, text `"555-123-4567"` at offsets `[5, 17)`, annotated
with the rule's configured entity type and confidence. -/
theorem claimC7 (idStr et : String) (q : ℚ) (hne : et ≠ "") :
    (RegexEngine.build [{ id := idStr,
                          pattern := "\\d{3}-\\d{3}-\\d{4}",
                          entity_type := some et,
                          confidence := q }]).map
      (fun eng => eng.run "call 555-123-4567 now".toList) =
    some [{ rule_id := idStr,
            entity_type := et,
            start := 5,
            mend := 17,
            text := "555-123-4567".toList,
            confidence := q }] := by
  have hcompile : reCompile "\\d{3}-\\d{3}-\\d{4}".toList =
      some [RElem.digit, RElem.digit, RElem.digit, RElem.lit '-', RElem.digit,
        RElem.digit, RElem.digit, RElem.lit '-', RElem.digit, RElem.digit,
        RElem.digit, RElem.digit] := by decide
  have hfind : reFinditer RE_IGNORECASE
      [RElem.digit, RElem.digit, RElem.digit, RElem.lit '-', RElem.digit,
       RElem.digit, RElem.digit, RElem.lit '-', RElem.digit, RElem.digit,
       RElem.digit, RElem.digit] "call 555-123-4567 now".toList = [(5, 17)] := by
    decide
  have htext : List.take (17 - 5) (List.drop 5 "call 555-123-4567 now".toList) =
      "555-123-4567".toList := by decide
  simp only [RegexEngine.build, List.mapM_cons, List.mapM_nil, hcompile,
    Option.map_some', Option.pure_def, Option.bind_eq_bind, Option.some_bind,
    Option.none_bind, RegexEngine.run, List.flatMap_cons, List.flatMap_nil,
    List.append_nil]
  rw [hfind]
  simp [hne, htext]

/-- Witness for C7 (amended) at a concrete rule. -/
theorem claimC7_witness :
    (RegexEngine.build [{ id := "phone",
                          pattern := "\\d{3}-\\d{3}-\\d{4}",
                          entity_type := some "PHONE",
                          confidence := 1 }]).map
      (fun eng => eng.run "call 555-123-4567 now".toList) =
    some [{ rule_id := "phone",
            entity_type := "PHONE",
            start := 5,
            mend := 17,
            text := "555-123-4567".toList,
            confidence := 1 }] :=
  claimC7 "phone" "PHONE" 1 (by decide)

/-- C8: `find_base64_like_spans(text, min_len)` returns exactly the
maximal runs of consecutive Base64-alphabet characters of length ≥
`min_len` as half-open `(start, end)` pairs in left-to-right order (a
non-Base64 character always breaks a run); in particular on `"abc==def"`
with `min_len = 3` it returns exactly `[(0, 8)]` — the whole string is a
single maximal run, since `'='` belongs to `BASE64_CHARS`. -/
theorem claimC8 :
    (∀ (t : List Char) (m : Nat) (p : Nat × Nat),
      p ∈ find_base64_like_spans t m ↔ IsMaxB64Run t p.1 p.2 ∧ m ≤ p.2 - p.1) ∧
    (∀ (t : List Char) (m : Nat),
      (find_base64_like_spans t m).Pairwise (fun a b => a.2 ≤ b.1)) ∧
    find_base64_like_spans "abc==def".toList 3 = [(0, 8)] := by
  refine ⟨fun t m p => (find_base64_like_spans_spec t m).1 p,
          fun t m => (find_base64_like_spans_spec t m).2, by decide⟩

/-! ## Proofs about `search_normalized` (claim C2) -/

theorem emitMatches_start_le {text : List Char} {i st : Nat} {ac : AhoCorasick}
    {m : ACMatch} (h : m ∈ emitMatches text i st ac) : m.start ≤ m.mend := by
  unfold emitMatches at h
  rw [List.mem_map] at h
  obtain ⟨pattern, _, hm⟩ := h
  rw [← hm]
  show i + 1 - pattern.length ≤ i + 1
  omega

theorem process_word_filters_fields {text : List Char} {s e : Nat}
    {wfs : List WordFilter} {m : ACMatch}
    (h : process_word_filters text s e wfs = some m) :
    m.start = s ∧ m.mend = e := by
  simp only [process_word_filters] at h
  split at h
  · cases h
  · rw [Option.some_inj] at h
    rw [← h]
    exact ⟨rfl, rfl⟩

theorem searchGo_start_le (ac : AhoCorasick) (text : List Char)
    (wfs : List WordFilter) (hasFilters : Bool) (allowed : List Char) :
    ∀ (rest : List Char) (i st : Nat) (cws : Option Nat) (results : List ACMatch),
    (∀ m ∈ results, m.start ≤ m.mend) →
    (∀ ws, cws = some ws → ws ≤ i) →
    (∀ m ∈ (searchGo ac text wfs hasFilters allowed rest i st cws results).1,
        m.start ≤ m.mend) ∧
    (∀ ws, (searchGo ac text wfs hasFilters allowed rest i st cws results).2 = some ws →
        ws ≤ i + rest.length) := by
  intro rest
  induction rest with
  | nil =>
    intro i st cws results hres hcws
    exact ⟨hres, fun ws h => by simpa using hcws ws h⟩
  | cons c rest ih =>
    intro i st cws results hres hcws
    have hres2 : ∀ m ∈ results ++ emitMatches text i (searchStep ac st c) ac,
        m.start ≤ m.mend := by
      intro m hm
      rcases List.mem_append.mp hm with h | h
      · exact hres m h
      · exact emitMatches_start_le h
    simp only [searchGo]
    split
    · split
      · have := ih (i + 1) (searchStep ac st c) (some (cws.getD i))
          (results ++ emitMatches text i (searchStep ac st c) ac) hres2
          (fun ws h => by
            cases cws with
            | none => simp at h; omega
            | some w =>
              simp at h
              have := hcws w rfl
              omega)
        refine ⟨this.1, fun ws h => ?_⟩
        have := this.2 ws h
        simp
        omega
      · cases cws with
        | some ws0 =>
          have hws0 := hcws ws0 rfl
          have hres3 : ∀ m ∈ (results ++ emitMatches text i (searchStep ac st c) ac)
              ++ (process_word_filters text ws0 i wfs).toList, m.start ≤ m.mend := by
            intro m hm
            rcases List.mem_append.mp hm with h | h
            · exact hres2 m h
            · rcases Option.mem_toList.mp h with h2
              have := process_word_filters_fields h2
              omega
          have := ih (i + 1) (searchStep ac st c) none _ hres3 (fun ws h => by cases h)
          refine ⟨this.1, fun ws h => ?_⟩
          have := this.2 ws h
          simp
          omega
        | none =>
          have := ih (i + 1) (searchStep ac st c) none _ hres2 (fun ws h => by cases h)
          refine ⟨this.1, fun ws h => ?_⟩
          have := this.2 ws h
          simp
          omega
    · have := ih (i + 1) (searchStep ac st c) cws
        (results ++ emitMatches text i (searchStep ac st c) ac) hres2
        (fun ws h => by have := hcws ws h; omega)
      refine ⟨this.1, fun ws h => ?_⟩
      have := this.2 ws h
      simp
      omega

/-- Every match `search` returns has `start ≤ end`. -/
theorem search_start_le (ac : AhoCorasick) (text : List Char)
    (word_filters : Option (List WordFilter)) :
    ∀ m ∈ (search ac text word_filters).2, m.start ≤ m.mend := by
  intro m hm
  unfold search at hm
  simp only at hm
  set ac' := if ac.is_built then ac else build ac with hac'
  set r := searchGo ac' text (word_filters.getD [])
    (pyTruthyOptList word_filters) (allowedSpecialChars (word_filters.getD []))
    text 0 0 none [] with hr
  have hgo := searchGo_start_le ac' text (word_filters.getD [])
    (pyTruthyOptList word_filters) (allowedSpecialChars (word_filters.getD []))
    text 0 0 none [] (by simp) (fun ws h => by cases h)
  rw [← hr] at hgo
  cases htr : pyTruthyOptList word_filters with
  | false =>
    rw [htr] at hm
    exact hgo.1 m (by simpa using hm)
  | true =>
    rw [htr] at hm
    cases hr2 : r.2 with
    | none =>
      rw [hr2] at hm
      exact hgo.1 m (by simpa using hm)
    | some ws =>
      rw [hr2] at hm
      simp only at hm
      rcases List.mem_append.mp hm with h | h
      · exact hgo.1 m h
      · rcases Option.mem_toList.mp h with h2
        obtain ⟨h3, h4⟩ := process_word_filters_fields h2
        have := hgo.2 ws hr2
        omega

instance : IsTotal ACMatch matchLE :=
  ⟨fun a b => by unfold matchLE; omega⟩

instance : IsTrans ACMatch matchLE :=
  ⟨fun a b c hab hbc => by unfold matchLE at *; omega⟩

/-- The greedy pass keeps a list in which every match starts at or after
`last`, and consecutive kept matches do not overlap. -/
theorem normalizeMatchesGo_spec :
    ∀ (l : List ACMatch) (last : Int),
    l.Pairwise (fun a b => a.start ≤ b.start) →
    (∀ m ∈ l, m.start ≤ m.mend) →
    (∀ m ∈ normalizeMatchesGo l last, last ≤ (m.start : Int)) ∧
    (normalizeMatchesGo l last).Pairwise (fun a b => a.mend ≤ b.start) := by
  intro l
  induction l with
  | nil => exact fun _ _ _ => ⟨by simp [normalizeMatchesGo], by simp [normalizeMatchesGo]⟩
  | cons m rest ih =>
    intro last hsorted hle
    rw [List.pairwise_cons] at hsorted
    simp only [normalizeMatchesGo]
    split
    · next hkeep =>
      obtain ⟨hrec1, hrec2⟩ := ih (m.mend : Int) hsorted.2
        (fun x hx => hle x (List.mem_cons_of_mem m hx))
      constructor
      · intro x hx
        rcases List.mem_cons.mp hx with h | h
        · rw [h]
          exact hkeep
        · have h1 := hrec1 x h
          have h2 := hle m (List.mem_cons_self m rest)
          omega
      · rw [List.pairwise_cons]
        refine ⟨fun x hx => ?_, hrec2⟩
        have := hrec1 x hx
        omega
    · next hskip =>
      obtain ⟨hrec1, hrec2⟩ := ih last hsorted.2
        (fun x hx => hle x (List.mem_cons_of_mem m hx))
      exact ⟨hrec1, hrec2⟩

/-- The greedy pass returns a sublist of its input. -/
theorem normalizeMatchesGo_sublist :
    ∀ (l : List ACMatch) (last : Int), (normalizeMatchesGo l last).Sublist l := by
  intro l
  induction l with
  | nil => intro last; simp [normalizeMatchesGo]
  | cons m rest ih =>
    intro last
    simp only [normalizeMatchesGo]
    split
    · exact List.Sublist.cons₂ m (ih (m.mend : Int))
    · exact List.Sublist.cons m (ih last)

/-- C2: for every automaton, text and optional filter list, the matches
`search_normalized` returns are pairwise non-overlapping — listed left to
right, each match ends at or before the next begins — and they form a
sub-sequence of the `(start asc, length desc)`-sorted `search` results
(the greedy earliest-then-longest-wins cover). -/
theorem claimC2 :
    ∀ (ac : AhoCorasick) (text : List Char)
      (word_filters : Option (List WordFilter)),
    ((search_normalized ac text word_filters).2).Pairwise
        (fun a b => a.mend ≤ b.start) ∧
    ((search_normalized ac text word_filters).2).Sublist
        (((search ac text word_filters).2).insertionSort matchLE) := by
  intro ac text word_filters
  unfold search_normalized
  simp only
  constructor
  · apply (normalizeMatchesGo_spec _ _ ?_ ?_).2
    · have hs : ((search ac text word_filters).2.insertionSort matchLE).Sorted matchLE :=
        List.sorted_insertionSort matchLE _
      exact hs.imp (fun h => by unfold matchLE at h; omega)
    · intro m hm
      exact search_start_le ac text word_filters m
        ((List.perm_insertionSort matchLE _).mem_iff.mp hm)
  · exact normalizeMatchesGo_sublist _ _

/-! ## Lemmas about the Base64 and UTF-8 codecs -/

theorem charOfNat_toNat {n : Nat} (h : n < 0xD800) : (Char.ofNat n).toNat = n := by
  have hv : n.isValidChar := Or.inl h
  rw [Char.ofNat, dif_pos hv]
  rfl

/-- The six-bit groups of a byte list (the data characters of its Base64
encoding, as values). -/
def sixBits : List Nat → List Nat
  | a :: b :: c :: rest =>
    a / 4 :: ((a % 4) * 16 + b / 16) :: ((b % 16) * 4 + c / 64) :: c % 64 :: sixBits rest
  | [a, b] => [a / 4, (a % 4) * 16 + b / 16, (b % 16) * 4]
  | [a] => [a / 4, (a % 4) * 16]
  | [] => []

/-- The padding length of the Base64 encoding of a byte list. -/
def b64PadOf (bs : List Nat) : Nat :=
  match bs.length % 3 with
  | 1 => 2
  | 2 => 1
  | _ => 0

theorem b64AlphaChar_toNat (n : Nat) :
    (n < 26 ∧ (b64AlphaChar n).toNat = 65 + n) ∨
    (26 ≤ n ∧ n < 52 ∧ (b64AlphaChar n).toNat = 97 + n - 26) ∨
    (52 ≤ n ∧ n < 62 ∧ (b64AlphaChar n).toNat = 48 + n - 52) ∨
    (62 ≤ n ∧ ((b64AlphaChar n) = '+' ∨ (b64AlphaChar n) = '/')) := by
  unfold b64AlphaChar
  by_cases h1 : n < 26
  · exact Or.inl ⟨h1, by rw [if_pos h1]; exact charOfNat_toNat (by omega)⟩
  · rw [if_neg h1]
    by_cases h2 : n < 52
    · refine Or.inr (Or.inl ⟨by omega, h2, ?_⟩)
      rw [if_pos h2]
      have := charOfNat_toNat (n := 97 + n - 26) (by omega)
      omega
    · rw [if_neg h2]
      by_cases h3 : n < 62
      · refine Or.inr (Or.inr (Or.inl ⟨by omega, h3, ?_⟩))
        rw [if_pos h3]
        have := charOfNat_toNat (n := 48 + n - 52) (by omega)
        omega
      · rw [if_neg h3]
        refine Or.inr (Or.inr (Or.inr ⟨by omega, ?_⟩))
        split
        · exact Or.inl rfl
        · exact Or.inr rfl

/-- An alphabet character is in `BASE64_CHARS`, is not `'='`, is ASCII,
printable, and not whitespace. -/
theorem b64AlphaChar_props (n : Nat) :
    isBase64Char (b64AlphaChar n) = true ∧ b64AlphaChar n ≠ '=' ∧
    (b64AlphaChar n).toNat < 128 ∧ pyIsPrintableChar (b64AlphaChar n) = true ∧
    pyIsSpaceChar (b64AlphaChar n) = false := by
  have halnum : ∀ (c : Char), (48 ≤ c.toNat ∧ c.toNat ≤ 57) ∨ (65 ≤ c.toNat ∧ c.toNat ≤ 90) ∨
      (97 ≤ c.toNat ∧ c.toNat ≤ 122) →
      isBase64Char c = true ∧ c ≠ '=' ∧ c.toNat < 128 ∧
      pyIsPrintableChar c = true ∧ pyIsSpaceChar c = false := by
    intro c hc
    have han : c.isAlphanum = true := (isAlphanum_toNat c).mpr (by tauto)
    refine ⟨by simp [isBase64Char, han], ?_, by omega, by simp [pyIsPrintableChar]; omega, ?_⟩
    · intro heq
      rw [heq] at hc
      exact absurd hc (by decide)
    · simp only [pyIsSpaceChar]
      have h1 : (c == ' ') = false := by
        rw [beq_eq_false_iff_ne]
        intro hx
        rw [hx] at hc
        exact absurd hc (by decide)
      have h2 : (c == '\t') = false := by
        rw [beq_eq_false_iff_ne]
        intro hx
        rw [hx] at hc
        exact absurd hc (by decide)
      have h3 : (c == '\n') = false := by
        rw [beq_eq_false_iff_ne]
        intro hx
        rw [hx] at hc
        exact absurd hc (by decide)
      have h4 : (c == '\r') = false := by
        rw [beq_eq_false_iff_ne]
        intro hx
        rw [hx] at hc
        exact absurd hc (by decide)
      simp [h1, h2, h3, h4]
      omega
  rcases b64AlphaChar_toNat n with ⟨h1, h2⟩ | ⟨h1, h2, h3⟩ | ⟨h1, h2, h3⟩ | ⟨h1, h2⟩
  · exact halnum _ (by omega)
  · exact halnum _ (by omega)
  · exact halnum _ (by omega)
  · rcases h2 with h | h <;> rw [h] <;> exact ⟨by decide, by decide, by decide, by decide, by decide⟩

theorem b64CharVal_alpha : ∀ n < 64, b64CharVal (b64AlphaChar n) = some n := by decide

theorem b64encodeBytes_eq : ∀ (bs : List Nat),
    b64encodeBytes bs = (sixBits bs).map b64AlphaChar ++ List.replicate (b64PadOf bs) '='
  | [] => by simp [b64encodeBytes, sixBits, b64PadOf]
  | [a] => by simp [b64encodeBytes, sixBits, b64PadOf]
  | [a, b] => by simp [b64encodeBytes, sixBits, b64PadOf]
  | a :: b :: c :: rest => by
    have ih := b64encodeBytes_eq rest
    have hpad : b64PadOf (a :: b :: c :: rest) = b64PadOf rest := by
      unfold b64PadOf
      have : (a :: b :: c :: rest).length % 3 = rest.length % 3 := by
        simp
        omega
      rw [this]
    simp only [b64encodeBytes, sixBits, List.map_cons, ih, hpad, List.cons_append]

theorem sixBits_lt : ∀ (bs : List Nat), (∀ x ∈ bs, x < 256) →
    ∀ v ∈ sixBits bs, v < 64
  | [], _ => by simp [sixBits]
  | [a], h => by
    have ha : a < 256 := h a (by simp)
    simp [sixBits]
    omega
  | [a, b], h => by
    have ha : a < 256 := h a (by simp)
    have hb : b < 256 := h b (by simp)
    simp [sixBits]
    omega
  | a :: b :: c :: rest, h => by
    have ha : a < 256 := h a (by simp)
    have hb : b < 256 := h b (by simp)
    have hc : c < 256 := h c (by simp)
    have ih := sixBits_lt rest (fun x hx => h x (by simp [hx]))
    intro v hv
    simp only [sixBits, List.mem_cons] at hv
    rcases hv with h1 | h1 | h1 | h1 | h1
    · omega
    · omega
    · omega
    · omega
    · exact ih v h1

theorem sixBits_length_mod : ∀ (bs : List Nat), (sixBits bs).length % 4 ≠ 1
  | [] => by simp [sixBits]
  | [a] => by simp [sixBits]
  | [a, b] => by simp [sixBits]
  | a :: b :: c :: rest => by
    have ih := sixBits_length_mod rest
    simp only [sixBits, List.length_cons]
    omega

theorem b64PadOf_le (bs : List Nat) : b64PadOf bs ≤ 2 := by
  unfold b64PadOf
  split <;> omega

theorem b64Quads_sixBits : ∀ (bs : List Nat), (∀ x ∈ bs, x < 256) →
    b64Quads (sixBits bs) = bs
  | [], _ => rfl
  | [a], h => by
    have ha : a < 256 := h a (by simp)
    simp only [sixBits, b64Quads]
    congr 1
    omega
  | [a, b], h => by
    have ha : a < 256 := h a (by simp)
    have hb : b < 256 := h b (by simp)
    simp only [sixBits, b64Quads]
    congr 1
    · omega
    · congr 1
      omega
  | a :: b :: c :: rest, h => by
    have ha : a < 256 := h a (by simp)
    have hb : b < 256 := h b (by simp)
    have hc : c < 256 := h c (by simp)
    have ih := b64Quads_sixBits rest (fun x hx => h x (by simp [hx]))
    simp only [sixBits, b64Quads, ih]
    congr 1
    · omega
    · congr 1
      · omega
      · congr 1
        omega

theorem takeWhile_append_all {p : Char → Bool} : ∀ {l1 l2 : List Char},
    (∀ x ∈ l1, p x = true) → (l1 ++ l2).takeWhile p = l1 ++ l2.takeWhile p := by
  intro l1
  induction l1 with
  | nil => intro l2 _; simp
  | cons c cs ih =>
    intro l2 h
    rw [List.cons_append, List.takeWhile_cons, if_pos (h c (by simp))]
    rw [ih (fun x hx => h x (by simp [hx]))]
    simp

theorem trailingEq_parts (vals : List Nat) (pad : Nat) :
    trailingEq ((vals.map b64AlphaChar) ++ List.replicate pad '=') = pad := by
  unfold trailingEq
  rw [List.reverse_append, List.reverse_replicate]
  rw [takeWhile_append_all (by
    intro x hx
    rw [List.mem_replicate] at hx
    simp [hx.2])]
  have hnone : ((vals.map b64AlphaChar).reverse).takeWhile (· = '=') = [] := by
    cases hrev : (vals.map b64AlphaChar).reverse with
    | nil => rfl
    | cons c cs =>
      have hc : c ∈ vals.map b64AlphaChar := by
        rw [← List.mem_reverse, hrev]
        simp
      rw [List.mem_map] at hc
      obtain ⟨v, _, hv⟩ := hc
      rw [List.takeWhile_cons, if_neg]
      simp only [decide_eq_true_eq]
      rw [← hv]
      exact (b64AlphaChar_props v).2.1
  rw [hnone]
  simp

theorem mapM_b64CharVal_alpha : ∀ (vals : List Nat), (∀ v ∈ vals, v < 64) →
    (vals.map b64AlphaChar).mapM b64CharVal = some vals := by
  intro vals
  induction vals with
  | nil => intro _; rfl
  | cons v vs ih =>
    intro h
    rw [List.map_cons, List.mapM_cons, b64CharVal_alpha v (h v (by simp)),
      ih (fun x hx => h x (by simp [hx]))]
    rfl

theorem b64decodeBytes_parts (vals : List Nat) (pad : Nat)
    (hv : ∀ v ∈ vals, v < 64) (hp : pad ≤ 2) (hl : vals.length % 4 ≠ 1) :
    b64decodeBytes ((vals.map b64AlphaChar) ++ List.replicate pad '=') =
      some (b64Quads vals) := by
  unfold b64decodeBytes
  rw [trailingEq_parts]
  rw [if_neg (by omega)]
  have hlen : ((vals.map b64AlphaChar) ++ List.replicate pad '=').length = vals.length + pad := by
    simp
  rw [hlen, Nat.add_sub_cancel]
  have htake : ((vals.map b64AlphaChar) ++ List.replicate pad '=').take vals.length =
      vals.map b64AlphaChar := by
    rw [show vals.length = (vals.map b64AlphaChar).length by simp]
    exact List.take_left _ _
  rw [htake, mapM_b64CharVal_alpha vals hv]
  simp only []
  rw [if_neg (by simpa using hl)]

/-- Decode of encode is the identity on byte lists. -/
theorem b64_roundtrip (bs : List Nat) (h : ∀ x ∈ bs, x < 256) :
    b64decodeBytes (b64encodeBytes bs) = some bs := by
  rw [b64encodeBytes_eq,
    b64decodeBytes_parts (sixBits bs) (b64PadOf bs) (sixBits_lt bs h)
      (b64PadOf_le bs) (sixBits_length_mod bs),
    b64Quads_sixBits bs h]

theorem b64encodeBytes_len4 : ∀ (bs : List Nat), (b64encodeBytes bs).length % 4 = 0
  | [] => rfl
  | [_] => by simp [b64encodeBytes]
  | [_, _] => by simp [b64encodeBytes]
  | _ :: _ :: _ :: rest => by
    have ih := b64encodeBytes_len4 rest
    simp only [b64encodeBytes, List.length_cons]
    omega

theorem b64encodeBytes_mem_props : ∀ (bs : List Nat), ∀ c ∈ b64encodeBytes bs,
    isBase64Char c = true ∧ c.toNat < 128 ∧ pyIsPrintableChar c = true ∧
    pyIsSpaceChar c = false := by
  intro bs c hc
  rw [b64encodeBytes_eq] at hc
  rcases List.mem_append.mp hc with h | h
  · rw [List.mem_map] at h
    obtain ⟨v, _, hv⟩ := h
    rw [← hv]
    have := b64AlphaChar_props v
    exact ⟨this.1, this.2.2.1, this.2.2.2.1, this.2.2.2.2⟩
  · rw [List.mem_replicate] at h
    rw [h.2]
    exact ⟨by decide, by decide, by decide, by decide⟩

theorem b64encodeBytes_eq_nil : ∀ (bs : List Nat), b64encodeBytes bs = [] ↔ bs = []
  | [] => by simp [b64encodeBytes]
  | [_] => by simp [b64encodeBytes]
  | [_, _] => by simp [b64encodeBytes]
  | _ :: _ :: _ :: _ => by simp [b64encodeBytes]

theorem char_toNat_lt (c : Char) : c.toNat < 0x110000 := by
  have hv := c.valid
  rcases hv with h | h
  · have : c.val.toNat < 0xD800 := h
    unfold Char.toNat
    omega
  · have : c.val.toNat < 0x110000 := h.2
    unfold Char.toNat
    omega

theorem utf8EncodeChar_lt (c : Char) : ∀ b ∈ utf8EncodeChar c, b < 256 := by
  have hc := char_toNat_lt c
  unfold utf8EncodeChar
  simp only []
  split
  · intro b hb
    simp at hb
    omega
  · split
    · intro b hb
      simp at hb
      rcases hb with h | h <;> omega
    · split
      · intro b hb
        simp at hb
        rcases hb with h | h | h <;> omega
      · intro b hb
        simp at hb
        rcases hb with h | h | h | h <;> omega

theorem utf8Encode_lt (s : List Char) : ∀ b ∈ utf8Encode s, b < 256 := by
  intro b hb
  unfold utf8Encode at hb
  rw [List.mem_flatMap] at hb
  obtain ⟨c, _, hc⟩ := hb
  exact utf8EncodeChar_lt c b hc

theorem utf8EncodeChar_ne_nil (c : Char) : utf8EncodeChar c ≠ [] := by
  unfold utf8EncodeChar
  simp only []
  split
  · simp
  · split
    · simp
    · split <;> simp

theorem utf8Encode_eq_nil (s : List Char) : utf8Encode s = [] ↔ s = [] := by
  unfold utf8Encode
  cases s with
  | nil => simp
  | cons c rest =>
    simp only [List.flatMap_cons, List.append_eq_nil, iff_false, ne_eq,
      List.cons_ne_nil, not_false_iff]
    intro h
    exact utf8EncodeChar_ne_nil c h.1

/-- Decoding never lengthens when the substitution is empty: at most one
character per consumed byte. -/
theorem utf8DecodeGo_length : ∀ (fuel : Nat) (bs : List Nat),
    (utf8DecodeGo [] fuel bs).length ≤ bs.length
  | 0, bs => by simp [utf8DecodeGo]
  | fuel + 1, [] => by simp [utf8DecodeGo]
  | fuel + 1, b :: rest => by
    have h1 := utf8DecodeGo_length fuel rest
    have h2 := utf8DecodeGo_length fuel (rest.drop 1)
    have h3 := utf8DecodeGo_length fuel (rest.drop 2)
    have h4 := utf8DecodeGo_length fuel (rest.drop 3)
    simp only [List.length_drop] at h2 h3 h4
    simp only [utf8DecodeGo]
    repeat' split
    all_goals simp only [List.nil_append, List.length_cons]
    all_goals omega

theorem utf8DecodeIgnore_length (bs : List Nat) :
    (utf8DecodeIgnore bs).length ≤ bs.length :=
  utf8DecodeGo_length bs.length bs

theorem charOfNat_toNat_self (c : Char) : Char.ofNat c.toNat = c := by
  have hv : c.toNat.isValidChar := by
    have := c.valid
    rcases this with h | h
    · exact Or.inl h
    · exact Or.inr h
  rw [Char.ofNat, dif_pos hv]
  apply Char.ext
  simp [Char.toNat, UInt32.ofNat']
  rfl

theorem utf8Encode_ascii (s : List Char) (h : ∀ c ∈ s, c.toNat < 128) :
    utf8Encode s = s.map Char.toNat := by
  induction s with
  | nil => rfl
  | cons c rest ih =>
    have hc : c.toNat < 128 := h c (by simp)
    have henc : utf8EncodeChar c = [c.toNat] := by
      unfold utf8EncodeChar
      simp only []
      rw [if_pos (by omega)]
    unfold utf8Encode
    rw [List.flatMap_cons, henc, List.map_cons]
    have := ih (fun x hx => h x (by simp [hx]))
    unfold utf8Encode at this
    rw [this]
    rfl

theorem utf8DecodeGo_ascii (repl : List Char) : ∀ (fuel : Nat) (bs : List Nat),
    bs.length ≤ fuel → (∀ b ∈ bs, b < 128) →
    utf8DecodeGo repl fuel bs = bs.map Char.ofNat := by
  intro fuel
  induction fuel with
  | zero =>
    intro bs hlen _
    have : bs = [] := List.length_eq_zero.mp (by omega)
    subst this
    rfl
  | succ fuel ih =>
    intro bs hlen hb
    match bs with
    | [] => rfl
    | b :: rest =>
      have hb0 : b < 128 := hb b (by simp)
      simp only [utf8DecodeGo]
      rw [if_pos (by omega : b < 0x80)]
      rw [ih rest (by simp at hlen; omega) (fun x hx => hb x (by simp [hx]))]
      rfl

/-- UTF-8 decode of UTF-8 encode is the identity on ASCII strings. -/
theorem utf8_ascii_roundtrip (s : List Char) (h : ∀ c ∈ s, c.toNat < 128) :
    utf8DecodeIgnore (utf8Encode s) = s := by
  unfold utf8DecodeIgnore utf8DecodeWith
  rw [utf8Encode_ascii s h]
  rw [utf8DecodeGo_ascii [] _ _ (by simp) (by
    intro b hb
    rw [List.mem_map] at hb
    obtain ⟨c, hc, hcb⟩ := hb
    rw [← hcb]
    exact h c hc)]
  rw [List.map_map]
  have : (Char.ofNat ∘ Char.toNat) = id := by
    funext c
    exact charOfNat_toNat_self c
  rw [this, List.map_id]

/-! ## Stage lemmas for the normalizer (claims C5 and C6) -/

theorem pyUnquoteGo_no_percent : ∀ (fuel : Nat) (s : List Char),
    (∀ c ∈ s, c ≠ '%') → pyUnquoteGo fuel s = s
  | 0, s => fun _ => rfl
  | fuel + 1, [] => fun _ => rfl
  | fuel + 1, c :: rest => fun h => by
    simp only [pyUnquoteGo]
    rw [if_neg (h c (by simp))]
    rw [pyUnquoteGo_no_percent fuel rest (fun x hx => h x (by simp [hx]))]

theorem pyUnquote_no_percent (s : List Char) (h : ∀ c ∈ s, c ≠ '%') :
    pyUnquote s = s :=
  pyUnquoteGo_no_percent s.length s h

theorem replaceRunsGo_id (p : Char → Bool) (r : Char) : ∀ (fuel : Nat) (s : List Char),
    (∀ c ∈ s, p c = false) → replaceRunsGo p r fuel s = s
  | 0, s => fun _ => rfl
  | fuel + 1, [] => fun _ => rfl
  | fuel + 1, c :: rest => fun h => by
    simp only [replaceRunsGo]
    rw [if_neg (by rw [h c (by simp)]; simp)]
    rw [replaceRunsGo_id p r fuel rest (fun x hx => h x (by simp [hx]))]

theorem replaceRuns_id (p : Char → Bool) (r : Char) (s : List Char)
    (h : ∀ c ∈ s, p c = false) : replaceRuns p r s = s :=
  replaceRunsGo_id p r s.length s h

theorem dropWhile_id {p : Char → Bool} {s : List Char}
    (h : ∀ c ∈ s, p c = false) : s.dropWhile p = s := by
  cases s with
  | nil => rfl
  | cons c rest =>
    rw [List.dropWhile_cons, if_neg (by rw [h c (by simp)]; simp)]

theorem pyStrip_id (s : List Char) (h : ∀ c ∈ s, pyIsSpaceChar c = false) :
    pyStrip s = s := by
  unfold pyStrip
  rw [dropWhile_id h,
    dropWhile_id (fun c hc => h c (List.mem_reverse.mp hc)),
    List.reverse_reverse]

theorem stageUnicode_noop (nm : Normalizer) (t : List Char) :
    stageUnicode nm t = (t, []) := by
  unfold stageUnicode unicodeNFKC
  split
  · simp
  · rfl

theorem stageUrl_noop (nm : Normalizer) (t : List Char) (h : ∀ c ∈ t, c ≠ '%') :
    stageUrl nm t = (t, []) := by
  unfold stageUrl
  split
  · rw [pyUnquote_no_percent t h]
    simp
  · rfl

theorem stageSeparators_noop (nm : Normalizer) (t : List Char)
    (h : ∀ c ∈ t, isSepChar c = false) : stageSeparators nm t = (t, []) := by
  unfold stageSeparators
  split
  · rw [replaceRuns_id _ _ _ h]
    simp
  · rfl

theorem stageWhitespace_noop (nm : Normalizer) (t : List Char)
    (h : ∀ c ∈ t, pyIsSpaceChar c = false) : stageWhitespace nm t = (t, []) := by
  unfold stageWhitespace
  split
  · rw [replaceRuns_id _ _ _ h, pyStrip_id t h]
    simp
  · rfl

theorem stageLowercase_noop (nm : Normalizer) (t : List Char)
    (h : nm.lowercase = false) : stageLowercase nm t = (t, []) := by
  unfold stageLowercase
  rw [h]
  simp

/-- `_safe_base64_decode` inverts `b64encodeStr` on ASCII strings. -/
theorem safe_base64_decode_encodeStr (s : List Char) (h : ∀ c ∈ s, c.toNat < 128) :
    safe_base64_decode (b64encodeStr s) = some s := by
  unfold safe_base64_decode b64encodeStr
  have hfilter : (b64encodeBytes (utf8Encode s)).filter (fun c => !pyIsSpaceChar c) =
      b64encodeBytes (utf8Encode s) := by
    apply List.filter_eq_self.mpr
    intro c hc
    rw [(b64encodeBytes_mem_props _ c hc).2.2.2]
    rfl
  simp only [hfilter]
  rw [if_neg (by simp [b64encodeBytes_len4])]
  rw [b64_roundtrip _ (utf8Encode_lt s)]
  rw [Option.map_some', utf8_ascii_roundtrip s h]

/-- A nonempty Base64 encoding is mostly printable. -/
theorem is_mostly_printable_encode (bs : List Nat) (h : bs ≠ []) :
    is_mostly_printable (b64encodeBytes bs) = true := by
  unfold is_mostly_printable
  rw [if_neg (by
    rw [Bool.not_eq_true, List.isEmpty_eq_false_iff_exists_mem]
    have : b64encodeBytes bs ≠ [] := fun hx => h ((b64encodeBytes_eq_nil bs).mp hx)
    exact List.exists_mem_of_ne_nil _ this)]
  have hcount : (b64encodeBytes bs).countP pyIsPrintableChar = (b64encodeBytes bs).length := by
    apply List.countP_eq_length.mpr
    intro c hc
    exact (b64encodeBytes_mem_props _ c hc).2.2.1
  rw [hcount]
  simp
  omega

theorem applyStages_fst : ∀ (stages : List (List Char → List Char × List String))
    (t : List Char) (steps : List String),
    (List.foldl (fun acc st => ((st acc.1).1, acc.2 ++ (st acc.1).2)) (t, steps) stages).1 =
      (applyStages stages t).1 := by
  intro stages
  induction stages with
  | nil => intro t steps; rfl
  | cons st rest ih =>
    intro t steps
    unfold applyStages
    simp only [List.foldl_cons]
    rw [ih (st t).1 (steps ++ (st t).2), ih (st t).1 ((t, ([] : List String)).2 ++ (st t).2)]

theorem applyStages_cons_fst (st : List Char → List Char × List String)
    (rest : List (List Char → List Char × List String)) (t : List Char) :
    (applyStages (st :: rest) t).1 = (applyStages rest (st t).1).1 := by
  unfold applyStages
  simp only [List.foldl_cons]
  rw [applyStages_fst]
  rfl

theorem isBase64Char_ne_percent {c : Char} (h : isBase64Char c = true) : c ≠ '%' := by
  intro he
  rw [he] at h
  cases h

theorem recursiveB64Go_succ (depth fuel : Nat) (out : List Char) (steps : List String) :
    recursiveB64Go depth (fuel + 1) out steps =
      match safe_base64_decode out with
      | none => (out, steps)
      | some candidate =>
        if is_mostly_printable candidate then
          recursiveB64Go (depth + 1) fuel candidate
            (steps ++ ["base64_decode_depth_" ++ toString (depth + 1)])
        else (out, steps) := rfl

theorem applyStages_nil (t : List Char) : applyStages [] t = (t, []) := rfl

/-- C5 is false as stated: under the stated configuration —
`max_decode_depth = 2` with Base64 decoding enabled (all other options at
their defaults, which include the substring Base64 pass) — the triple
encoding of the printable payload `"a"` normalizes all the way down to
`"a"` itself: the substring pass strips one layer and the whole-text
recursive pass the remaining two.  No layer is left encoded. -/
theorem claimC5_counterexample :
    (normalize { max_decode_depth := 2, enable_base64 := true }
      (b64encodeStr (b64encodeStr (b64encodeStr "a".toList)))).1 = "a".toList ∧
    "a".toList ≠ b64encodeStr "a".toList := by
  constructor
  · decide
  · decide

/-- C5 (amended): with `max_decode_depth = 2`, Base64 decoding enabled
and the substring Base64 pass disabled, normalizing a payload that has
been Base64-encoded three times decodes exactly two layers: the result
is the payload still Base64-encoded once. -/
theorem claimC5 (payload : List Char) :
    (normalize { max_decode_depth := 2, enable_base64 := true,
                 enable_substring_base64 := false }
      (b64encodeStr (b64encodeStr (b64encodeStr payload)))).1 =
    b64encodeStr payload := by
  by_cases hpay : payload = []
  · subst hpay
    decide
  · set nm : Normalizer := { max_decode_depth := 2,
                             enable_base64 := true,
                             enable_substring_base64 := false } with hnm
    set e1 := b64encodeStr payload with he1
    set e2 := b64encodeStr e1 with he2
    set e3 := b64encodeStr e2 with he3
    have he1a : ∀ c ∈ e1, c.toNat < 128 := fun c hc =>
      (b64encodeBytes_mem_props _ c hc).2.1
    have he2a : ∀ c ∈ e2, c.toNat < 128 := fun c hc =>
      (b64encodeBytes_mem_props _ c hc).2.1
    have he3p : ∀ c ∈ e3, c ≠ '%' := fun c hc =>
      isBase64Char_ne_percent (b64encodeBytes_mem_props _ c hc).1
    have he1s : ∀ c ∈ e1, pyIsSpaceChar c = false := fun c hc =>
      (b64encodeBytes_mem_props _ c hc).2.2.2
    have hu1 : utf8Encode payload ≠ [] := fun h =>
      hpay ((utf8Encode_eq_nil payload).mp h)
    have he1ne : e1 ≠ [] := fun h => hu1 ((b64encodeBytes_eq_nil _).mp h)
    have hu2 : utf8Encode e1 ≠ [] := fun h => he1ne ((utf8Encode_eq_nil e1).mp h)
    have ha : safe_base64_decode e3 = some e2 := safe_base64_decode_encodeStr e2 he2a
    have hb : safe_base64_decode e2 = some e1 := safe_base64_decode_encodeStr e1 he1a
    have hp2 : is_mostly_printable e2 = true := is_mostly_printable_encode _ hu2
    have hp1 : is_mostly_printable e1 = true := is_mostly_printable_encode _ hu1
    have hs1 : stageUnicode nm e3 = (e3, []) := stageUnicode_noop nm e3
    have hs2 : stageUrl nm e3 = (e3, []) := stageUrl_noop nm e3 he3p
    have hs3 : stageSubstringB64 nm e3 = (e3, []) := rfl
    have hs4 : stageRecursiveB64 nm e3 =
        (e1, ["base64_decode_depth_1", "base64_decode_depth_2"]) := by
      show recursive_base64_decode nm e3 = _
      unfold recursive_base64_decode
      show recursiveB64Go 0 (1 + 1) e3 [] = _
      rw [recursiveB64Go_succ]
      simp only [ha, if_pos hp2]
      show recursiveB64Go 1 (0 + 1) e2 _ = _
      rw [recursiveB64Go_succ]
      simp only [hb, if_pos hp1]
      rfl
    have hs5 : stageSeparators nm e1 = (e1, []) := rfl
    have hs6 : stageWhitespace nm e1 = (e1, []) := stageWhitespace_noop nm e1 he1s
    have hs7 : stageLowercase nm e1 = (e1, []) := stageLowercase_noop nm e1 rfl
    show (applyStages (normalizeStages nm) e3).1 = e1
    unfold normalizeStages
    rw [applyStages_cons_fst, hs1]
    rw [show ((e3, ([] : List String)).1 : List Char) = e3 from rfl]
    rw [applyStages_cons_fst, hs2]
    rw [show ((e3, ([] : List String)).1 : List Char) = e3 from rfl]
    rw [applyStages_cons_fst, hs3]
    rw [show ((e3, ([] : List String)).1 : List Char) = e3 from rfl]
    rw [applyStages_cons_fst, hs4]
    rw [show ((e1, ["base64_decode_depth_1", "base64_decode_depth_2"]).1 : List Char) = e1
      from rfl]
    rw [applyStages_cons_fst, hs5]
    rw [show ((e1, ([] : List String)).1 : List Char) = e1 from rfl]
    rw [applyStages_cons_fst, hs6]
    rw [show ((e1, ([] : List String)).1 : List Char) = e1 from rfl]
    rw [applyStages_cons_fst, hs7]
    rfl

/-! ## Each stage records a step exactly when it changes the text (C6) -/

theorem b64Quads_length : ∀ (vals : List Nat), 4 * (b64Quads vals).length ≤ 3 * vals.length
  | [] => by simp [b64Quads]
  | [_] => by simp [b64Quads]
  | [_, _] => by simp [b64Quads]
  | [_, _, _] => by simp [b64Quads]
  | _ :: _ :: _ :: _ :: rest => by
    have ih := b64Quads_length rest
    simp only [b64Quads, List.length_cons]
    omega

theorem mapM_option_length {α β : Type} (f : α → Option β) :
    ∀ (l : List α) (l' : List β), l.mapM f = some l' → l'.length = l.length := by
  intro l
  induction l with
  | nil =>
    intro l' h
    simp only [List.mapM_nil, pure, Option.some_inj] at h
    rw [← h]
    rfl
  | cons a rest ih =>
    intro l' h
    rw [List.mapM_cons] at h
    cases hf : f a with
    | none => rw [hf] at h; cases h
    | some b =>
      rw [hf] at h
      cases hrest : rest.mapM f with
      | none => rw [hrest] at h; cases h
      | some bs =>
        rw [hrest] at h
        simp only [Option.bind_eq_bind, Option.some_bind, pure, Option.some_inj] at h
        rw [← h, List.length_cons, ih bs hrest]
        simp

theorem b64decodeBytes_length {s : List Char} {bytes : List Nat}
    (h : b64decodeBytes s = some bytes) : 4 * bytes.length ≤ 3 * s.length := by
  simp only [b64decodeBytes] at h
  split at h
  · cases h
  · split at h
    · cases h
    · next vals hvals =>
      split at h
      · cases h
      · rw [Option.some_inj] at h
        have hlen := mapM_option_length b64CharVal _ _ hvals
        have hq := b64Quads_length vals
        have htake : (s.take (s.length - trailingEq s)).length ≤ s.length := by
          simp
        rw [← h]
        omega

/-- A successful, nonempty `_safe_base64_decode` strictly shrinks. -/
theorem safe_base64_decode_shrink {t d : List Char}
    (h : safe_base64_decode t = some d) (hne : d ≠ []) : d.length < t.length := by
  simp only [safe_base64_decode] at h
  split at h
  · cases h
  · next hmod =>
    cases hdec : b64decodeBytes (t.filter (fun c => !pyIsSpaceChar c)) with
    | none => rw [hdec] at h; cases h
    | some bytes =>
      rw [hdec, Option.map_some', Option.some_inj] at h
      have hd4 := b64decodeBytes_length hdec
      have hdl : d.length ≤ bytes.length := by
        rw [← h]
        exact utf8DecodeIgnore_length bytes
      have hfl : (t.filter (fun c => !pyIsSpaceChar c)).length ≤ t.length :=
        List.length_filter_le _ t
      have hnz : (t.filter (fun c => !pyIsSpaceChar c)).length ≠ 0 := by
        intro h0
        have : bytes.length = 0 := by omega
        have hb : bytes = [] := List.length_eq_zero.mp this
        rw [hb] at h
        exact hne (by rw [← h]; rfl)
      have hmod4 : (t.filter (fun c => !pyIsSpaceChar c)).length % 4 = 0 := by
        by_contra hx
        exact hmod hx
      have hdne : d.length ≠ 0 := fun hx => hne (List.length_eq_zero.mp hx)
      omega

/-- Sum of segment lengths. -/
def flatLen (acc : List (List Char)) : Nat := (acc.map List.length).sum

theorem decodeSubsGo_spec (nm : Normalizer) (out : List Char) :
    ∀ (spans : List (Nat × Nat)) (last : Nat) (acc : List (List Char))
      (modified : Bool) (steps : List String),
    (∀ p ∈ spans, last ≤ (p : Nat × Nat).1 ∧ p.1 < p.2 ∧ p.2 ≤ out.length) →
    spans.Pairwise (fun a b => a.2 ≤ b.1) →
    (decodeSubsGo nm out spans last acc modified steps = (acc, last, modified, steps)) ∨
    ((decodeSubsGo nm out spans last acc modified steps).2.2.1 = true ∧
     steps.length < (decodeSubsGo nm out spans last acc modified steps).2.2.2.length ∧
     flatLen (decodeSubsGo nm out spans last acc modified steps).1 +
       (out.length - (decodeSubsGo nm out spans last acc modified steps).2.1) <
       flatLen acc + (out.length - last) ∧
     (decodeSubsGo nm out spans last acc modified steps).2.1 ≤ out.length) := by
  intro spans
  induction spans with
  | nil => intro last acc modified steps _ _; exact Or.inl rfl
  | cons se spans ih =>
    intro last acc modified steps hb hpw
    obtain ⟨s, e⟩ := se
    obtain ⟨hls, hse, hel⟩ := hb (s, e) (by simp)
    rw [List.pairwise_cons] at hpw
    have hb2 : ∀ p ∈ spans, last ≤ (p : Nat × Nat).1 ∧ p.1 < p.2 ∧ p.2 ≤ out.length := by
      intro p hp
      have h1 := hb p (by simp [hp])
      exact ⟨h1.1, h1.2.1, h1.2.2⟩
    have hb3 : ∀ p ∈ spans, e ≤ (p : Nat × Nat).1 ∧ p.1 < p.2 ∧ p.2 ≤ out.length := by
      intro p hp
      have h1 := hb p (by simp [hp])
      exact ⟨hpw.1 p hp, h1.2.1, h1.2.2⟩
    simp only [decodeSubsGo]
    split
    · exact ih last acc modified steps hb2 hpw.2
    · split
      · exact ih last acc modified steps hb2 hpw.2
      · next d hd =>
        split
        · exact ih last acc modified steps hb2 hpw.2
        · split
          · next hdne hprint =>
            -- the span is accepted and replaced
            have hcand : ((out.drop s).take (e - s)).length = e - s := by
              simp
              omega
            have hdlt : d.length < e - s := by
              have := safe_base64_decode_shrink hd (by
                intro hx
                rw [hx] at hdne
                simp at hdne)
              omega
            have hflat : flatLen (acc ++ [(out.drop last).take (s - last), d]) +
                (out.length - e) < flatLen acc + (out.length - last) := by
              unfold flatLen
              simp
              omega
            rcases ih e (acc ++ [(out.drop last).take (s - last), d]) true
                (steps ++ ["base64_substring_decode"]) hb3 hpw.2 with heq | hrec
            · rw [heq]
              refine Or.inr ⟨rfl, by simp, ?_, show e ≤ out.length by omega⟩
              exact hflat
            · refine Or.inr ⟨hrec.1, ?_, ?_, hrec.2.2.2⟩
              · have := hrec.2.1
                simp at this
                omega
              · have := hrec.2.2.1
                omega
          · exact ih last acc modified steps hb2 hpw.2

theorem is_mostly_printable_nil : is_mostly_printable [] = false := rfl

theorem recursiveB64Go_spec : ∀ (fuel depth : Nat) (out : List Char) (steps : List String),
    (recursiveB64Go depth fuel out steps = (out, steps)) ∨
    (steps.length < (recursiveB64Go depth fuel out steps).2.length ∧
     (recursiveB64Go depth fuel out steps).1.length < out.length)
  | 0, _, _, _ => Or.inl rfl
  | fuel + 1, depth, out, steps => by
    rw [recursiveB64Go_succ]
    cases hd : safe_base64_decode out with
    | none => exact Or.inl rfl
    | some candidate =>
      simp only []
      by_cases hp : is_mostly_printable candidate = true
      · rw [if_pos hp]
        have hcne : candidate ≠ [] := by
          intro hx
          rw [hx, is_mostly_printable_nil] at hp
          cases hp
        have hshrink := safe_base64_decode_shrink hd hcne
        rcases recursiveB64Go_spec fuel (depth + 1) candidate
            (steps ++ ["base64_decode_depth_" ++ toString (depth + 1)]) with heq | hrec
        · rw [heq]
          refine Or.inr ⟨by simp, hshrink⟩
        · refine Or.inr ⟨?_, by omega⟩
          have := hrec.1
          simp at this
          omega
      · rw [if_neg hp]
        exact Or.inl rfl

theorem stageUnicode_iff (nm : Normalizer) (t : List Char) :
    (stageUnicode nm t).2 = [] ↔ (stageUnicode nm t).1 = t := by
  rw [stageUnicode_noop]
  simp

theorem stageUrl_iff (nm : Normalizer) (t : List Char) :
    (stageUrl nm t).2 = [] ↔ (stageUrl nm t).1 = t := by
  simp only [stageUrl]
  split
  · split
    · next hne => simp [hne]
    · next heq => simp
  · simp

theorem stageSeparators_iff (nm : Normalizer) (t : List Char) :
    (stageSeparators nm t).2 = [] ↔ (stageSeparators nm t).1 = t := by
  simp only [stageSeparators]
  split
  · split
    · next hne => simp [hne]
    · next heq => simp
  · simp

theorem stageWhitespace_iff (nm : Normalizer) (t : List Char) :
    (stageWhitespace nm t).2 = [] ↔ (stageWhitespace nm t).1 = t := by
  simp only [stageWhitespace]
  split
  · split
    · next hne => simp [hne]
    · next heq => simp
  · simp

theorem stageLowercase_iff (nm : Normalizer) (t : List Char) :
    (stageLowercase nm t).2 = [] ↔ (stageLowercase nm t).1 = t := by
  simp only [stageLowercase]
  split
  · split
    · next hne => simp [hne]
    · next heq => simp
  · simp

theorem stageRecursiveB64_iff (nm : Normalizer) (t : List Char) :
    (stageRecursiveB64 nm t).2 = [] ↔ (stageRecursiveB64 nm t).1 = t := by
  unfold stageRecursiveB64
  split
  · unfold recursive_base64_decode
    rcases recursiveB64Go_spec nm.max_decode_depth 0 t [] with heq | ⟨h1, h2⟩
    · rw [heq]
      simp
    · constructor
      · intro hx
        rw [hx] at h1
        simp at h1
      · intro hx
        rw [hx] at h2
        omega
  · simp

theorem stageSubstringB64_iff (nm : Normalizer) (t : List Char) :
    (stageSubstringB64 nm t).2 = [] ↔ (stageSubstringB64 nm t).1 = t := by
  unfold stageSubstringB64
  split
  · simp only [decode_base64_substrings]
    split
    · simp
    · have hbounds : ∀ p ∈ (find_base64_like_spans t nm.min_base64_substring_len).take
          nm.max_base64_substrings,
          0 ≤ (p : Nat × Nat).1 ∧ p.1 < p.2 ∧ p.2 ≤ t.length := by
        intro p hp
        have hmem := List.mem_of_mem_take hp
        have hrun := ((find_base64_like_spans_spec t nm.min_base64_substring_len).1 p).mp hmem
        exact ⟨Nat.zero_le _, hrun.1.1, hrun.1.2.1⟩
      have hpw : ((find_base64_like_spans t nm.min_base64_substring_len).take
          nm.max_base64_substrings).Pairwise (fun a b => a.2 ≤ b.1) :=
        (find_base64_like_spans_spec t nm.min_base64_substring_len).2.sublist
          (List.take_sublist _ _)
      set sp := (find_base64_like_spans t nm.min_base64_substring_len).take
        nm.max_base64_substrings with hsp
      rcases decodeSubsGo_spec nm t sp 0 [] false [] hbounds hpw with heq | hmod
      · rw [heq]
        simp
      · obtain ⟨h1, h2, h3, h4⟩ := hmod
        rw [if_pos h1]
        constructor
        · intro hx
          rw [hx] at h2
          simp at h2
        · intro hx
          have hx2 : ((decodeSubsGo nm t sp 0 [] false []).1 ++
              [t.drop (decodeSubsGo nm t sp 0 [] false []).2.1]).flatten = t := hx
          have hlen : (((decodeSubsGo nm t sp 0 [] false []).1 ++
              [t.drop (decodeSubsGo nm t sp 0 [] false []).2.1]).flatten).length < t.length := by
            rw [List.length_flatten]
            simp only [List.map_append, List.sum_append]
            have hm : flatLen (decodeSubsGo nm t sp 0 [] false []).1 +
                (t.length - (decodeSubsGo nm t sp 0 [] false []).2.1) <
                flatLen ([] : List (List Char)) + (t.length - 0) := h3
            unfold flatLen at hm
            simp at hm ⊢
            omega
          rw [hx2] at hlen
          exact (by omega : False).elim
  · simp

/-- C6: every stage of `normalize` records a step name exactly when it
changed the text: a run of any stage that appends no step returns the
text unchanged character for character (rejected decodes included), and
a run that appends a step changed it; `normalize` is exactly the
sequential composition of these stages. -/
theorem claimC6 : ∀ (nm : Normalizer) (t : List Char),
    normalize nm t = applyStages (normalizeStages nm) t ∧
    ∀ st ∈ normalizeStages nm, ((st t).2 = [] ↔ (st t).1 = t) := by
  intro nm t
  refine ⟨rfl, ?_⟩
  intro st hst
  simp only [normalizeStages, List.mem_cons, List.not_mem_nil, or_false] at hst
  rcases hst with h | h | h | h | h | h | h <;> subst h
  · exact stageUnicode_iff nm t
  · exact stageUrl_iff nm t
  · exact stageSubstringB64_iff nm t
  · exact stageRecursiveB64_iff nm t
  · exact stageSeparators_iff nm t
  · exact stageWhitespace_iff nm t
  · exact stageLowercase_iff nm t

/-! ## Word-run extraction (claim C4)

Specification-side characterisation of the maximal runs of "word
characters" that `search`'s word-extraction logic processes. -/

/-- A character counts as a word character for the scan: alphanumeric, or
whitelisted because some filter's `must_contain` strings use it. -/
def validChar (wfs : List WordFilter) (c : Char) : Bool :=
  pyIsAlnumChar c || c ∈ allowedSpecialChars wfs

/-- `[s, e)` is a maximal run of characters satisfying `p` inside `t`. -/
def IsMaxRunP (p : Char → Bool) (t : List Char) (s e : Nat) : Prop :=
  s < e ∧ e ≤ t.length ∧
  (∀ j, s ≤ j → j < e → p (t.getD j ' ') = true) ∧
  (s = 0 ∨ p (t.getD (s - 1) ' ') = false) ∧
  (e = t.length ∨ p (t.getD e ' ') = false)

theorem IsMaxRunP.end_eq {p : Char → Bool} {t : List Char} {s e e₂ : Nat}
    (h : IsMaxRunP p t s e) (h₂ : IsMaxRunP p t s e₂) : e = e₂ := by
  obtain ⟨hse, hel, hin, _, hr⟩ := h
  obtain ⟨hse₂, hel₂, hin₂, _, hr₂⟩ := h₂
  by_contra hne
  rcases Nat.lt_or_ge e e₂ with hlt | hge
  · have hb : p (t.getD e ' ') = true := hin₂ e (by omega) hlt
    rcases hr with h | h
    · omega
    · rw [h] at hb
      cases hb
  · have hb : p (t.getD e₂ ' ') = true := hin e₂ (by omega) (by omega)
    rcases hr₂ with h | h
    · omega
    · rw [h] at hb
      cases hb

theorem IsMaxRunP.start_unique {p : Char → Bool} {t : List Char} {s s₂ e : Nat}
    (h : IsMaxRunP p t s e) (h₂ : IsMaxRunP p t s₂ e) : s = s₂ := by
  obtain ⟨hse, hel, hin, hl, _⟩ := h
  obtain ⟨hse₂, hel₂, hin₂, hl₂, _⟩ := h₂
  by_contra hne
  rcases Nat.lt_or_ge s s₂ with hlt | hge
  · have hb : p (t.getD (s₂ - 1) ' ') = true := hin (s₂ - 1) (by omega) (by omega)
    rcases hl₂ with h | h
    · omega
    · rw [h] at hb
      cases hb
  · have hb : p (t.getD (s - 1) ' ') = true := hin₂ (s - 1) (by omega) (by omega)
    rcases hl with h | h
    · omega
    · rw [h] at hb
      cases hb

/-- The closed maximal runs of `p`-characters from scan position `i` on
(`start` the currently open run, as in the scan loop); runs still open at
the end of the text are not included. -/
def runsGo (p : Char → Bool) : List Char → Nat → Option Nat → List (Nat × Nat)
  | [], _, _ => []
  | c :: rest, i, start =>
    if p c then runsGo p rest (i + 1) (some (start.getD i))
    else
      match start with
      | some s => (s, i) :: runsGo p rest (i + 1) none
      | none => runsGo p rest (i + 1) none

/-- The start of the run still open when the scan reaches the end. -/
def runEnd (p : Char → Bool) : List Char → Nat → Option Nat → Option Nat
  | [], _, start => start
  | c :: rest, i, start =>
    if p c then runEnd p rest (i + 1) (some (start.getD i))
    else runEnd p rest (i + 1) none

/-- All maximal runs of `p`-characters of `t`, in left-to-right order. -/
def maxRunsP (p : Char → Bool) (t : List Char) : List (Nat × Nat) :=
  runsGo p t 0 none ++
    (match runEnd p t 0 none with
     | some ws => [(ws, t.length)]
     | none => [])

/-- Invariant on the open-run register (generic version of
`SpanStartInv`). -/
def RunStartInv (p : Char → Bool) (t : List Char) (i : Nat) : Option Nat → Prop
  | none => i = 0 ∨ p (t.getD (i - 1) ' ') = false
  | some s => s < i ∧ (∀ j, s ≤ j → j < i → p (t.getD j ' ') = true) ∧
      (s = 0 ∨ p (t.getD (s - 1) ' ') = false)

/-- Generic version of `SpanPending`. -/
def RunPending (i : Nat) : Option Nat → Nat → Prop
  | none, s' => i ≤ s'
  | some s, s' => s' = s ∨ i ≤ s'

theorem runsGo_spec (p : Char → Bool) (t : List Char) :
    ∀ (rest : List Char) (i : Nat) (start : Option Nat), rest = t.drop i →
    i ≤ t.length → RunStartInv p t i start →
    (∀ q : Nat × Nat, q ∈ runsGo p rest i start ↔
      (IsMaxRunP p t q.1 q.2 ∧ q.2 < t.length ∧ RunPending i start q.1)) := by
  intro rest
  induction rest with
  | nil =>
    intro i start hrest hi hinv q
    simp only [runsGo, List.not_mem_nil, false_iff]
    rintro ⟨hrun, hlt, hp⟩
    have hlen : i = t.length := by
      have : t.length ≤ i := by
        by_contra hlt2
        have hne : t.drop i ≠ [] := by
          apply List.ne_nil_of_length_pos
          simp
          omega
        exact hne hrest.symm
      omega
    obtain ⟨h1, h2, hin, hl, hr⟩ := hrun
    cases start with
    | none =>
      simp only [RunPending] at hp
      omega
    | some s =>
      simp only [RunPending] at hp
      obtain ⟨hsi, hintr, hleft⟩ := hinv
      rcases hp with hp | hp
      · -- the open run extends to the end of the text, so it is not closed
        have hmax : IsMaxRunP p t s t.length :=
          ⟨by omega, le_refl _, fun j hj hj2 => hintr j hj (by omega), hleft, Or.inl rfl⟩
        have hrun2 : IsMaxRunP p t s q.2 := by
          rw [← hp]
          exact ⟨h1, h2, hin, hl, hr⟩
        have := IsMaxRunP.end_eq hrun2 hmax
        omega
      · omega
  | cons ch rest ih =>
    intro i start hrest hi hinv q
    obtain ⟨hilt, hch, hrest2⟩ := drop_cons_facts hrest.symm
    by_cases hb : p ch = true
    · have hbi : p (t.getD i ' ') = true := by rw [hch]; exact hb
      cases start with
      | none =>
        have hinv2 : RunStartInv p t (i + 1) (some i) := by
          refine ⟨by omega, ?_, hinv⟩
          intro j hj hj2
          have : j = i := by omega
          rw [this]
          exact hbi
        rw [show runsGo p (ch :: rest) i none = runsGo p rest (i + 1) (some i) by
          simp [runsGo, hb]]
        rw [ih (i + 1) (some i) hrest2.symm (by omega) hinv2 q]
        apply and_congr_right
        intro _
        apply and_congr_right
        intro _
        simp only [RunPending]
        omega
      | some s =>
        obtain ⟨hsi, hintr, hleft⟩ := hinv
        have hinv2 : RunStartInv p t (i + 1) (some s) := by
          refine ⟨by omega, ?_, hleft⟩
          intro j hj hj2
          by_cases hji : j = i
          · rw [hji]; exact hbi
          · exact hintr j hj (by omega)
        rw [show runsGo p (ch :: rest) i (some s) = runsGo p rest (i + 1) (some s) by
          simp [runsGo, hb]]
        rw [ih (i + 1) (some s) hrest2.symm (by omega) hinv2 q]
        apply and_congr_right
        intro hrun
        apply and_congr_right
        intro _
        simp only [RunPending]
        constructor
        · rintro (h | h)
          · exact Or.inl h
          · exact Or.inr (by omega)
        · rintro (h | h)
          · exact Or.inl h
          · rcases Nat.lt_or_ge q.1 (i + 1) with hlt | hge
            · exfalso
              have hq : q.1 = i := by omega
              rcases hrun.2.2.2.1 with h0 | h0
              · omega
              · have hc2 : p (t.getD (q.1 - 1) ' ') = true :=
                  hintr (q.1 - 1) (by omega) (by omega)
                rw [h0] at hc2
                cases hc2
            · exact Or.inr hge
    · have hbi : p (t.getD i ' ') = false := by
        rw [hch]
        simpa using hb
      have hnoStart : ∀ (e : Nat), ¬ IsMaxRunP p t i e := by
        intro e hrun
        have := hrun.2.2.1 i (le_refl i) hrun.1
        rw [hbi] at this
        cases this
      have hinv2 : RunStartInv p t (i + 1) none := Or.inr (by simpa using hbi)
      cases start with
      | none =>
        rw [show runsGo p (ch :: rest) i none = runsGo p rest (i + 1) none by
          simp [runsGo, hb]]
        rw [ih (i + 1) none hrest2.symm (by omega) hinv2 q]
        apply and_congr_right
        intro hrun
        apply and_congr_right
        intro _
        simp only [RunPending]
        constructor
        · intro h
          omega
        · intro h
          rcases Nat.lt_or_ge q.1 (i + 1) with hlt | hge
          · exfalso
            have : q.1 = i := by omega
            exact hnoStart q.2 (this ▸ hrun)
          · exact hge
      | some s =>
        obtain ⟨hsi, hintr, hleft⟩ := hinv
        have hmax : IsMaxRunP p t s i := ⟨hsi, by omega, hintr, hleft, Or.inr hbi⟩
        rw [show runsGo p (ch :: rest) i (some s) =
            (s, i) :: runsGo p rest (i + 1) none by simp [runsGo, hb]]
        rw [List.mem_cons, ih (i + 1) none hrest2.symm (by omega) hinv2 q]
        constructor
        · rintro (h | ⟨hrun, hlt, hpend⟩)
          · rw [h]
            exact ⟨hmax, hilt, Or.inl rfl⟩
          · simp only [RunPending] at hpend
            exact ⟨hrun, hlt, Or.inr (by omega)⟩
        · rintro ⟨hrun, hlt, hpend⟩
          simp only [RunPending] at hpend
          rcases hpend with hp | hp
          · have hend : q.2 = i := IsMaxRunP.end_eq (hp ▸ hrun) hmax
            refine Or.inl ?_
            rcases q with ⟨a, b⟩
            simp_all
          · refine Or.inr ⟨hrun, hlt, ?_⟩
            simp only [RunPending]
            rcases Nat.lt_or_ge q.1 (i + 1) with hlt2 | hge
            · exfalso
              rcases Nat.lt_or_ge q.1 i with hlt3 | hge2
              · omega
              · have : q.1 = i := by omega
                exact hnoStart q.2 (this ▸ hrun)
            · exact hge

theorem runEnd_spec (p : Char → Bool) (t : List Char) :
    ∀ (rest : List Char) (i : Nat) (start : Option Nat), rest = t.drop i →
    i ≤ t.length → RunStartInv p t i start →
    RunStartInv p t t.length (runEnd p rest i start) := by
  intro rest
  induction rest with
  | nil =>
    intro i start hrest hi hinv
    have hlen : i = t.length := by
      have : t.length ≤ i := by
        by_contra hlt2
        have hne : t.drop i ≠ [] := by
          apply List.ne_nil_of_length_pos
          simp
          omega
        exact hne hrest.symm
      omega
    rw [show runEnd p [] i start = start from rfl, ← hlen]
    exact hinv
  | cons ch rest ih =>
    intro i start hrest hi hinv
    obtain ⟨hilt, hch, hrest2⟩ := drop_cons_facts hrest.symm
    by_cases hb : p ch = true
    · have hbi : p (t.getD i ' ') = true := by rw [hch]; exact hb
      cases start with
      | none =>
        rw [show runEnd p (ch :: rest) i none = runEnd p rest (i + 1) (some i) by
          simp [runEnd, hb]]
        apply ih (i + 1) (some i) hrest2.symm (by omega)
        refine ⟨by omega, ?_, hinv⟩
        intro j hj hj2
        have : j = i := by omega
        rw [this]
        exact hbi
      | some s =>
        obtain ⟨hsi, hintr, hleft⟩ := hinv
        rw [show runEnd p (ch :: rest) i (some s) = runEnd p rest (i + 1) (some s) by
          simp [runEnd, hb]]
        apply ih (i + 1) (some s) hrest2.symm (by omega)
        refine ⟨by omega, ?_, hleft⟩
        intro j hj hj2
        by_cases hji : j = i
        · rw [hji]; exact hbi
        · exact hintr j hj (by omega)
    · have hbi : p (t.getD i ' ') = false := by
        rw [hch]
        simpa using hb
      rw [show runEnd p (ch :: rest) i start = runEnd p rest (i + 1) none by
        simp [runEnd, hb]]
      exact ih (i + 1) none hrest2.symm (by omega) (Or.inr (by simpa using hbi))

/-- Membership characterisation of `maxRunsP`. -/
theorem maxRunsP_spec (p : Char → Bool) (t : List Char) (q : Nat × Nat) :
    q ∈ maxRunsP p t ↔ IsMaxRunP p t q.1 q.2 := by
  unfold maxRunsP
  rw [List.mem_append]
  rw [runsGo_spec p t t 0 none (by simp) (by omega) (Or.inl rfl) q]
  have hend := runEnd_spec p t t 0 none (by simp) (by omega) (Or.inl rfl)
  constructor
  · rintro (⟨hrun, _, _⟩ | h)
    · exact hrun
    · cases hre : runEnd p t 0 none with
      | none => rw [hre] at h; cases h
      | some ws =>
        rw [hre] at h hend
        simp only [List.mem_singleton] at h
        obtain ⟨hsi, hintr, hleft⟩ := hend
        rw [h]
        exact ⟨hsi, le_refl _, hintr, hleft, Or.inl rfl⟩
  · intro hrun
    rcases Nat.lt_or_ge q.2 t.length with hlt | hge
    · exact Or.inl ⟨hrun, hlt, by simp [RunPending]⟩
    · have hq2 : q.2 = t.length := by
        have := hrun.2.1
        omega
      refine Or.inr ?_
      cases hre : runEnd p t 0 none with
      | none =>
        exfalso
        rw [hre] at hend
        obtain ⟨h1, h2, hin, hl, _⟩ := hrun
        rcases hend with h | h
        · omega
        · have := hin (t.length - 1) (by omega) (by omega)
          rw [h] at this
          cases this
      | some ws =>
        rw [hre] at hend
        obtain ⟨hsi, hintr, hleft⟩ := hend
        have hmax : IsMaxRunP p t ws t.length :=
          ⟨hsi, le_refl _, hintr, hleft, Or.inl rfl⟩
        have := IsMaxRunP.start_unique (hq2 ▸ hrun) hmax
        simp only [List.mem_singleton]
        rcases q with ⟨a, b⟩
        simp_all

/-- Lower bounds and ordering of the closed runs. -/
theorem runsGo_lb (p : Char → Bool) :
    ∀ (rest : List Char) (i : Nat) (start : Option Nat),
    (∀ s, start = some s → s ≤ i) →
    (∀ q ∈ runsGo p rest i start, start.getD i ≤ q.1) ∧
    (runsGo p rest i start).Pairwise (fun a b : Nat × Nat => a.2 ≤ b.1) := by
  intro rest
  induction rest with
  | nil =>
    intro i start _
    constructor
    · intro q hq
      simp [runsGo] at hq
    · simp [runsGo]
  | cons c rest ih =>
    intro i start hstart
    by_cases hc : p c = true
    · rw [show runsGo p (c :: rest) i start = runsGo p rest (i + 1) (some (start.getD i)) by
        simp [runsGo, hc]]
      have hstart2 : ∀ s, (some (start.getD i) : Option Nat) = some s → s ≤ i + 1 := by
        intro s hs
        rw [Option.some_inj] at hs
        cases start with
        | none => simp at hs; omega
        | some s0 =>
          have := hstart s0 rfl
          simp at hs
          omega
      obtain ⟨hmem, hpw⟩ := ih (i + 1) (some (start.getD i)) hstart2
      refine ⟨?_, hpw⟩
      intro q hq
      simpa using hmem q hq
    · cases start with
      | none =>
        rw [show runsGo p (c :: rest) i none = runsGo p rest (i + 1) none by
          simp [runsGo, hc]]
        obtain ⟨hmem, hpw⟩ := ih (i + 1) none (by simp)
        refine ⟨?_, hpw⟩
        intro q hq
        have := hmem q hq
        simp at this ⊢
        omega
      | some s =>
        rw [show runsGo p (c :: rest) i (some s) = (s, i) :: runsGo p rest (i + 1) none by
          simp [runsGo, hc]]
        obtain ⟨hmem, hpw⟩ := ih (i + 1) none (by simp)
        constructor
        · intro q hq
          rw [List.mem_cons] at hq
          rcases hq with hq | hq
          · rw [hq]
            simp
          · have := hmem q hq
            have hs := hstart s rfl
            simp at this
            simp
            omega
        · rw [List.pairwise_cons]
          refine ⟨?_, hpw⟩
          intro q hq
          have := hmem q hq
          simp at this
          show i ≤ q.1
          omega

/-- The maximal runs are listed in strict left-to-right order. -/
theorem maxRunsP_pairwise (p : Char → Bool) (t : List Char) :
    (maxRunsP p t).Pairwise (fun a b : Nat × Nat => a.2 ≤ b.1) := by
  unfold maxRunsP
  rw [List.pairwise_append]
  refine ⟨(runsGo_lb p t 0 none (by simp)).2, ?_, ?_⟩
  · cases runEnd p t 0 none <;> simp
  · intro a ha b hb
    cases hre : runEnd p t 0 none with
    | none =>
      rw [hre] at hb
      cases hb
    | some ws =>
      rw [hre] at hb
      simp only [List.mem_singleton] at hb
      have hmem := (runsGo_spec p t t 0 none (by simp) (by omega) (Or.inl rfl) a).mp ha
      obtain ⟨⟨_, _, _, _, hrmax⟩, halt, _⟩ := hmem
      have hend := runEnd_spec p t t 0 none (by simp) (by omega) (Or.inl rfl)
      rw [hre] at hend
      obtain ⟨hsi, hintr, _⟩ := hend
      rw [hb]
      show a.2 ≤ ws
      by_contra hgt
      have hp2 : p (t.getD a.2 ' ') = true := hintr a.2 (by omega) halt
      rcases hrmax with h | h
      · omega
      · rw [h] at hp2
        cases hp2

/-- `emitMatches` never reports a FILTERED_WORD match (its `match_type`
is one of FULL_WORD, PREFIX, SUFFIX, SUBSTRING). -/
theorem emitMatches_no_filtered (text : List Char) (i st : Nat) (ac : AhoCorasick) :
    (emitMatches text i st ac).filter
      (fun m => m.match_type == MATCH_FILTERED_WORD) = [] := by
  rw [List.filter_eq_nil_iff]
  intro m hm
  simp only [emitMatches, List.mem_map] at hm
  obtain ⟨pattern, _, hp⟩ := hm
  rw [← hp]
  simp only [beq_iff_eq]
  show ¬ (if _ then MATCH_FULL_WORD else if _ then MATCH_PREFIX
          else if _ then MATCH_SUFFIX else MATCH_SUBSTRING) = MATCH_FILTERED_WORD
  split
  · decide
  · split
    · decide
    · split
      · decide
      · decide

/-- The truthiness test on a filter's label is exactly whether the label
collector keeps it. -/
theorem labelOf_isSome (wf : WordFilter) :
    (match wf.label with
      | some l => if l = "" then none else some l
      | none => (none : Option String)).isSome = pyTruthyOptStr wf.label := by
  cases hl : wf.label with
  | none => rfl
  | some l =>
    by_cases he : l = ""
    · rw [he]
      rfl
    · simp [pyTruthyOptStr, he]

/-- `_process_word_filters` succeeds exactly when some filter with a
truthy label accepts the word, and the produced match has the
FILTERED_WORD shape. -/
theorem process_word_filters_spec (text : List Char) (s e : Nat)
    (wfs : List WordFilter) :
    ((process_word_filters text s e wfs).isSome = true ↔
      ∃ wf ∈ wfs, filterAccepts ((text.drop s).take (e - s)) wf = true ∧
        pyTruthyOptStr wf.label = true) ∧
    (∀ m, process_word_filters text s e wfs = some m →
      m.match_type = MATCH_FILTERED_WORD ∧ m.weight = 7 / 10 ∧
      m.is_word_start = true ∧ m.is_word_end = true ∧ m.start = s ∧ m.mend = e ∧
      m.keyword = (text.drop s).take (e - s) ∧
      m.filter_labels = some ((wfs.filter (fun wf =>
          filterAccepts ((text.drop s).take (e - s)) wf)).filterMap
        (fun wf => match wf.label with
          | some l => if l = "" then none else some l
          | none => none))) := by
  constructor
  · simp only [process_word_filters]
    split
    · rename_i hemp
      rw [List.isEmpty_iff, List.filterMap_eq_nil_iff] at hemp
      simp only [Option.isSome_none, Bool.false_eq_true, false_iff]
      rintro ⟨wf, hmem, hacc, hlab⟩
      have := hemp wf (List.mem_filter.mpr ⟨hmem, hacc⟩)
      rw [← labelOf_isSome wf] at hlab
      rw [this] at hlab
      cases hlab
    · rename_i hemp
      simp only [Option.isSome_some, true_iff]
      rw [List.isEmpty_iff] at hemp
      obtain ⟨l, hl⟩ := List.exists_mem_of_ne_nil _ hemp
      rw [List.mem_filterMap] at hl
      obtain ⟨wf, hwf, hlab⟩ := hl
      rw [List.mem_filter] at hwf
      refine ⟨wf, hwf.1, hwf.2, ?_⟩
      rw [← labelOf_isSome wf, hlab]
      rfl
  · intro m hm
    simp only [process_word_filters] at hm
    split at hm
    · cases hm
    · rw [Option.some_inj] at hm
      rw [← hm]
      refine ⟨rfl, ?_, rfl, rfl, rfl, rfl, rfl, rfl⟩
      show matchWeight MATCH_FILTERED_WORD = 7 / 10
      rfl

/-- The word-extraction part of the scan loop: the final
`current_word_start` register follows `runEnd`, and the FILTERED_WORD
matches produced are exactly `_process_word_filters` applied to each
closed maximal run of valid characters. -/
theorem searchGo_filtered (ac : AhoCorasick) (t : List Char) (wfs : List WordFilter) :
    ∀ (rest : List Char) (i st : Nat) (cws : Option Nat) (results : List ACMatch),
    (searchGo ac t wfs true (allowedSpecialChars wfs) rest i st cws results).2 =
      runEnd (validChar wfs) rest i cws ∧
    (searchGo ac t wfs true (allowedSpecialChars wfs) rest i st cws results).1.filter
        (fun m => m.match_type == MATCH_FILTERED_WORD) =
      results.filter (fun m => m.match_type == MATCH_FILTERED_WORD) ++
        (runsGo (validChar wfs) rest i cws).filterMap
          (fun q => process_word_filters t q.1 q.2 wfs) := by
  intro rest
  induction rest with
  | nil =>
    intro i st cws results
    exact ⟨rfl, by simp [searchGo, runsGo]⟩
  | cons c rest ih =>
    intro i st cws results
    by_cases hc : (pyIsAlnumChar c || c ∈ allowedSpecialChars wfs) = true
    · have hstep : searchGo ac t wfs true (allowedSpecialChars wfs) (c :: rest) i st
          cws results =
          searchGo ac t wfs true (allowedSpecialChars wfs) rest (i + 1)
            (searchStep ac st c) (some (cws.getD i))
            (results ++ emitMatches t i (searchStep ac st c) ac) := by
        simp [searchGo, hc]
      rw [hstep]
      obtain ⟨h2, h1⟩ := ih (i + 1) (searchStep ac st c) (some (cws.getD i))
        (results ++ emitMatches t i (searchStep ac st c) ac)
      refine ⟨?_, ?_⟩
      · rw [h2]
        simp [runEnd, validChar, hc]
      · rw [h1, List.filter_append, emitMatches_no_filtered, List.append_nil]
        have : runsGo (validChar wfs) (c :: rest) i cws =
            runsGo (validChar wfs) rest (i + 1) (some (cws.getD i)) := by
          simp [runsGo, validChar, hc]
        rw [this]
    · have hcf : validChar wfs c = false := by
        simp only [validChar]
        simpa using hc
      cases cws with
      | none =>
        have hstep : searchGo ac t wfs true (allowedSpecialChars wfs) (c :: rest) i st
            none results =
            searchGo ac t wfs true (allowedSpecialChars wfs) rest (i + 1)
              (searchStep ac st c) none
              (results ++ emitMatches t i (searchStep ac st c) ac) := by
          simp [searchGo, hc]
        rw [hstep]
        obtain ⟨h2, h1⟩ := ih (i + 1) (searchStep ac st c) none
          (results ++ emitMatches t i (searchStep ac st c) ac)
        refine ⟨?_, ?_⟩
        · rw [h2]
          simp only [runEnd]
          rw [hcf]
          simp
        · rw [h1, List.filter_append, emitMatches_no_filtered, List.append_nil]
          have : runsGo (validChar wfs) (c :: rest) i none =
              runsGo (validChar wfs) rest (i + 1) none := by
            simp only [runsGo]
            rw [hcf]
            simp
          rw [this]
      | some ws =>
        have hstep : searchGo ac t wfs true (allowedSpecialChars wfs) (c :: rest) i st
            (some ws) results =
            searchGo ac t wfs true (allowedSpecialChars wfs) rest (i + 1)
              (searchStep ac st c) none
              ((results ++ emitMatches t i (searchStep ac st c) ac) ++
                (process_word_filters t ws i wfs).toList) := by
          simp [searchGo, hc]
        rw [hstep]
        obtain ⟨h2, h1⟩ := ih (i + 1) (searchStep ac st c) none
          ((results ++ emitMatches t i (searchStep ac st c) ac) ++
            (process_word_filters t ws i wfs).toList)
        refine ⟨?_, ?_⟩
        · rw [h2]
          simp only [runEnd]
          rw [hcf]
          simp
        · rw [h1, List.filter_append, List.filter_append, emitMatches_no_filtered,
            List.append_nil]
          have hruns : runsGo (validChar wfs) (c :: rest) i (some ws) =
              (ws, i) :: runsGo (validChar wfs) rest (i + 1) none := by
            simp only [runsGo]
            rw [hcf]
            simp
          rw [hruns, List.filterMap_cons]
          cases hp : process_word_filters t ws i wfs with
          | none => simp [List.append_assoc]
          | some m =>
            have hmt := ((process_word_filters_spec t ws i wfs).2 m hp).1
            simp only [Option.toList_some, List.filter_cons, List.filter_nil, hmt]
            simp [List.append_assoc]

/-- `search` with a non-empty filter list: its FILTERED_WORD matches are
`_process_word_filters` applied to each maximal run of valid characters,
in text order (the run still open at the end of the text included). -/
theorem search_filtered (ac : AhoCorasick) (t : List Char) (wf₀ : WordFilter)
    (wrest : List WordFilter) :
    ((search ac t (some (wf₀ :: wrest))).2).filter
        (fun m => m.match_type == MATCH_FILTERED_WORD) =
      (maxRunsP (validChar (wf₀ :: wrest)) t).filterMap
        (fun q => process_word_filters t q.1 q.2 (wf₀ :: wrest)) := by
  obtain ⟨h2, h1⟩ := searchGo_filtered (if ac.is_built then ac else build ac) t
    (wf₀ :: wrest) t 0 0 none []
  unfold maxRunsP
  cases hre : runEnd (validChar (wf₀ :: wrest)) t 0 none with
  | none =>
    have hsearch : (search ac t (some (wf₀ :: wrest))).2 =
        (searchGo (if ac.is_built then ac else build ac) t (wf₀ :: wrest) true
          (allowedSpecialChars (wf₀ :: wrest)) t 0 0 none []).1 := by
      simp only [search, Option.getD_some, pyTruthyOptList, List.isEmpty_cons,
        Bool.not_false]
      rw [h2, hre]
    rw [hsearch, h1]
    simp
  | some ws =>
    have hsearch : (search ac t (some (wf₀ :: wrest))).2 =
        (searchGo (if ac.is_built then ac else build ac) t (wf₀ :: wrest) true
          (allowedSpecialChars (wf₀ :: wrest)) t 0 0 none []).1 ++
          (process_word_filters t ws t.length (wf₀ :: wrest)).toList := by
      simp only [search, Option.getD_some, pyTruthyOptList, List.isEmpty_cons,
        Bool.not_false]
      rw [h2, hre]
    rw [hsearch, List.filter_append, h1]
    simp only [List.filter_nil, List.nil_append, List.filterMap_append]
    congr 1
    cases hp : process_word_filters t ws t.length (wf₀ :: wrest) with
    | none => simp [hp]
    | some m =>
      have hmt := ((process_word_filters_spec t ws t.length (wf₀ :: wrest)).2 m hp).1
      simp [hp, hmt]

/-- **C4** (amended): with a non-empty word-filter list, the
FILTERED_WORD matches returned by `search` are exactly one per maximal
run of word characters (alphanumeric or whitelisted by some filter's
`must_contain`) accepted by at least one filter whose label is truthy
(non-None and non-empty); each carries weight 0.7 (7/10),
`is_word_start` and `is_word_end` both true, and `filter_labels` the
labels of the truthy-labelled filters the word satisfies, in filter
order.  (Runs accepted only by filters without a truthy label produce
no match — the correction to the claim's "at least one filter".) -/
theorem claimC4 (ac : AhoCorasick) (t : List Char) (wf₀ : WordFilter)
    (wrest : List WordFilter) :
    (((search ac t (some (wf₀ :: wrest))).2).filter
        (fun m => m.match_type == MATCH_FILTERED_WORD) =
      (maxRunsP (validChar (wf₀ :: wrest)) t).filterMap
        (fun q => process_word_filters t q.1 q.2 (wf₀ :: wrest))) ∧
    (∀ q : Nat × Nat, q ∈ maxRunsP (validChar (wf₀ :: wrest)) t ↔
      IsMaxRunP (validChar (wf₀ :: wrest)) t q.1 q.2) ∧
    ((maxRunsP (validChar (wf₀ :: wrest)) t).Pairwise
      (fun a b : Nat × Nat => a.2 ≤ b.1)) ∧
    (∀ s e, ((process_word_filters t s e (wf₀ :: wrest)).isSome = true ↔
      ∃ wf ∈ wf₀ :: wrest, filterAccepts ((t.drop s).take (e - s)) wf = true ∧
        pyTruthyOptStr wf.label = true)) ∧
    (∀ m, ∀ s e, process_word_filters t s e (wf₀ :: wrest) = some m →
      m.match_type = MATCH_FILTERED_WORD ∧ m.weight = 7 / 10 ∧
      m.is_word_start = true ∧ m.is_word_end = true ∧ m.start = s ∧ m.mend = e ∧
      m.keyword = (t.drop s).take (e - s) ∧
      m.filter_labels = some (((wf₀ :: wrest).filter (fun wf =>
          filterAccepts ((t.drop s).take (e - s)) wf)).filterMap
        (fun wf => match wf.label with
          | some l => if l = "" then none else some l
          | none => none))) :=
  ⟨search_filtered ac t wf₀ wrest,
   fun q => maxRunsP_spec _ t q,
   maxRunsP_pairwise _ t,
   fun s e => (process_word_filters_spec t s e _).1,
   fun m s e hm => (process_word_filters_spec t s e _).2 m hm⟩

/-- **C4**, counterexample to the claim as stated: the single filter
`{label: None}` accepts the word "ab" — the unique maximal run of word
characters, spanning the whole text — yet the scan emits no
FILTERED_WORD match at all (the claim demands exactly one): a filter
without a truthy label never contributes a label, and
`_process_word_filters` returns a match only when `matching_labels` is
non-empty. -/
theorem claimC4_counterexample :
    filterAccepts "ab".toList { label := none } = true ∧
    IsMaxRunP (validChar [{ label := none }]) "ab".toList 0 2 ∧
    ((search AhoCorasick.init "ab".toList
        (some [{ label := none }])).2.filter
      (fun m => m.match_type == MATCH_FILTERED_WORD)).length = 0 := by
  refine ⟨by decide, ⟨by decide, by decide, ?_, by decide, by decide⟩, by decide⟩
  intro j h1 h2
  interval_cases j <;> decide

/-! ## The trie and the built automaton (claims C1, C3, C9)

Specification-side notions: the semantic map from strings to trie
states, the node predicate, and the longest node-suffix, all functions
of the transition table alone (`build` and `search` never modify it). -/

/-- Walk the trie from state `st` along `u` (`none` when an edge is
missing). -/
def stateOf (ts : List (List (Char × Nat))) : Nat → List Char → Option Nat
  | st, [] => some st
  | st, c :: cs =>
    match lookupTrans (ts.getD st []) c with
    | some n => stateOf ts n cs
    | none => none

/-- Is `u` a node of the trie (reachable from the root)? -/
def isNode (ts : List (List (Char × Nat))) (u : List Char) : Bool :=
  (stateOf ts 0 u).isSome

/-- The state of a node (default `0` for non-nodes). -/
def nodeState (ts : List (List (Char × Nat))) (u : List Char) : Nat :=
  (stateOf ts 0 u).getD 0

/-- The longest suffix of `w` that is a node (at worst `[]`, always a
node). -/
def mns (ts : List (List (Char × Nat))) : List Char → List Char
  | [] => []
  | c :: rest => if isNode ts (c :: rest) then c :: rest else mns ts rest

/-- The success branch of `add_pattern` (an automaton not yet built). -/
def insertPattern (ac : AhoCorasick) (pattern : List Char) : AhoCorasick :=
  let r := addPatternGo ac 0 pattern
  { r.1 with
    outputs := r.1.outputs.set r.2 (setAdd (r.1.outputs.getD r.2 []) pattern) }

/-- A sequence of `add_pattern` calls. -/
def addPatterns (ac : AhoCorasick) (ps : List (List Char)) : AhoCorasick :=
  ps.foldl insertPattern ac

/-- Structural invariants of the trie arrays: established by `__init__`
and `add_pattern`, untouched by `build` (which never writes
`transitions`).  Targets strictly exceed their source (states are
appended in creation order), are in range, and each state has at most
one incoming edge. -/
structure TrieInv (ac : AhoCorasick) : Prop where
  root_lt : 0 < ac.transitions.length
  len_out : ac.outputs.length = ac.transitions.length
  len_fail : ac.fail.length = ac.transitions.length
  target : ∀ s, s < ac.transitions.length →
    ∀ e ∈ ac.transitions.getD s [], s < e.2 ∧ e.2 < ac.transitions.length
  indeg : ∀ s₁ s₂, s₁ < ac.transitions.length → s₂ < ac.transitions.length →
    ∀ e₁ ∈ ac.transitions.getD s₁ [], ∀ e₂ ∈ ac.transitions.getD s₂ [],
    e₁.2 = e₂.2 → s₁ = s₂ ∧ e₁.1 = e₂.1
  reach : ∀ s, s < ac.transitions.length → ∃ u, stateOf ac.transitions 0 u = some s
  keys_nodup : ∀ s, s < ac.transitions.length →
    (((ac.transitions.getD s []).map Prod.fst).Nodup)

/-- State of an automaton before `build` runs. -/
structure PreBuild (ac : AhoCorasick) : Prop where
  not_built : ac.is_built = false
  fail_zero : ∀ v ∈ ac.fail, v = 0

/-- The output sets hold exactly the added patterns, each at its terminal
state. -/
def OutSem (ac : AhoCorasick) (ps : List (List Char)) : Prop :=
  ∀ s, s < ac.transitions.length →
    ∀ p, p ∈ ac.outputs.getD s [] ↔ p ∈ ps ∧ stateOf ac.transitions 0 p = some s

/-- The trie nodes are exactly the prefixes of the added patterns. -/
def NodeSem (ts : List (List (Char × Nat))) (ps : List (List Char)) : Prop :=
  ∀ u, isNode ts u = true ↔ (u = [] ∨ ∃ p ∈ ps, u <+: p)

theorem stateOf_append (ts : List (List (Char × Nat))) (a : List Char) :
    ∀ (b : List Char) (st : Nat),
    stateOf ts st (a ++ b) = (stateOf ts st a).bind (fun m => stateOf ts m b) := by
  induction a with
  | nil => intro b st; rfl
  | cons c a ih =>
    intro b st
    simp only [List.cons_append, stateOf]
    cases lookupTrans (ts.getD st []) c with
    | none => simp
    | some n => simp [ih]

theorem lookupTrans_mem {m : List (Char × Nat)} {c : Char} {n : Nat}
    (h : lookupTrans m c = some n) : (c, n) ∈ m := by
  unfold lookupTrans at h
  cases hf : m.find? (fun p => p.1 = c) with
  | none => rw [hf] at h; cases h
  | some e =>
    rw [hf] at h
    simp at h
    have hm := List.mem_of_find?_eq_some hf
    have hp := List.find?_some hf
    simp only [decide_eq_true_eq] at hp
    have : e = (c, n) := by
      rcases e with ⟨a, b⟩
      simp at hp h
      simp [hp, h]
    rw [← this]
    exact hm

/-- Walks from an in-range state stay in range and never decrease. -/
theorem stateOf_le {ac : AhoCorasick} (hinv : TrieInv ac) :
    ∀ (u : List Char) (st x : Nat), st < ac.transitions.length →
    stateOf ac.transitions st u = some x →
    st ≤ x ∧ x < ac.transitions.length := by
  intro u
  induction u with
  | nil =>
    intro st x hst h
    simp only [stateOf, Option.some_inj] at h
    omega
  | cons c u ih =>
    intro st x hst h
    simp only [stateOf] at h
    cases hl : lookupTrans (ac.transitions.getD st []) c with
    | none => rw [hl] at h; cases h
    | some n =>
      rw [hl] at h
      have hmem := lookupTrans_mem hl
      have ht := hinv.target st hst _ hmem
      have := ih n x ht.2 h
      omega

/-- Each state is reached by at most one string (in-degree one, targets
above sources). -/
theorem stateOf_concat (ts : List (List (Char × Nat))) (u : List Char) (c : Char)
    (st : Nat) :
    stateOf ts st (u ++ [c]) =
      (stateOf ts st u).bind (fun m => lookupTrans (ts.getD m []) c) := by
  rw [stateOf_append]
  cases stateOf ts st u with
  | none => rfl
  | some m =>
    simp only [Option.some_bind]
    show stateOf ts m [c] = _
    simp only [stateOf]
    cases lookupTrans (ts.getD m []) c <;> rfl

/-- Each state is reached by at most one string (in-degree one, targets
above sources). -/
theorem stateOf_inj {ac : AhoCorasick} (hinv : TrieInv ac) :
    ∀ (u v : List Char) (x : Nat),
    stateOf ac.transitions 0 u = some x → stateOf ac.transitions 0 v = some x →
    u = v := by
  have main : ∀ (k : Nat) (u v : List Char) (x : Nat), u.length ≤ k →
      stateOf ac.transitions 0 u = some x → stateOf ac.transitions 0 v = some x →
      u = v := by
    intro k
    induction k with
    | zero =>
      intro u v x hu hsu hsv
      have hu0 : u = [] := List.eq_nil_of_length_eq_zero (by omega)
      rw [hu0] at hsu
      simp only [stateOf, Option.some_inj] at hsu
      rcases List.eq_nil_or_concat v with hv | ⟨v₀, d, hv⟩
      · rw [hu0, hv]
      · exfalso
        rw [List.concat_eq_append] at hv
        rw [hv, stateOf_concat] at hsv
        cases hm : stateOf ac.transitions 0 v₀ with
        | none => rw [hm] at hsv; cases hsv
        | some m =>
          rw [hm, Option.some_bind] at hsv
          have hmlt := (stateOf_le hinv v₀ 0 m hinv.root_lt hm).2
          have := (hinv.target m hmlt _ (lookupTrans_mem hsv)).1
          omega
    | succ k ih =>
      intro u v x hu hsu hsv
      rcases List.eq_nil_or_concat u with hu0 | ⟨u₀, c, hu0⟩
      · exact ih u v x (by rw [hu0]; simp) hsu hsv
      · rw [List.concat_eq_append] at hu0
        rcases List.eq_nil_or_concat v with hv0 | ⟨v₀, d, hv0⟩
        · exfalso
          rw [hv0] at hsv
          simp only [stateOf, Option.some_inj] at hsv
          rw [hu0, stateOf_concat] at hsu
          cases hm : stateOf ac.transitions 0 u₀ with
          | none => rw [hm] at hsu; cases hsu
          | some m =>
            rw [hm, Option.some_bind] at hsu
            have hmlt := (stateOf_le hinv u₀ 0 m hinv.root_lt hm).2
            have := (hinv.target m hmlt _ (lookupTrans_mem hsu)).1
            omega
        · rw [List.concat_eq_append] at hv0
          rw [hu0, stateOf_concat] at hsu
          rw [hv0, stateOf_concat] at hsv
          cases hmu : stateOf ac.transitions 0 u₀ with
          | none => rw [hmu] at hsu; cases hsu
          | some mu =>
            cases hmv : stateOf ac.transitions 0 v₀ with
            | none => rw [hmv] at hsv; cases hsv
            | some mv =>
              rw [hmu, Option.some_bind] at hsu
              rw [hmv, Option.some_bind] at hsv
              have hmulr := (stateOf_le hinv u₀ 0 mu hinv.root_lt hmu).2
              have hmvlr := (stateOf_le hinv v₀ 0 mv hinv.root_lt hmv).2
              obtain ⟨heq, hceq⟩ := hinv.indeg mu mv hmulr hmvlr
                _ (lookupTrans_mem hsu) _ (lookupTrans_mem hsv) rfl
              have hlen : u₀.length ≤ k := by
                have : u.length = u₀.length + 1 := by rw [hu0]; simp
                omega
              have hueq : u₀ = v₀ := by
                apply ih u₀ v₀ mu hlen hmu
                rw [← heq] at hmv
                exact hmv
              have hcd : c = d := hceq
              rw [hu0, hv0, hueq, hcd]
  intro u v x hsu hsv
  exact main u.length u v x (le_refl _) hsu hsv

theorem init_inv : TrieInv AhoCorasick.init ∧ PreBuild AhoCorasick.init ∧
    OutSem AhoCorasick.init [] ∧ NodeSem AhoCorasick.init.transitions [] := by
  refine ⟨⟨by decide, by decide, by decide, ?_, ?_, ?_, ?_⟩, ⟨rfl, ?_⟩, ?_, ?_⟩
  · intro s hs e he
    have hs0 : s = 0 := by
      have h1 : AhoCorasick.init.transitions.length = 1 := rfl
      omega
    subst hs0
    simp [AhoCorasick.init] at he
  · intro s₁ s₂ h₁ h₂ e₁ he₁ e₂ he₂ _
    have hs0 : s₁ = 0 := by
      have h1 : AhoCorasick.init.transitions.length = 1 := rfl
      omega
    subst hs0
    simp [AhoCorasick.init] at he₁
  · intro s hs
    have hs0 : s = 0 := by
      have h1 : AhoCorasick.init.transitions.length = 1 := rfl
      omega
    subst hs0
    exact ⟨[], rfl⟩
  · intro s hs
    have hs0 : s = 0 := by
      have h1 : AhoCorasick.init.transitions.length = 1 := rfl
      omega
    subst hs0
    simp [AhoCorasick.init]
  · intro v hv
    simp [AhoCorasick.init] at hv
    exact hv
  · intro s hs p
    have hs0 : s = 0 := by
      have h1 : AhoCorasick.init.transitions.length = 1 := rfl
      omega
    subst hs0
    simp [AhoCorasick.init]
  · intro u
    cases u with
    | nil => simp [isNode, stateOf]
    | cons c rest =>
      simp [isNode, stateOf, AhoCorasick.init, lookupTrans]

theorem setAdd_mem (l : List (List Char)) (x p : List Char) :
    p ∈ setAdd l x ↔ p ∈ l ∨ p = x := by
  unfold setAdd
  split
  · rename_i h
    constructor
    · exact Or.inl
    · rintro (hp | hp)
      · exact hp
      · rw [hp]; exact h
  · simp

/-- One fresh-state step of `add_pattern`'s loop: the missing edge
`st --c--> len(transitions)` is appended together with its blank
state. -/
def growAC (ac : AhoCorasick) (st : Nat) (c : Char) : AhoCorasick :=
  { transitions :=
      (ac.transitions.set st
        ((ac.transitions.getD st []) ++ [(c, ac.transitions.length)])) ++ [[]]
    outputs := ac.outputs ++ [[]]
    fail := ac.fail ++ [0]
    is_built := ac.is_built }

theorem addPatternGo_hit {ac : AhoCorasick} {st : Nat} {c : Char} {nxt : Nat}
    (cs : List Char) (h : lookupTrans (ac.transitions.getD st []) c = some nxt) :
    addPatternGo ac st (c :: cs) = addPatternGo ac nxt cs := by
  rw [addPatternGo, h]

theorem addPatternGo_miss {ac : AhoCorasick} {st : Nat} {c : Char}
    (cs : List Char) (h : lookupTrans (ac.transitions.getD st []) c = none) :
    addPatternGo ac st (c :: cs) =
      addPatternGo (growAC ac st c) ac.transitions.length cs := by
  rw [addPatternGo, h]
  rfl

theorem getD_set_append {α : Type} (l : List α) (st : Nat) (v d : α) (s : Nat)
    (hst : st < l.length) :
    ((l.set st v) ++ [d]).getD s d =
      if s = st then v else if s < l.length then l.getD s d else d := by
  by_cases h1 : s = st
  · subst h1
    rw [if_pos rfl]
    rw [List.getD_append _ _ _ _ (by simpa using hst)]
    simp [List.getD, List.getElem?_set, hst]
  · rw [if_neg h1]
    by_cases h2 : s < l.length
    · rw [if_pos h2]
      rw [List.getD_append _ _ _ _ (by simpa using h2)]
      simp [List.getD, List.getElem?_set, h2, Ne.symm h1]
    · rw [if_neg h2]
      by_cases h3 : s = l.length
      · subst h3
        rw [List.getD_append_right _ _ _ _ (by simp)]
        simp
      · rw [List.getD_append_right _ _ _ _ (by simp; omega)]
        have : s - (l.set st v).length = (s - l.length - 1) + 1 := by
          simp
          omega
        rw [this]
        simp [List.getD]

theorem getD_append_one {α : Type} (l : List α) (x d : α) (s : Nat) :
    (l ++ [x]).getD s d =
      if s < l.length then l.getD s d else if s = l.length then x else d := by
  by_cases h2 : s < l.length
  · rw [if_pos h2]
    rw [List.getD_append _ _ _ _ (by simpa using h2)]
  · rw [if_neg h2]
    by_cases h3 : s = l.length
    · subst h3
      rw [if_pos rfl]
      rw [List.getD_append_right _ _ _ _ (by simp)]
      simp
    · rw [if_neg h3]
      rw [List.getD_append_right _ _ _ _ (by omega)]
      have : s - l.length = (s - l.length - 1) + 1 := by omega
      rw [this]
      simp [List.getD]

theorem lookupTrans_append (m : List (Char × Nat)) (c : Char) (n : Nat) (k : Char) :
    lookupTrans (m ++ [(c, n)]) k =
      match lookupTrans m k with
      | some x => some x
      | none => if k = c then some n else none := by
  unfold lookupTrans
  rw [List.find?_append]
  cases hf : m.find? (fun p => p.1 = k) with
  | some e => simp
  | none =>
    simp only [Option.none_or, Option.map_none]
    by_cases hk : k = c
    · subst hk
      simp [List.find?]
    · have h2 : (decide ((c, n).1 = k)) = false := by
        simp
        exact fun h => hk h.symm
      simp [List.find?, h2, hk]

/-- Transition rows of the grown automaton. -/
theorem growAC_trans (ac : AhoCorasick) (st : Nat) (c : Char)
    (hst : st < ac.transitions.length) (s : Nat) :
    (growAC ac st c).transitions.getD s [] =
      if s = st then (ac.transitions.getD st []) ++ [(c, ac.transitions.length)]
      else if s < ac.transitions.length then ac.transitions.getD s [] else [] := by
  unfold growAC
  exact getD_set_append _ _ _ _ _ hst

theorem growAC_len (ac : AhoCorasick) (st : Nat) (c : Char) :
    (growAC ac st c).transitions.length = ac.transitions.length + 1 := by
  unfold growAC
  simp

theorem lookupTrans_nil (k : Char) : lookupTrans [] k = none := rfl

theorem growAC_lookup {ac : AhoCorasick} {st : Nat} {c : Char}
    (hst : st < ac.transitions.length)
    (hmiss : lookupTrans (ac.transitions.getD st []) c = none) (s : Nat) (k : Char) :
    lookupTrans ((growAC ac st c).transitions.getD s []) k =
      if s = st ∧ k = c then some ac.transitions.length
      else if s < ac.transitions.length then
        lookupTrans (ac.transitions.getD s []) k
      else none := by
  rw [growAC_trans ac st c hst]
  by_cases h1 : s = st
  · subst h1
    rw [if_pos rfl, lookupTrans_append]
    by_cases hk : k = c
    · subst hk
      rw [hmiss]
      simp
    · simp only [hk, and_false, if_neg, ite_false]
      cases hl : lookupTrans (ac.transitions.getD s []) k with
      | some x => simp [hst, hl]
      | none => simp [hk, hst, hl]
  · rw [if_neg h1]
    simp only [h1, false_and, if_false]
    by_cases h2 : s < ac.transitions.length
    · simp [h2]
    · simp [h2, lookupTrans_nil]

theorem growAC_stateOf_pres {ac : AhoCorasick} {st : Nat} {c : Char}
    (hinv : TrieInv ac) (hst : st < ac.transitions.length)
    (hmiss : lookupTrans (ac.transitions.getD st []) c = none) :
    ∀ (u : List Char) (s₀ x : Nat), s₀ < ac.transitions.length →
    stateOf ac.transitions s₀ u = some x →
    stateOf (growAC ac st c).transitions s₀ u = some x := by
  intro u
  induction u with
  | nil => intro s₀ x _ h; exact h
  | cons k u ih =>
    intro s₀ x hs₀ h
    simp only [stateOf] at h ⊢
    cases hl : lookupTrans (ac.transitions.getD s₀ []) k with
    | none => rw [hl] at h; cases h
    | some t =>
      rw [hl] at h
      have ht := hinv.target s₀ hs₀ _ (lookupTrans_mem hl)
      rw [growAC_lookup hst hmiss]
      have hne : ¬(s₀ = st ∧ k = c) := by
        rintro ⟨h1, h2⟩
        rw [h1, h2] at hl
        rw [hl] at hmiss
        cases hmiss
      rw [if_neg hne, if_pos hs₀, hl]
      exact ih t x ht.2 h

theorem growAC_stateOf_reflect {ac : AhoCorasick} {st : Nat} {c : Char}
    (hinv : TrieInv ac) (hst : st < ac.transitions.length)
    (hmiss : lookupTrans (ac.transitions.getD st []) c = none) :
    ∀ (u : List Char) (s₀ x : Nat), s₀ < ac.transitions.length →
    x < ac.transitions.length →
    stateOf (growAC ac st c).transitions s₀ u = some x →
    stateOf ac.transitions s₀ u = some x := by
  intro u
  induction u with
  | nil => intro s₀ x _ _ h; exact h
  | cons k u ih =>
    intro s₀ x hs₀ hx h
    simp only [stateOf] at h ⊢
    rw [growAC_lookup hst hmiss] at h
    by_cases hsc : s₀ = st ∧ k = c
    · rw [if_pos hsc] at h
      exfalso
      cases u with
      | nil =>
        simp only [stateOf, Option.some_inj] at h
        omega
      | cons k' u' =>
        simp only [stateOf] at h
        rw [growAC_lookup hst hmiss] at h
        have h1 : ¬(ac.transitions.length = st ∧ k' = c) := by
          rintro ⟨h1, _⟩
          omega
        rw [if_neg h1, if_neg (by omega)] at h
        cases h
    · rw [if_neg hsc, if_pos hs₀] at h
      cases hl : lookupTrans (ac.transitions.getD s₀ []) k with
      | none => rw [hl] at h; cases h
      | some t =>
        rw [hl] at h
        have ht := hinv.target s₀ hs₀ _ (lookupTrans_mem hl)
        exact ih t x ht.2 hx h

theorem growAC_stateOf_new {ac : AhoCorasick} {st : Nat} {c : Char}
    (hinv : TrieInv ac) (hst : st < ac.transitions.length)
    (hmiss : lookupTrans (ac.transitions.getD st []) c = none) :
    ∀ (u : List Char) (s₀ : Nat), s₀ < ac.transitions.length →
    stateOf (growAC ac st c).transitions s₀ u = some ac.transitions.length →
    ∃ u₁, u = u₁ ++ [c] ∧ stateOf ac.transitions s₀ u₁ = some st := by
  intro u
  induction u with
  | nil =>
    intro s₀ hs₀ h
    simp only [stateOf, Option.some_inj] at h
    omega
  | cons k u ih =>
    intro s₀ hs₀ h
    simp only [stateOf] at h
    rw [growAC_lookup hst hmiss] at h
    by_cases hsc : s₀ = st ∧ k = c
    · rw [if_pos hsc] at h
      cases u with
      | nil =>
        refine ⟨[], by simp [hsc.2], ?_⟩
        simp only [stateOf, Option.some_inj]
        rw [hsc.1]
      | cons k' u' =>
        exfalso
        simp only [stateOf] at h
        rw [growAC_lookup hst hmiss] at h
        have h1 : ¬(ac.transitions.length = st ∧ k' = c) := by
          rintro ⟨h1, _⟩
          omega
        rw [if_neg h1, if_neg (by omega)] at h
        cases h
    · rw [if_neg hsc, if_pos hs₀] at h
      cases hl : lookupTrans (ac.transitions.getD s₀ []) k with
      | none => rw [hl] at h; cases h
      | some t =>
        rw [hl] at h
        have ht := hinv.target s₀ hs₀ _ (lookupTrans_mem hl)
        obtain ⟨u₁, hu₁, hw⟩ := ih t ht.2 h
        refine ⟨k :: u₁, by rw [hu₁]; rfl, ?_⟩
        simp only [stateOf]
        rw [hl]
        exact hw

theorem growAC_walk_new {ac : AhoCorasick} {st : Nat} {c : Char} {w : List Char}
    (hinv : TrieInv ac) (hst : st < ac.transitions.length)
    (hmiss : lookupTrans (ac.transitions.getD st []) c = none)
    (hw : stateOf ac.transitions 0 w = some st) :
    stateOf (growAC ac st c).transitions 0 (w ++ [c]) =
      some ac.transitions.length := by
  rw [stateOf_concat]
  rw [growAC_stateOf_pres hinv hst hmiss w 0 st hinv.root_lt hw]
  rw [Option.some_bind]
  rw [growAC_lookup hst hmiss]
  rw [if_pos ⟨rfl, rfl⟩]

theorem growAC_inv {ac : AhoCorasick} {st : Nat} {c : Char}
    (hinv : TrieInv ac) (hst : st < ac.transitions.length)
    (hmiss : lookupTrans (ac.transitions.getD st []) c = none) :
    TrieInv (growAC ac st c) := by
  have hN := growAC_len ac st c
  refine ⟨?_, ?_, ?_, ?_, ?_, ?_, ?_⟩
  · rw [hN]; omega
  · show (ac.outputs ++ [[]]).length = _
    rw [hN]
    simp [hinv.len_out]
  · show (ac.fail ++ [0]).length = _
    rw [hN]
    simp [hinv.len_fail]
  · intro s hs e he
    rw [growAC_trans ac st c hst] at he
    rw [hN]
    by_cases h1 : s = st
    · rw [if_pos h1] at he
      rw [List.mem_append] at he
      rcases he with he | he
      · have := hinv.target st hst _ he
        rw [h1]
        omega
      · simp only [List.mem_singleton] at he
        rw [he, h1]
        simp
        omega
    · rw [if_neg h1] at he
      by_cases h2 : s < ac.transitions.length
      · rw [if_pos h2] at he
        have := hinv.target s h2 _ he
        omega
      · rw [if_neg h2] at he
        cases he
  · intro s₁ s₂ h₁ h₂ e₁ he₁ e₂ he₂ heq
    rw [growAC_trans ac st c hst] at he₁ he₂
    have decomp : ∀ (s : Nat) (e : Char × Nat),
        (e ∈ (if s = st then ac.transitions.getD st [] ++ [(c, ac.transitions.length)]
          else if s < ac.transitions.length then ac.transitions.getD s [] else [])) →
        (s < ac.transitions.length ∧ e ∈ ac.transitions.getD s []) ∨
          (s = st ∧ e = (c, ac.transitions.length)) := by
      intro s e he
      by_cases h1 : s = st
      · rw [if_pos h1] at he
        rw [List.mem_append] at he
        rcases he with he | he
        · exact Or.inl ⟨by omega, h1 ▸ he⟩
        · simp only [List.mem_singleton] at he
          exact Or.inr ⟨h1, he⟩
      · rw [if_neg h1] at he
        by_cases h2 : s < ac.transitions.length
        · rw [if_pos h2] at he
          exact Or.inl ⟨h2, he⟩
        · rw [if_neg h2] at he
          cases he
    rcases decomp s₁ e₁ he₁ with ⟨hs₁, hm₁⟩ | ⟨hs₁, hm₁⟩ <;>
      rcases decomp s₂ e₂ he₂ with ⟨hs₂, hm₂⟩ | ⟨hs₂, hm₂⟩
    · exact hinv.indeg s₁ s₂ hs₁ hs₂ _ hm₁ _ hm₂ heq
    · exfalso
      have := hinv.target s₁ hs₁ _ hm₁
      rw [hm₂] at heq
      simp at heq
      omega
    · exfalso
      have := hinv.target s₂ hs₂ _ hm₂
      rw [hm₁] at heq
      simp at heq
      omega
    · rw [hs₁, hs₂, hm₁, hm₂]
      exact ⟨rfl, rfl⟩
  · intro s hs
    rw [hN] at hs
    by_cases h2 : s < ac.transitions.length
    · obtain ⟨u, hu⟩ := hinv.reach s h2
      exact ⟨u, growAC_stateOf_pres hinv hst hmiss u 0 s hinv.root_lt hu⟩
    · have hseq : s = ac.transitions.length := by omega
      obtain ⟨w, hw⟩ := hinv.reach st hst
      rw [hseq]
      exact ⟨w ++ [c], growAC_walk_new hinv hst hmiss hw⟩
  · intro s hs
    rw [growAC_trans ac st c hst]
    by_cases h1 : s = st
    · rw [if_pos h1]
      rw [List.map_append]
      rw [List.nodup_append]
      refine ⟨hinv.keys_nodup st hst, by simp, ?_⟩
      intro k hk
      simp only [List.map_cons, List.map_nil, List.mem_singleton]
      intro hkc
      rw [List.mem_map] at hk
      obtain ⟨e, he, hek⟩ := hk
      rw [lookupTrans, Option.map_eq_none', List.find?_eq_none] at hmiss
      have he2 := hmiss e he
      simp at he2
      rw [hek, hkc] at he2
      exact he2 rfl
    · rw [if_neg h1]
      by_cases h2 : s < ac.transitions.length
      · rw [if_pos h2]
        exact hinv.keys_nodup s h2
      · rw [if_neg h2]
        simp

theorem growAC_isNode {ac : AhoCorasick} {st : Nat} {c : Char} {w : List Char}
    (hinv : TrieInv ac) (hst : st < ac.transitions.length)
    (hmiss : lookupTrans (ac.transitions.getD st []) c = none)
    (hw : stateOf ac.transitions 0 w = some st) :
    ∀ u, isNode (growAC ac st c).transitions u = true ↔
      (isNode ac.transitions u = true ∨ u = w ++ [c]) := by
  intro u
  constructor
  · intro h
    rw [isNode, Option.isSome_iff_exists] at h
    obtain ⟨x, hx⟩ := h
    have hxr := (stateOf_le (growAC_inv hinv hst hmiss) u 0 x
      (growAC_inv hinv hst hmiss).root_lt hx).2
    rw [growAC_len] at hxr
    by_cases hxN : x < ac.transitions.length
    · left
      rw [isNode, Option.isSome_iff_exists]
      exact ⟨x, growAC_stateOf_reflect hinv hst hmiss u 0 x hinv.root_lt hxN hx⟩
    · right
      have hxeq : x = ac.transitions.length := by omega
      rw [hxeq] at hx
      obtain ⟨u₁, hu₁, hwu⟩ := growAC_stateOf_new hinv hst hmiss u 0 hinv.root_lt hx
      have : u₁ = w := stateOf_inj hinv u₁ w st hwu hw
      rw [hu₁, this]
  · rintro (h | h)
    · rw [isNode, Option.isSome_iff_exists] at h ⊢
      obtain ⟨x, hx⟩ := h
      exact ⟨x, growAC_stateOf_pres hinv hst hmiss u 0 x hinv.root_lt hx⟩
    · rw [h, isNode, growAC_walk_new hinv hst hmiss hw]
      rfl

theorem pref_antisymm {w u : List Char} (h1 : w <+: u) (h2 : u <+: w) : u = w := by
  obtain ⟨t, ht⟩ := h2
  obtain ⟨r, hr⟩ := h1
  rw [← ht] at hr
  have ht0 : t = [] := by
    have hl := congrArg List.length hr
    simp at hl
    exact hl.1
  rw [ht0] at ht
  simpa using ht

theorem pref_snoc_cases {w u : List Char} {c : Char} {cs : List Char}
    (h1 : w <+: u) (h2 : u <+: w ++ c :: cs) : u = w ∨ (w ++ [c]) <+: u := by
  obtain ⟨r, hr⟩ := h1
  cases r with
  | nil =>
    left
    rw [← hr]
    simp
  | cons r₀ rs =>
    right
    rw [← hr] at h2
    rw [(List.prefix_append_right_inj w)] at h2
    rw [List.cons_prefix_cons] at h2
    rw [← hr, h2.1]
    rw [(List.prefix_append_right_inj w)]
    rw [List.cons_prefix_cons]
    exact ⟨rfl, List.nil_prefix⟩

/-- The insertion loop of `add_pattern`, walked from the state of `w`:
it preserves the trie invariants, extends the tables conservatively
(old rows, outputs and failure links unchanged; fresh states blank),
lands on the state of `w ++ cs`, and creates exactly the intermediate
prefixes as new nodes. -/
theorem addPatternGo_spec :
    ∀ (cs : List Char) (ac : AhoCorasick) (w : List Char) (st : Nat),
    TrieInv ac → stateOf ac.transitions 0 w = some st →
    TrieInv (addPatternGo ac st cs).1 ∧
    (addPatternGo ac st cs).1.is_built = ac.is_built ∧
    ac.transitions.length ≤ (addPatternGo ac st cs).1.transitions.length ∧
    (∀ s, (addPatternGo ac st cs).1.outputs.getD s [] =
      if s < ac.transitions.length then ac.outputs.getD s [] else []) ∧
    (∀ s, (addPatternGo ac st cs).1.fail.getD s 0 =
      if s < ac.transitions.length then ac.fail.getD s 0 else 0) ∧
    (∀ (s₀ : Nat) (u : List Char) (x : Nat), s₀ < ac.transitions.length →
      stateOf ac.transitions s₀ u = some x →
      stateOf (addPatternGo ac st cs).1.transitions s₀ u = some x) ∧
    (∀ (u : List Char) (x : Nat), x < ac.transitions.length →
      stateOf (addPatternGo ac st cs).1.transitions 0 u = some x →
      stateOf ac.transitions 0 u = some x) ∧
    stateOf (addPatternGo ac st cs).1.transitions 0 (w ++ cs) =
      some (addPatternGo ac st cs).2 ∧
    (∀ u, isNode (addPatternGo ac st cs).1.transitions u = true ↔
      (isNode ac.transitions u = true ∨ (w <+: u ∧ u <+: w ++ cs))) := by
  intro cs
  induction cs with
  | nil =>
    intro ac w st hinv hw
    refine ⟨hinv, rfl, le_refl _, ?_, ?_, ?_, ?_, ?_, ?_⟩
    · intro s
      split
      · rfl
      · apply List.getD_eq_default
        show ac.outputs.length ≤ s
        rw [hinv.len_out]
        omega
    · intro s
      split
      · rfl
      · apply List.getD_eq_default
        show ac.fail.length ≤ s
        rw [hinv.len_fail]
        omega
    · intro s₀ u x _ h
      exact h
    · intro u x _ h
      exact h
    · simpa using hw
    · intro u
      constructor
      · intro h
        exact Or.inl h
      · rintro (h | ⟨hp1, hp2⟩)
        · exact h
        · rw [List.append_nil] at hp2
          rw [pref_antisymm hp1 hp2, isNode]
          show (stateOf ac.transitions 0 w).isSome = true
          rw [hw]
          rfl
  | cons c cs ih =>
    intro ac w st hinv hw
    have hstN : st < ac.transitions.length := (stateOf_le hinv w 0 st hinv.root_lt hw).2
    cases hl : lookupTrans (ac.transitions.getD st []) c with
    | some nxt =>
      rw [addPatternGo_hit cs hl]
      have hw2 : stateOf ac.transitions 0 (w ++ [c]) = some nxt := by
        rw [stateOf_concat, hw, Option.some_bind, hl]
      obtain ⟨h1, h2, h3, h4, h5, h6, h7, h8, h9⟩ := ih ac (w ++ [c]) nxt hinv hw2
      refine ⟨h1, h2, h3, h4, h5, h6, h7, ?_, ?_⟩
      · rw [show w ++ c :: cs = (w ++ [c]) ++ cs by simp]
        exact h8
      · intro u
        rw [h9 u]
        constructor
        · rintro (h | ⟨hp1, hp2⟩)
          · exact Or.inl h
          · refine Or.inr ⟨(List.prefix_append w [c]).trans hp1, ?_⟩
            rw [show w ++ c :: cs = (w ++ [c]) ++ cs by simp]
            exact hp2
        · rintro (h | ⟨hp1, hp2⟩)
          · exact Or.inl h
          · rcases pref_snoc_cases hp1 hp2 with hu | hu
            · left
              rw [hu, isNode, hw]
              rfl
            · refine Or.inr ⟨hu, ?_⟩
              rw [show (w ++ [c]) ++ cs = w ++ c :: cs by simp]
              exact hp2
    | none =>
      rw [addPatternGo_miss cs hl]
      have hgi := growAC_inv hinv hstN hl
      have hwn : stateOf (growAC ac st c).transitions 0 (w ++ [c]) =
          some ac.transitions.length := growAC_walk_new hinv hstN hl hw
      obtain ⟨h1, h2, h3, h4, h5, h6, h7, h8, h9⟩ :=
        ih (growAC ac st c) (w ++ [c]) ac.transitions.length hgi hwn
      have hNg := growAC_len ac st c
      refine ⟨h1, ?_, ?_, ?_, ?_, ?_, ?_, ?_, ?_⟩
      · rw [h2]
        rfl
      · omega
      · intro s
        rw [h4 s, hNg]
        have hgout : (growAC ac st c).outputs.getD s [] =
            if s < ac.outputs.length then ac.outputs.getD s [] else [] := by
          show (ac.outputs ++ [[]]).getD s [] = _
          rw [getD_append_one]
          split
          · rfl
          · split <;> rfl
        rw [hgout, hinv.len_out]
        by_cases hs1 : s < ac.transitions.length
        · rw [if_pos (Nat.lt_succ_of_lt hs1), if_pos hs1]
        · rw [if_neg hs1]
          split <;> rfl
      · intro s
        rw [h5 s, hNg]
        have hgfail : (growAC ac st c).fail.getD s 0 =
            if s < ac.fail.length then ac.fail.getD s 0 else 0 := by
          show (ac.fail ++ [0]).getD s 0 = _
          rw [getD_append_one]
          split
          · rfl
          · split <;> rfl
        rw [hgfail, hinv.len_fail]
        by_cases hs1 : s < ac.transitions.length
        · rw [if_pos (Nat.lt_succ_of_lt hs1), if_pos hs1]
        · rw [if_neg hs1]
          split <;> rfl
      · intro s₀ u x hs₀ h
        exact h6 s₀ u x (by omega) (growAC_stateOf_pres hinv hstN hl u s₀ x hs₀ h)
      · intro u x hx h
        exact growAC_stateOf_reflect hinv hstN hl u 0 x hinv.root_lt hx
          (h7 u x (by omega) h)
      · rw [show w ++ c :: cs = (w ++ [c]) ++ cs by simp]
        exact h8
      · intro u
        rw [h9 u, growAC_isNode hinv hstN hl hw u]
        constructor
        · rintro ((h | h) | ⟨hp1, hp2⟩)
          · exact Or.inl h
          · refine Or.inr ⟨?_, ?_⟩
            · rw [h]
              exact List.prefix_append w [c]
            · rw [h, show w ++ c :: cs = (w ++ [c]) ++ cs by simp]
              exact List.prefix_append _ _
          · refine Or.inr ⟨(List.prefix_append w [c]).trans hp1, ?_⟩
            rw [show w ++ c :: cs = (w ++ [c]) ++ cs by simp]
            exact hp2
        · rintro (h | ⟨hp1, hp2⟩)
          · exact Or.inl (Or.inl h)
          · rcases pref_snoc_cases hp1 hp2 with hu | hu
            · refine Or.inl (Or.inl ?_)
              rw [hu, isNode, hw]
              rfl
            · refine Or.inr ⟨hu, ?_⟩
              rw [show (w ++ [c]) ++ cs = w ++ c :: cs by simp]
              exact hp2

theorem getD_set {α : Type} (l : List α) (i : Nat) (v d : α) (s : Nat)
    (hi : i < l.length) :
    (l.set i v).getD s d = if s = i then v else l.getD s d := by
  simp only [List.getD_eq_getElem?_getD, List.getElem?_set]
  by_cases h : i = s
  · rw [if_pos h, if_pos (h ▸ hi), if_pos h.symm]
    rfl
  · rw [if_neg h, if_neg (Ne.symm h)]

theorem fail_getD_zero {ac : AhoCorasick} (hpre : PreBuild ac) (i : Nat) :
    ac.fail.getD i 0 = 0 := by
  by_cases h : i < ac.fail.length
  · rw [List.getD_eq_getElem _ _ h]
    exact hpre.fail_zero _ (List.getElem_mem h)
  · exact List.getD_eq_default _ _ (by omega)

/-- `add_pattern` (on an unbuilt automaton) preserves the trie and
pre-build invariants and extends the pattern-set semantics of the output
sets and of the node set by the new pattern. -/
theorem insertPattern_spec (ac : AhoCorasick) (p : List Char) (qs : List (List Char))
    (hinv : TrieInv ac) (hpre : PreBuild ac) (hout : OutSem ac qs)
    (hnode : NodeSem ac.transitions qs) :
    TrieInv (insertPattern ac p) ∧ PreBuild (insertPattern ac p) ∧
    OutSem (insertPattern ac p) (qs ++ [p]) ∧
    NodeSem (insertPattern ac p).transitions (qs ++ [p]) := by
  obtain ⟨h1, h2, h3, h4, h5, h6, h7, h8, h9⟩ :=
    addPatternGo_spec p ac [] 0 hinv rfl
  have h8' : stateOf (addPatternGo ac 0 p).1.transitions 0 p =
      some (addPatternGo ac 0 p).2 := by simpa using h8
  have heN : (addPatternGo ac 0 p).2 < (addPatternGo ac 0 p).1.transitions.length :=
    (stateOf_le h1 p 0 _ h1.root_lt h8').2
  have hIt : (insertPattern ac p).transitions = (addPatternGo ac 0 p).1.transitions :=
    rfl
  have hIf : (insertPattern ac p).fail = (addPatternGo ac 0 p).1.fail := rfl
  have hIb : (insertPattern ac p).is_built = (addPatternGo ac 0 p).1.is_built := rfl
  have hIo : (insertPattern ac p).outputs =
      (addPatternGo ac 0 p).1.outputs.set (addPatternGo ac 0 p).2
        (setAdd ((addPatternGo ac 0 p).1.outputs.getD (addPatternGo ac 0 p).2 []) p) :=
    rfl
  have hpatn : ∀ q ∈ qs, ∃ x, stateOf ac.transitions 0 q = some x := by
    intro q hq
    have := (hnode q).mpr (Or.inr ⟨q, hq, List.prefix_rfl⟩)
    rw [isNode, Option.isSome_iff_exists] at this
    exact this
  refine ⟨⟨h1.root_lt, ?_, h1.len_fail, h1.target, h1.indeg, h1.reach,
    h1.keys_nodup⟩, ⟨?_, ?_⟩, ?_, ?_⟩
  · rw [hIo, hIt, List.length_set]
    exact h1.len_out
  · rw [hIb, h2, hpre.not_built]
  · rw [hIf]
    intro v hv
    obtain ⟨i, hi, hvi⟩ := List.mem_iff_getElem.mp hv
    rw [← List.getD_eq_getElem _ 0 hi] at hvi
    rw [h5 i] at hvi
    rw [← hvi]
    split
    · exact fail_getD_zero hpre i
    · rfl
  · intro s hs q
    rw [hIo, hIt]
    rw [hIt] at hs
    rw [getD_set _ _ _ _ _ (by rw [h1.len_out]; exact heN)]
    by_cases hse : s = (addPatternGo ac 0 p).2
    · subst hse
      rw [if_pos rfl, setAdd_mem, h4]
      constructor
      · rintro (hq | hq)
        · split at hq
          · rename_i heO
            obtain ⟨hq1, hq2⟩ := (hout _ heO q).mp hq
            exact ⟨List.mem_append_left _ hq1, h6 0 q _ hinv.root_lt hq2⟩
          · cases hq
        · rw [hq]
          exact ⟨List.mem_append_right _ (List.mem_singleton.mpr rfl), h8'⟩
      · rintro ⟨hq1, hq2⟩
        rcases List.mem_append.mp hq1 with hq1 | hq1
        · obtain ⟨x, hx⟩ := hpatn q hq1
          have hxA := h6 0 q x hinv.root_lt hx
          have hxe : x = (addPatternGo ac 0 p).2 := by
            rw [hxA] at hq2
            exact Option.some_inj.mp hq2
          have hxN : x < ac.transitions.length :=
            (stateOf_le hinv q 0 x hinv.root_lt hx).2
          left
          rw [if_pos (by omega)]
          rw [← hxe]
          exact (hout x hxN q).mpr ⟨hq1, hx⟩
        · right
          exact List.mem_singleton.mp hq1
    · rw [if_neg hse, h4]
      split
      · rename_i hsO
        rw [hout s hsO q]
        constructor
        · rintro ⟨hq1, hq2⟩
          exact ⟨List.mem_append_left _ hq1, h6 0 q s hinv.root_lt hq2⟩
        · rintro ⟨hq1, hq2⟩
          rcases List.mem_append.mp hq1 with hq1 | hq1
          · obtain ⟨x, hx⟩ := hpatn q hq1
            have hxA := h6 0 q x hinv.root_lt hx
            have hxs : x = s := by
              rw [hxA] at hq2
              exact Option.some_inj.mp hq2
            refine ⟨hq1, ?_⟩
            rw [← hxs]
            exact hx
          · exfalso
            rw [List.mem_singleton.mp hq1] at hq2
            rw [h8'] at hq2
            exact hse (Option.some_inj.mp hq2).symm
      · rename_i hsO
        simp only [List.not_mem_nil, false_iff]
        rintro ⟨hq1, hq2⟩
        rcases List.mem_append.mp hq1 with hq1 | hq1
        · obtain ⟨x, hx⟩ := hpatn q hq1
          have hxA := h6 0 q x hinv.root_lt hx
          have hxs : x = s := by
            rw [hxA] at hq2
            exact Option.some_inj.mp hq2
          have hxN : x < ac.transitions.length :=
            (stateOf_le hinv q 0 x hinv.root_lt hx).2
          omega
        · rw [List.mem_singleton.mp hq1] at hq2
          rw [h8'] at hq2
          exact hse (Option.some_inj.mp hq2).symm
  · intro u
    rw [hIt, h9 u, hnode u]
    constructor
    · rintro ((hu | hu) | ⟨_, hu⟩)
      · exact Or.inl hu
      · obtain ⟨q, hq1, hq2⟩ := hu
        exact Or.inr ⟨q, List.mem_append_left _ hq1, hq2⟩
      · refine Or.inr ⟨p, List.mem_append_right _ (List.mem_singleton.mpr rfl), ?_⟩
        simpa using hu
    · rintro (hu | ⟨q, hq1, hq2⟩)
      · exact Or.inl (Or.inl hu)
      · rcases List.mem_append.mp hq1 with hq1 | hq1
        · exact Or.inl (Or.inr ⟨q, hq1, hq2⟩)
        · refine Or.inr ⟨List.nil_prefix, ?_⟩
          rw [List.mem_singleton.mp hq1] at hq2
          simpa using hq2

/-- The full invariant bundle after any `add_pattern` sequence on a
fresh automaton. -/
theorem addPatterns_spec :
    ∀ (ps : List (List Char)) (ac : AhoCorasick) (qs : List (List Char)),
    TrieInv ac → PreBuild ac → OutSem ac qs → NodeSem ac.transitions qs →
    TrieInv (addPatterns ac ps) ∧ PreBuild (addPatterns ac ps) ∧
    OutSem (addPatterns ac ps) (qs ++ ps) ∧
    NodeSem (addPatterns ac ps).transitions (qs ++ ps) := by
  intro ps
  induction ps with
  | nil =>
    intro ac qs hinv hpre hout hnode
    simpa [addPatterns] using ⟨hinv, hpre, hout, hnode⟩
  | cons p ps ih =>
    intro ac qs hinv hpre hout hnode
    obtain ⟨j1, j2, j3, j4⟩ := insertPattern_spec ac p qs hinv hpre hout hnode
    have := ih (insertPattern ac p) (qs ++ [p]) j1 j2 j3 j4
    rw [show (qs ++ [p]) ++ ps = qs ++ p :: ps by simp] at this
    exact this

theorem addPatterns_inv (ps : List (List Char)) :
    TrieInv (addPatterns AhoCorasick.init ps) ∧
    PreBuild (addPatterns AhoCorasick.init ps) ∧
    OutSem (addPatterns AhoCorasick.init ps) ps ∧
    NodeSem (addPatterns AhoCorasick.init ps).transitions ps := by
  obtain ⟨i1, i2, i3, i4⟩ := init_inv
  have := addPatterns_spec ps AhoCorasick.init [] i1 i2 i3 i4
  simpa using this

/-! ### The longest node-suffix and the failure chain -/

theorem mns_node (ts : List (List (Char × Nat))) :
    ∀ w, isNode ts (mns ts w) = true := by
  intro w
  induction w with
  | nil => rfl
  | cons c rest ih =>
    rw [mns]
    split
    · rename_i h
      exact h
    · exact ih

theorem mns_suffix (ts : List (List (Char × Nat))) :
    ∀ w, mns ts w <:+ w := by
  intro w
  induction w with
  | nil => exact List.suffix_rfl
  | cons c rest ih =>
    rw [mns]
    split
    · exact List.suffix_rfl
    · exact ih.trans (List.suffix_cons c rest)

theorem mns_length_le (ts : List (List (Char × Nat))) (w : List Char) :
    (mns ts w).length ≤ w.length :=
  (mns_suffix ts w).length_le

theorem mns_longest (ts : List (List (Char × Nat))) :
    ∀ w v, isNode ts v = true → v <:+ w → v <:+ mns ts w := by
  intro w
  induction w with
  | nil =>
    intro v _ hsuf
    rcases List.suffix_nil.mp hsuf with rfl
    exact List.suffix_rfl
  | cons c rest ih =>
    intro v hv hsuf
    rw [mns]
    split
    · exact hsuf
    · rename_i hnode
      rcases List.suffix_cons_iff.mp hsuf with h | h
      · rw [h] at hv
        rw [hv] at hnode
        cases hnode rfl
      · exact ih v hv h

/-- Two suffixes of the same list are comparable; the shorter is a suffix
of the longer. -/
theorem suffix_of_suffix_length_le {a b w : List Char} (ha : a <:+ w)
    (hb : b <:+ w) (hl : a.length ≤ b.length) : a <:+ b := by
  obtain ⟨ta, hta⟩ := ha
  obtain ⟨tb, htb⟩ := hb
  refine ⟨ta.drop tb.length, ?_⟩
  rw [← htb] at hta
  have hlen : tb.length ≤ ta.length := by
    have h1 := congrArg List.length hta
    simp at h1
    have h2 := congrArg List.length htb
    simp at h2
    omega
  have := congrArg (List.drop tb.length) hta
  rw [List.drop_append_of_le_length (by omega)] at this
  simpa using this

theorem stateOf_stN {ts : List (List (Char × Nat))} {v : List Char}
    (h : isNode ts v = true) : stateOf ts 0 v = some (nodeState ts v) := by
  rw [isNode, Option.isSome_iff_exists] at h
  obtain ⟨x, hx⟩ := h
  rw [hx, nodeState, hx]
  rfl

theorem stN_nil (ts : List (List (Char × Nat))) : nodeState ts [] = 0 := rfl

theorem stN_eq_zero {ac : AhoCorasick} (hinv : TrieInv ac) {v : List Char}
    (hv : isNode ac.transitions v = true) (h : nodeState ac.transitions v = 0) :
    v = [] := by
  have h1 := stateOf_stN hv
  rw [h] at h1
  exact stateOf_inj hinv v [] 0 h1 rfl

theorem stN_inj {ac : AhoCorasick} (hinv : TrieInv ac) {u v : List Char}
    (hu : isNode ac.transitions u = true) (hv : isNode ac.transitions v = true)
    (h : nodeState ac.transitions u = nodeState ac.transitions v) : u = v := by
  have h1 := stateOf_stN hu
  have h2 := stateOf_stN hv
  rw [h] at h1
  exact stateOf_inj hinv u v _ h1 h2

theorem stN_lt {ac : AhoCorasick} (hinv : TrieInv ac) {v : List Char}
    (hv : isNode ac.transitions v = true) :
    nodeState ac.transitions v < ac.transitions.length :=
  (stateOf_le hinv v 0 _ hinv.root_lt (stateOf_stN hv)).2

/-- Along any walk the state index grows at least as fast as the depth. -/
theorem stateOf_ge_len {ac : AhoCorasick} (hinv : TrieInv ac) :
    ∀ (u : List Char) (st x : Nat), st < ac.transitions.length →
    stateOf ac.transitions st u = some x → st + u.length ≤ x := by
  intro u
  induction u with
  | nil =>
    intro st x _ h
    simp only [stateOf, Option.some_inj] at h
    simp only [List.length_nil, Nat.add_zero]
    omega
  | cons c u ih =>
    intro st x hst h
    simp only [stateOf] at h
    cases hl : lookupTrans (ac.transitions.getD st []) c with
    | none => rw [hl] at h; cases h
    | some n =>
      rw [hl] at h
      have ht := hinv.target st hst _ (lookupTrans_mem hl)
      have := ih n x ht.2 h
      simp only [List.length_cons]
      omega

theorem stN_len_lt {ac : AhoCorasick} (hinv : TrieInv ac) {v : List Char}
    (hv : isNode ac.transitions v = true) :
    v.length ≤ nodeState ac.transitions v := by
  have := stateOf_ge_len hinv v 0 _ hinv.root_lt (stateOf_stN hv)
  omega

theorem lookupTrans_of_mem :
    ∀ (m : List (Char × Nat)), (m.map Prod.fst).Nodup →
    ∀ {c : Char} {n : Nat}, (c, n) ∈ m → lookupTrans m c = some n := by
  intro m
  induction m with
  | nil =>
    intro _ c n h
    cases h
  | cons e rest ih =>
    intro hnd c n h
    rw [List.map_cons, List.nodup_cons] at hnd
    rcases List.mem_cons.mp h with h | h
    · rw [← h]
      unfold lookupTrans
      rw [List.find?_cons_of_pos _ (by simp)]
      rfl
    · have hne : ¬ e.1 = c := by
        intro he
        apply hnd.1
        rw [List.mem_map]
        exact ⟨(c, n), h, by rw [he]⟩
      unfold lookupTrans
      rw [List.find?_cons_of_neg _ (by simpa using hne)]
      exact ih hnd.2 h

/-- Node-ness is inherited by prefixes. -/
theorem isNode_of_concat {ts : List (List (Char × Nat))} {v : List Char} {c : Char}
    (h : isNode ts (v ++ [c]) = true) : isNode ts v = true := by
  rw [isNode, stateOf_concat] at h
  rw [isNode]
  cases hm : stateOf ts 0 v with
  | none => rw [hm] at h; cases h
  | some m => rfl

/-- The chain element (as a string) where the failure walk from node `v`
stops on character `c`: the longest suffix-chain member with a `c`-edge,
or the root.  The chain strictly shrinks, so any `fuel ≥ v.length` gives
the walk's true result. -/
def failFindStr (ts : List (List (Char × Nat))) (c : Char) : Nat → List Char → List Char
  | _, [] => []
  | 0, _ :: _ => []
  | fuel + 1, b :: bs =>
    if (lookupTrans (ts.getD (nodeState ts (b :: bs)) []) c).isSome then b :: bs
    else failFindStr ts c fuel (mns ts bs)

theorem ffs_suffix (ts : List (List (Char × Nat))) (c : Char) :
    ∀ (fuel : Nat) (v : List Char), v.length ≤ fuel →
    failFindStr ts c fuel v <:+ v := by
  intro fuel
  induction fuel with
  | zero =>
    intro v hv
    have hv0 : v = [] := List.eq_nil_of_length_eq_zero (by omega)
    subst hv0
    simp only [failFindStr]
    exact List.suffix_rfl
  | succ k ih =>
    intro v hv
    cases v with
    | nil =>
      simp only [failFindStr]
      exact List.suffix_rfl
    | cons b bs =>
      simp only [failFindStr]
      split
      · exact List.suffix_rfl
      · have h1 : (mns ts bs).length ≤ k := by
          have := mns_length_le ts bs
          simp at hv
          omega
        exact ((ih _ h1).trans (mns_suffix ts bs)).trans (List.suffix_cons b bs)

theorem ffs_node (ts : List (List (Char × Nat))) (c : Char) :
    ∀ (fuel : Nat) (v : List Char), v.length ≤ fuel → isNode ts v = true →
    isNode ts (failFindStr ts c fuel v) = true := by
  intro fuel
  induction fuel with
  | zero =>
    intro v hv _
    have hv0 : v = [] := List.eq_nil_of_length_eq_zero (by omega)
    subst hv0
    simp only [failFindStr]
    rfl
  | succ k ih =>
    intro v hv hnode
    cases v with
    | nil =>
      simp only [failFindStr]
      rfl
    | cons b bs =>
      simp only [failFindStr]
      split
      · exact hnode
      · have h1 : (mns ts bs).length ≤ k := by
          have := mns_length_le ts bs
          simp at hv
          omega
        exact ih _ h1 (mns_node ts bs)

theorem ffs_edge_or_nil (ts : List (List (Char × Nat))) (c : Char) :
    ∀ (fuel : Nat) (v : List Char), v.length ≤ fuel →
    (lookupTrans (ts.getD (nodeState ts (failFindStr ts c fuel v)) []) c).isSome =
        true ∨
      failFindStr ts c fuel v = [] := by
  intro fuel
  induction fuel with
  | zero =>
    intro v hv
    have hv0 : v = [] := List.eq_nil_of_length_eq_zero (by omega)
    subst hv0
    simp only [failFindStr]
    exact Or.inr trivial
  | succ k ih =>
    intro v hv
    cases v with
    | nil =>
      simp only [failFindStr]
      exact Or.inr trivial
    | cons b bs =>
      simp only [failFindStr]
      split
      · rename_i h
        exact Or.inl h
      · have h1 : (mns ts bs).length ≤ k := by
          have := mns_length_le ts bs
          simp at hv
          omega
        exact ih _ h1

theorem ffs_max (ts : List (List (Char × Nat))) (c : Char) :
    ∀ (fuel : Nat) (v z : List Char), v.length ≤ fuel → isNode ts z = true →
    z <:+ v → z ≠ [] →
    (lookupTrans (ts.getD (nodeState ts z) []) c).isSome = true →
    z <:+ failFindStr ts c fuel v := by
  intro fuel
  induction fuel with
  | zero =>
    intro v z hv _ hsuf hz _
    have hv0 : v = [] := List.eq_nil_of_length_eq_zero (by omega)
    subst hv0
    rcases List.suffix_nil.mp hsuf with rfl
    cases hz rfl
  | succ k ih =>
    intro v z hv hznode hsuf hz hedge
    cases v with
    | nil =>
      rcases List.suffix_nil.mp hsuf with rfl
      cases hz rfl
    | cons b bs =>
      simp only [failFindStr]
      split
      · exact hsuf
      · rename_i hvnoedge
        have hzv : z ≠ b :: bs := by
          intro he
          rw [he] at hedge
          rw [hedge] at hvnoedge
          cases hvnoedge rfl
        have hzsuf : z <:+ bs := by
          rcases List.suffix_cons_iff.mp hsuf with h | h
          · cases hzv h
          · exact h
        have h1 : (mns ts bs).length ≤ k := by
          have := mns_length_le ts bs
          simp at hv
          omega
        exact ih _ z h1 hznode (mns_longest ts bs z hznode hzsuf) hz hedge

/-- The failure walk of `build`/`search` computes `failFindStr` whenever
the failure links of the whole suffix chain already carry their final
values. -/
theorem failWalk_spec {ac acc : AhoCorasick} (hinv : TrieInv ac)
    (hts : acc.transitions = ac.transitions) (c : Char) :
    ∀ (k : Nat) (v : List Char) (fuel : Nat), isNode ac.transitions v = true →
    v.length ≤ k → v.length < fuel →
    (∀ w, isNode ac.transitions w = true → w ≠ [] → w.length ≤ v.length →
      acc.fail.getD (nodeState ac.transitions w) 0 =
        nodeState ac.transitions (mns ac.transitions w.tail)) →
    failWalk acc c fuel (nodeState ac.transitions v) =
      nodeState ac.transitions (failFindStr ac.transitions c k v) := by
  intro k
  induction k with
  | zero =>
    intro v fuel _ hv hfuel _
    have hv0 : v = [] := List.eq_nil_of_length_eq_zero (by omega)
    subst hv0
    cases fuel with
    | zero => simp at hfuel
    | succ f =>
      simp only [failFindStr, stN_nil]
      rw [failWalk]
      rw [if_neg (by simp)]
  | succ k ih =>
    intro v fuel hnode hv hfuel hHF
    cases v with
    | nil =>
      cases fuel with
      | zero => simp at hfuel
      | succ f =>
        simp only [failFindStr, stN_nil]
        rw [failWalk]
        rw [if_neg (by simp)]
    | cons b bs =>
      have hpos : 0 < nodeState ac.transitions (b :: bs) := by
        rcases Nat.eq_zero_or_pos (nodeState ac.transitions (b :: bs)) with h | h
        · have := stN_eq_zero hinv hnode h
          cases this
        · exact h
      cases fuel with
      | zero => simp at hfuel
      | succ f =>
        simp only [failFindStr]
        rw [failWalk, hts]
        cases hl : lookupTrans
            (ac.transitions.getD (nodeState ac.transitions (b :: bs)) []) c with
        | some t =>
          rw [if_neg (by simp), if_pos (by rfl)]
        | none =>
          rw [if_pos ⟨hpos, rfl⟩, if_neg (by simp)]
          rw [hHF (b :: bs) hnode (by simp) (le_refl _)]
          have hlen : (mns ac.transitions bs).length ≤ k := by
            have := mns_length_le ac.transitions bs
            simp at hv
            omega
          have hfuel2 : (mns ac.transitions bs).length < f := by
            have := mns_length_le ac.transitions bs
            simp at hfuel
            omega
          exact ih (mns ac.transitions bs) f
            (mns_node ac.transitions _) hlen hfuel2
            (fun w hw hwne hwlen => hHF w hw hwne
              (by
                have := mns_length_le ac.transitions bs
                simp
                omega))

theorem suffix_snoc_decomp {m w : List Char} {c : Char} (h : m <:+ w ++ [c]) :
    m = [] ∨ ∃ m', m = m' ++ [c] ∧ m' <:+ w := by
  rcases List.eq_nil_or_concat m with hm | ⟨m', c', hm⟩
  · exact Or.inl hm
  · rw [List.concat_eq_append] at hm
    right
    obtain ⟨t, ht⟩ := h
    rw [hm, ← List.append_assoc] at ht
    obtain ⟨h1, h2⟩ := List.append_inj' ht (by simp)
    simp only [List.cons.injEq] at h2
    exact ⟨m', by rw [hm, h2.1], ⟨t, h1⟩⟩

/-- How the longest node-suffix evolves when one character is appended:
follow the failure chain to the longest suffix with a `c`-edge and step
through it, else fall to the root. -/
theorem mns_snoc (ac : AhoCorasick) (w : List Char) (c : Char)
    (fuel : Nat) (hfuel : (mns ac.transitions w).length ≤ fuel) :
    mns ac.transitions (w ++ [c]) =
      (if (lookupTrans (ac.transitions.getD (nodeState ac.transitions
            (failFindStr ac.transitions c fuel (mns ac.transitions w))) [])
          c).isSome
       then failFindStr ac.transitions c fuel (mns ac.transitions w) ++ [c]
       else []) := by
  have hzsufw : failFindStr ac.transitions c fuel (mns ac.transitions w) <:+ w :=
    (ffs_suffix ac.transitions c fuel _ hfuel).trans (mns_suffix ac.transitions w)
  have hznode : isNode ac.transitions
      (failFindStr ac.transitions c fuel (mns ac.transitions w)) = true :=
    ffs_node ac.transitions c fuel _ hfuel (mns_node ac.transitions w)
  split
  · rename_i hedge
    have hzc_node : isNode ac.transitions
        (failFindStr ac.transitions c fuel (mns ac.transitions w) ++ [c]) = true := by
      rw [isNode, stateOf_concat, stateOf_stN hznode, Option.some_bind]
      exact hedge
    have hzc_suf : failFindStr ac.transitions c fuel (mns ac.transitions w) ++ [c]
        <:+ w ++ [c] := by
      obtain ⟨t, ht⟩ := hzsufw
      exact ⟨t, by rw [← List.append_assoc, ht]⟩
    have h1 := mns_longest ac.transitions (w ++ [c]) _ hzc_node hzc_suf
    rcases suffix_snoc_decomp (mns_suffix ac.transitions (w ++ [c])) with hm | hm
    · exfalso
      rw [hm] at h1
      rcases List.suffix_nil.mp h1 with h2
      simp at h2
    · obtain ⟨m', hm1, hm2⟩ := hm
      have hm'node : isNode ac.transitions m' = true := by
        have := mns_node ac.transitions (w ++ [c])
        rw [hm1] at this
        exact isNode_of_concat this
      have hm'edge : (lookupTrans (ac.transitions.getD
          (nodeState ac.transitions m') []) c).isSome = true := by
        have := mns_node ac.transitions (w ++ [c])
        rw [hm1, isNode, stateOf_concat, stateOf_stN hm'node, Option.some_bind]
          at this
        exact this
      have hm'z : m'.length ≤
          (failFindStr ac.transitions c fuel (mns ac.transitions w)).length := by
        cases m' with
        | nil => simp
        | cons a as =>
          have := ffs_max ac.transitions c fuel (mns ac.transitions w) (a :: as)
            hfuel hm'node
            (mns_longest ac.transitions w (a :: as) hm'node hm2)
            (by simp) hm'edge
          exact this.length_le
      obtain ⟨t, ht⟩ := h1
      have htlen : t = [] := by
        have h2 := congrArg List.length ht
        rw [hm1] at h2
        simp at h2
        have : t.length = 0 := by omega
        exact List.eq_nil_of_length_eq_zero this
      rw [htlen] at ht
      rw [← ht]
      simp
  · rename_i hnoedge
    rcases ffs_edge_or_nil ac.transitions c fuel (mns ac.transitions w) hfuel
      with hedge | hz0
    · cases hnoedge hedge
    · rcases suffix_snoc_decomp (mns_suffix ac.transitions (w ++ [c])) with hm | hm
      · exact hm
      · exfalso
        obtain ⟨m', hm1, hm2⟩ := hm
        have hm'node : isNode ac.transitions m' = true := by
          have := mns_node ac.transitions (w ++ [c])
          rw [hm1] at this
          exact isNode_of_concat this
        have hm'edge : (lookupTrans (ac.transitions.getD
            (nodeState ac.transitions m') []) c).isSome = true := by
          have := mns_node ac.transitions (w ++ [c])
          rw [hm1, isNode, stateOf_concat, stateOf_stN hm'node, Option.some_bind]
            at this
          exact this
        cases m' with
        | nil =>
          rw [hz0] at hnoedge
          exact hnoedge (by simpa using hm'edge)
        | cons a as =>
          have := ffs_max ac.transitions c fuel (mns ac.transitions w) (a :: as)
            hfuel hm'node
            (mns_longest ac.transitions w (a :: as) hm'node hm2)
            (by simp) hm'edge
          rw [hz0] at this
          rcases List.suffix_nil.mp this with h2
          cases h2

theorem setUnion_mem (a b : List (List Char)) (p : List Char) :
    p ∈ setUnion a b ↔ p ∈ a ∨ p ∈ b := by
  unfold setUnion
  rw [List.mem_append, List.mem_filter]
  constructor
  · rintro (h | ⟨h, _⟩)
    · exact Or.inl h
    · exact Or.inr h
  · rintro (h | h)
    · exact Or.inl h
    · by_cases ha : p ∈ a
      · exact Or.inl ha
      · exact Or.inr ⟨h, by simpa using ha⟩

/-- A prefix of a node string is a node. -/
theorem isNode_of_pref {ts : List (List (Char × Nat))} {a v : List Char}
    (hpref : a <+: v) (h : isNode ts v = true) : isNode ts a = true := by
  obtain ⟨r, hr⟩ := hpref
  rw [← hr, isNode, stateOf_append] at h
  rw [isNode]
  cases hm : stateOf ts 0 a with
  | none => rw [hm] at h; cases h
  | some m => rfl

theorem pref_eq_of_length {a b : List Char} (h : a <+: b)
    (hl : b.length ≤ a.length) : a = b := by
  obtain ⟨t, ht⟩ := h
  have h2 := congrArg List.length ht
  simp at h2
  have ht0 : t = [] := List.eq_nil_of_length_eq_zero (by omega)
  rw [ht0] at ht
  simpa using ht

theorem pref_shorten {a u : List Char} {c : Char} (h : a <+: u ++ [c])
    (hl : a.length ≤ u.length) : a <+: u := by
  obtain ⟨t, ht⟩ := h
  cases hte : t.reverse with
  | nil =>
    exfalso
    have : t = [] := by simpa using congrArg List.reverse hte
    rw [this, List.append_nil] at ht
    have h2 := congrArg List.length ht
    simp at h2
    omega
  | cons d t' =>
    have ht2 : t = t'.reverse ++ [d] := by
      have := congrArg List.reverse hte
      simpa using this
    rw [ht2, ← List.append_assoc] at ht
    obtain ⟨h1, _⟩ := List.append_inj' ht (by simp)
    exact ⟨t'.reverse, h1⟩

/-- Each child edge of a dequeued node steps to the child's state. -/
theorem child_state {ac : AhoCorasick} (hinv : TrieInv ac) {u : List Char}
    (hu : isNode ac.transitions u = true) {c : Char} {n : Nat}
    (hmem : (c, n) ∈ ac.transitions.getD (nodeState ac.transitions u) []) :
    stateOf ac.transitions 0 (u ++ [c]) = some n := by
  rw [stateOf_concat, stateOf_stN hu, Option.some_bind]
  exact lookupTrans_of_mem _ (hinv.keys_nodup _ (stN_lt hinv hu)) hmem

theorem tail_append_single {u : List Char} (hu : u ≠ []) (c : Char) :
    (u ++ [c]).tail = u.tail ++ [c] := by
  cases u with
  | nil => cases hu rfl
  | cons a as => rfl

/-- The body of the BFS loop for one dequeued state `cur = stN u`: every
child `u ++ [c]` receives its final failure link and inherits the
(already-final) outputs of that failure state; nothing else changes. -/
theorem buildChildrenGo_spec {ac : AhoCorasick} (hinv : TrieInv ac)
    {u : List Char} (hu : isNode ac.transitions u = true) (hune : u ≠ []) :
    ∀ (rest : List (Char × Nat)) (acc : AhoCorasick),
    acc.transitions = ac.transitions →
    acc.is_built = ac.is_built →
    acc.outputs.length = ac.transitions.length →
    acc.fail.length = ac.transitions.length →
    (∀ e ∈ rest, e ∈ ac.transitions.getD (nodeState ac.transitions u) []) →
    (rest.map Prod.fst).Nodup →
    (∀ w, isNode ac.transitions w = true → w ≠ [] → w.length ≤ u.length →
      acc.fail.getD (nodeState ac.transitions w) 0 =
        nodeState ac.transitions (mns ac.transitions w.tail)) →
    (∀ e ∈ rest, acc.outputs.getD (nodeState ac.transitions (u ++ [e.1])) [] =
      ac.outputs.getD (nodeState ac.transitions (u ++ [e.1])) []) →
    (buildChildrenGo (nodeState ac.transitions u) acc rest).transitions =
        ac.transitions ∧
    (buildChildrenGo (nodeState ac.transitions u) acc rest).is_built =
        ac.is_built ∧
    (buildChildrenGo (nodeState ac.transitions u) acc rest).outputs.length =
        ac.transitions.length ∧
    (buildChildrenGo (nodeState ac.transitions u) acc rest).fail.length =
        ac.transitions.length ∧
    (∀ s, (∀ e ∈ rest, s ≠ nodeState ac.transitions (u ++ [e.1])) →
      (buildChildrenGo (nodeState ac.transitions u) acc rest).fail.getD s 0 =
          acc.fail.getD s 0 ∧
      (buildChildrenGo (nodeState ac.transitions u) acc rest).outputs.getD s [] =
          acc.outputs.getD s []) ∧
    (∀ e ∈ rest,
      (buildChildrenGo (nodeState ac.transitions u) acc rest).fail.getD
          (nodeState ac.transitions (u ++ [e.1])) 0 =
        nodeState ac.transitions (mns ac.transitions (u ++ [e.1]).tail)) ∧
    (∀ e ∈ rest, ∀ p,
      p ∈ (buildChildrenGo (nodeState ac.transitions u) acc rest).outputs.getD
          (nodeState ac.transitions (u ++ [e.1])) [] ↔
        (p ∈ ac.outputs.getD (nodeState ac.transitions (u ++ [e.1])) [] ∨
          p ∈ acc.outputs.getD
            (nodeState ac.transitions (mns ac.transitions (u ++ [e.1]).tail)) [])) := by
  intro rest
  induction rest with
  | nil =>
    intro acc h1 h2 h3 h4 _ _ _ _
    refine ⟨h1, h2, h3, h4, fun s _ => ⟨rfl, rfl⟩, fun e he => absurd he (by simp),
      fun e he => absurd he (by simp)⟩
  | cons e₀ rest ih =>
    intro acc h1 h2 h3 h4 hrow hkeys hHF hPR
    obtain ⟨c, nxt⟩ := e₀
    have hmem := hrow (c, nxt) (List.mem_cons_self _ _)
    have hvc : stateOf ac.transitions 0 (u ++ [c]) = some nxt :=
      child_state hinv hu hmem
    have hvc_node : isNode ac.transitions (u ++ [c]) = true := by
      rw [isNode, hvc]
      rfl
    have hnxt : nodeState ac.transitions (u ++ [c]) = nxt := by
      rw [nodeState, hvc]
      rfl
    have hnxt_lt : nxt < ac.transitions.length := by
      rw [← hnxt]
      exact stN_lt hinv hvc_node
    -- the failure walk lands on the final failure state of the child
    have hulen : u.length < ac.transitions.length := by
      have := stN_len_lt hinv hu
      have := stN_lt hinv hu
      omega
    have hmtl : (mns ac.transitions u.tail).length ≤ u.length := by
      have h5 := mns_length_le ac.transitions u.tail
      have h6 : u.tail.length ≤ u.length := by
        cases u with
        | nil => simp
        | cons a as => simp
      omega
    have hwalk : failWalk acc c acc.transitions.length
        (acc.fail.getD (nodeState ac.transitions u) 0) =
        nodeState ac.transitions
          (failFindStr ac.transitions c (mns ac.transitions u.tail).length
            (mns ac.transitions u.tail)) := by
      rw [hHF u hu hune (le_refl _), h1]
      exact failWalk_spec hinv h1 c (mns ac.transitions u.tail).length
        (mns ac.transitions u.tail) ac.transitions.length
        (mns_node ac.transitions u.tail) (le_refl _) (by omega)
        (fun w hw hwne hwlen => hHF w hw hwne (by omega))
    have hmns := mns_snoc ac u.tail c (mns ac.transitions u.tail).length (le_refl _)
    -- the written failure value is the spec value
    have hfval : ((lookupTrans (acc.transitions.getD
        (failWalk acc c acc.transitions.length
          (acc.fail.getD (nodeState ac.transitions u) 0)) []) c).getD 0) =
        nodeState ac.transitions (mns ac.transitions (u ++ [c]).tail) := by
      rw [hwalk, h1, tail_append_single hune, hmns]
      split
      · rename_i hedge
        rw [Option.isSome_iff_exists] at hedge
        obtain ⟨t, ht⟩ := hedge
        rw [ht]
        have : stateOf ac.transitions 0
            (failFindStr ac.transitions c (mns ac.transitions u.tail).length
              (mns ac.transitions u.tail) ++ [c]) = some t := by
          rw [stateOf_concat, stateOf_stN (ffs_node ac.transitions c _ _ (le_refl _)
            (mns_node ac.transitions u.tail)), Option.some_bind]
          exact ht
        rw [nodeState, this]
      · rename_i hnoedge
        rw [Option.not_isSome_iff_eq_none] at hnoedge
        rw [hnoedge]
        rfl
    have hstep : buildChildrenGo (nodeState ac.transitions u) acc ((c, nxt) :: rest) =
        buildChildrenGo (nodeState ac.transitions u)
          { acc with
            fail := acc.fail.set nxt
              ((lookupTrans (acc.transitions.getD
                (failWalk acc c acc.transitions.length
                  (acc.fail.getD (nodeState ac.transitions u) 0)) []) c).getD 0)
            outputs := acc.outputs.set nxt
              (setUnion (acc.outputs.getD nxt [])
                (acc.outputs.getD
                  ((lookupTrans (acc.transitions.getD
                    (failWalk acc c acc.transitions.length
                      (acc.fail.getD (nodeState ac.transitions u) 0)) []) c).getD 0)
                  [])) } rest := rfl
    rw [List.map_cons, List.nodup_cons] at hkeys
    have hPR0 : acc.outputs.getD (nodeState ac.transitions (u ++ [c])) [] =
        ac.outputs.getD (nodeState ac.transitions (u ++ [c])) [] :=
      hPR (c, nxt) (List.mem_cons_self _ _)
    have hne_rest : ∀ e ∈ rest, nxt ≠ nodeState ac.transitions (u ++ [e.1]) := by
      intro e he hcontra
      have henode : isNode ac.transitions (u ++ [e.1]) = true := by
        rw [isNode, child_state hinv hu (hrow e (List.mem_cons_of_mem _ he))]
        rfl
      have := stN_inj hinv hvc_node henode (by rw [hnxt]; exact hcontra)
      have hce : c = e.1 := by
        have h5 := List.append_inj' this (by simp)
        simpa using h5.2
      apply hkeys.1
      rw [hce, List.mem_map]
      exact ⟨e, he, rfl⟩
    have hfspec_ne : nodeState ac.transitions
        (mns ac.transitions (u ++ [c]).tail) ≠ nxt := by
      intro hcontra
      have h5 := stN_inj hinv (mns_node ac.transitions (u ++ [c]).tail) hvc_node
        (by rw [hnxt]; exact hcontra)
      have h6 := mns_length_le ac.transitions (u ++ [c]).tail
      rw [h5] at h6
      simp at h6
    obtain ⟨g1, g2, g3, g4, g5, g6, g7⟩ := ih
      { acc with
        fail := acc.fail.set nxt
          ((lookupTrans (acc.transitions.getD
            (failWalk acc c acc.transitions.length
              (acc.fail.getD (nodeState ac.transitions u) 0)) []) c).getD 0)
        outputs := acc.outputs.set nxt
          (setUnion (acc.outputs.getD nxt [])
            (acc.outputs.getD
              ((lookupTrans (acc.transitions.getD
                (failWalk acc c acc.transitions.length
                  (acc.fail.getD (nodeState ac.transitions u) 0)) []) c).getD 0)
              [])) }
      h1 h2 (by simpa using h3) (by simpa using h4)
      (fun e he => hrow e (List.mem_cons_of_mem _ he)) hkeys.2
      (by
        intro w hw hwne hwlen
        show (acc.fail.set nxt _).getD (nodeState ac.transitions w) 0 = _
        rw [getD_set _ _ _ _ _ (by rw [h4]; exact hnxt_lt)]
        rw [if_neg (by
          intro hcontra
          have := stN_inj hinv hw hvc_node (by rw [hnxt]; exact hcontra)
          rw [this] at hwlen
          simp at hwlen)]
        exact hHF w hw hwne hwlen)
      (by
        intro e he
        show (acc.outputs.set nxt _).getD (nodeState ac.transitions (u ++ [e.1])) []
          = _
        rw [getD_set _ _ _ _ _ (by rw [h3]; exact hnxt_lt)]
        rw [if_neg (fun hcontra => hne_rest e he hcontra.symm)]
        exact hPR e (List.mem_cons_of_mem _ he))
    rw [hstep]
    refine ⟨g1, g2, g3, g4, ?_, ?_, ?_⟩
    · intro s hs
      have hsne : s ≠ nxt := by
        have := hs (c, nxt) (List.mem_cons_self _ _)
        rw [hnxt] at this
        exact this
      obtain ⟨gg1, gg2⟩ := g5 s (fun e he => hs e (List.mem_cons_of_mem _ he))
      constructor
      · rw [gg1]
        show (acc.fail.set nxt _).getD s 0 = _
        rw [getD_set _ _ _ _ _ (by rw [h4]; exact hnxt_lt), if_neg hsne]
      · rw [gg2]
        show (acc.outputs.set nxt _).getD s [] = _
        rw [getD_set _ _ _ _ _ (by rw [h3]; exact hnxt_lt), if_neg hsne]
    · intro e he
      rcases List.mem_cons.mp he with he | he
      · have hproj : ((c, nxt) : Char × Nat).1 = c := rfl
        rw [he, hproj, hnxt]
        obtain ⟨gg1, _⟩ := g5 nxt (fun e' he' => hne_rest e' he')
        rw [gg1]
        show (acc.fail.set nxt _).getD nxt 0 = _
        rw [getD_set _ _ _ _ _ (by rw [h4]; exact hnxt_lt), if_pos rfl]
        exact hfval
      · exact g6 e he
    · intro e he p
      rcases List.mem_cons.mp he with he | he
      · have hproj : ((c, nxt) : Char × Nat).1 = c := rfl
        rw [he, hproj, hnxt]
        obtain ⟨_, gg2⟩ := g5 nxt (fun e' he' => hne_rest e' he')
        rw [gg2]
        show p ∈ (acc.outputs.set nxt _).getD nxt [] ↔ _
        rw [getD_set _ _ _ _ _ (by rw [h3]; exact hnxt_lt), if_pos rfl]
        rw [setUnion_mem]
        rw [hfval]
        rw [← hnxt, hPR0]
      · rw [g7 e he p]
        have htgt : (acc.outputs.set nxt
            (setUnion (acc.outputs.getD nxt [])
              (acc.outputs.getD
                ((lookupTrans (acc.transitions.getD
                  (failWalk acc c acc.transitions.length
                    (acc.fail.getD (nodeState ac.transitions u) 0)) []) c).getD 0)
                []))).getD
            (nodeState ac.transitions (mns ac.transitions (u ++ [e.1]).tail)) [] =
            acc.outputs.getD
              (nodeState ac.transitions (mns ac.transitions (u ++ [e.1]).tail)) [] := by
          rw [getD_set _ _ _ _ _ (by rw [h3]; exact hnxt_lt)]
          rw [if_neg (by
            intro hcontra
            have hmn := mns_node ac.transitions (u ++ [e.1]).tail
            have h5 := stN_inj hinv hmn hvc_node (by rw [hnxt]; exact hcontra)
            have h6 := mns_length_le ac.transitions (u ++ [e.1]).tail
            rw [h5] at h6
            cases u with
            | nil => cases hune rfl
            | cons a as => simp at h6)]
        rw [htgt]

theorem pref_strict_len {a b : List Char} (h : a <+: b) (hne : a ≠ b) :
    a.length < b.length := by
  rcases Nat.lt_or_ge a.length b.length with hl | hl
  · exact hl
  · exact absurd (pref_eq_of_length h hl) hne

/-- A node strictly extending `u` and not strictly extending any child of
`u` is a child of `u`. -/
theorem settled_child_mem {ac : AhoCorasick} {u v : List Char}
    (hu : isNode ac.transitions u = true)
    (hv : isNode ac.transitions v = true) (hpref : u <+: v) (hne : u ≠ v)
    (hnone : ∀ e ∈ ac.transitions.getD (nodeState ac.transitions u) [],
      ¬((u ++ [e.1]) <+: v ∧ u ++ [e.1] ≠ v)) :
    ∃ e ∈ ac.transitions.getD (nodeState ac.transitions u) [], v = u ++ [e.1] := by
  obtain ⟨r, hr⟩ := hpref
  cases r with
  | nil =>
    exfalso
    exact hne (by rw [← hr]; simp)
  | cons d r' =>
    have hvd_pref : u ++ [d] <+: v := ⟨r', by rw [← hr]; simp⟩
    have hvd_node := isNode_of_pref hvd_pref hv
    have hedge := stateOf_stN hvd_node
    rw [stateOf_concat, stateOf_stN hu, Option.some_bind] at hedge
    have hmem := lookupTrans_mem hedge
    have := hnone (d, nodeState ac.transitions (u ++ [d])) hmem
    rw [not_and, not_not] at this
    exact ⟨(d, nodeState ac.transitions (u ++ [d])), hmem, (this hvd_pref).symm⟩

/-- Invariant of the BFS loop of `build`, with the queue represented by
the strings of its states.  A node is settled (failure link and output
set final) exactly when no queue element is a strict prefix of it. -/
structure BfsInv (ac : AhoCorasick) (us : List (List Char)) (acc : AhoCorasick) :
    Prop where
  trans_eq : acc.transitions = ac.transitions
  built_eq : acc.is_built = ac.is_built
  len_out : acc.outputs.length = ac.transitions.length
  len_fail : acc.fail.length = ac.transitions.length
  q_node : ∀ u ∈ us, isNode ac.transitions u = true ∧ u ≠ []
  q_mono : us.Pairwise (fun a b => a.length ≤ b.length)
  q_band : ∀ a ∈ us, ∀ b ∈ us, b.length ≤ a.length + 1
  q_incomp : us.Pairwise (fun a b => ¬(a <+: b) ∧ ¬(b <+: a))
  settled_le : ∀ v, isNode ac.transitions v = true →
    (∀ u ∈ us, ¬(u <+: v ∧ u ≠ v)) → ∀ u ∈ us, v.length ≤ u.length + 1
  fail_root : acc.fail.getD 0 0 = 0
  fail_settled : ∀ v, isNode ac.transitions v = true → v ≠ [] →
    (∀ u ∈ us, ¬(u <+: v ∧ u ≠ v)) →
    acc.fail.getD (nodeState ac.transitions v) 0 =
      nodeState ac.transitions (mns ac.transitions v.tail)
  out_settled : ∀ v, isNode ac.transitions v = true →
    (∀ u ∈ us, ¬(u <+: v ∧ u ≠ v)) →
    ∀ p, p ∈ acc.outputs.getD (nodeState ac.transitions v) [] ↔
      (p ∈ ac.outputs.getD (nodeState ac.transitions v) [] ∨
        (2 ≤ v.length ∧ p ∈ acc.outputs.getD
          (nodeState ac.transitions (mns ac.transitions v.tail)) []))
  out_pristine : ∀ v, isNode ac.transitions v = true →
    (∃ u ∈ us, u <+: v ∧ u ≠ v) →
    acc.outputs.getD (nodeState ac.transitions v) [] =
      ac.outputs.getD (nodeState ac.transitions v) []

theorem pref_trans {a b c : List Char} (h1 : a <+: b) (h2 : b <+: c) : a <+: c := by
  obtain ⟨t1, ht1⟩ := h1
  obtain ⟨t2, ht2⟩ := h2
  exact ⟨t1 ++ t2, by rw [← List.append_assoc, ht1, ht2]⟩

theorem pref_len {a b : List Char} (h : a <+: b) : a.length ≤ b.length := by
  obtain ⟨t, ht⟩ := h
  have := congrArg List.length ht
  simp at this
  omega

/-- The BFS `while queue` loop of `build` empties the queue and settles
every node, provided the fuel covers the queue plus the pending states
(which is what `len(transitions)` does). -/
theorem buildLoop_spec (ac : AhoCorasick) (hinv : TrieInv ac) :
    ∀ (fuel : Nat) (us : List (List Char)) (acc : AhoCorasick) (pend : Finset Nat),
    BfsInv ac us acc →
    (∀ v, isNode ac.transitions v = true → (∃ q ∈ us, q <+: v ∧ q ≠ v) →
      nodeState ac.transitions v ∈ pend) →
    us.length + pend.card ≤ fuel →
    BfsInv ac [] (buildLoop fuel (us.map (nodeState ac.transitions)) acc) := by
  intro fuel
  induction fuel with
  | zero =>
    intro us acc pend hbfs hpend hcard
    cases us with
    | nil => exact hbfs
    | cons u us' => simp at hcard
  | succ fuel ih =>
    intro us acc pend hbfs hpend hcard
    cases us with
    | nil => exact hbfs
    | cons u us' =>
      obtain ⟨hu_node, hu_ne⟩ := hbfs.q_node u (List.mem_cons_self _ _)
      have hu_len : 1 ≤ u.length := by
        cases u with
        | nil => cases hu_ne rfl
        | cons a as => simp
      have hmono_head : ∀ q ∈ us', u.length ≤ q.length :=
        fun q hq => (List.pairwise_cons.mp hbfs.q_mono).1 q hq
      have hincomp_head : ∀ q ∈ us', ¬(u <+: q) ∧ ¬(q <+: u) :=
        fun q hq => (List.pairwise_cons.mp hbfs.q_incomp).1 q hq
      have hu_not_mem : u ∉ us' := by
        intro hmem
        exact (hincomp_head u hmem).1 List.prefix_rfl
      have hsettled_short : ∀ w : List Char, w.length ≤ u.length →
          (∀ q ∈ u :: us', ¬(q <+: w ∧ q ≠ w)) := by
        rintro w hwlen q hq ⟨hqp, hqne⟩
        have hlt := pref_strict_len hqp hqne
        rcases List.mem_cons.mp hq with rfl | hq
        · omega
        · have := hmono_head q hq
          omega
      have hcur_lt := stN_lt hinv hu_node
      have hrow_keys := hinv.keys_nodup _ hcur_lt
      have hchild_node : ∀ e ∈ ac.transitions.getD (nodeState ac.transitions u) [],
          isNode ac.transitions (u ++ [e.1]) = true := by
        intro e he
        rw [isNode, child_state hinv hu_node he]
        rfl
      have hucs_ne : ∀ (e : Char × Nat), u ≠ u ++ [e.1] := by
        intro e hcontra
        have := congrArg List.length hcontra
        simp at this
      obtain ⟨G1, G2, G3, G4, G5, G6, G7⟩ := buildChildrenGo_spec hinv hu_node hu_ne
        (ac.transitions.getD (nodeState ac.transitions u) []) acc
        hbfs.trans_eq hbfs.built_eq hbfs.len_out hbfs.len_fail
        (fun _ he => he) hrow_keys
        (fun w hw hwne hwlen => hbfs.fail_settled w hw hwne (hsettled_short w hwlen))
        (by
          intro e he
          exact hbfs.out_pristine (u ++ [e.1]) (hchild_node e he)
            ⟨u, List.mem_cons_self _ _, ⟨[e.1], rfl⟩, hucs_ne e⟩)
      -- newly settled nodes are either previously settled or children of u
      have hnew_unsettled : ∀ v, (∃ q ∈ us' ++
            (ac.transitions.getD (nodeState ac.transitions u) []).map
              (fun e => u ++ [e.1]), q <+: v ∧ q ≠ v) →
          (∃ q ∈ u :: us', q <+: v ∧ q ≠ v) := by
        rintro v ⟨q, hq, hqp, hqne⟩
        rcases List.mem_append.mp hq with hq | hq
        · exact ⟨q, List.mem_cons_of_mem _ hq, hqp, hqne⟩
        · rw [List.mem_map] at hq
          obtain ⟨e, _, hqe⟩ := hq
          refine ⟨u, List.mem_cons_self _ _, pref_trans ⟨[e.1], hqe⟩ hqp, ?_⟩
          intro hcontra
          have h5 := pref_len hqp
          have h6 := congrArg List.length hqe
          rw [← hcontra] at h5
          simp at h6
          omega
      have hchild_settled : ∀ e ∈ ac.transitions.getD (nodeState ac.transitions u) [],
          ∀ q ∈ us' ++ (ac.transitions.getD (nodeState ac.transitions u) []).map
              (fun e => u ++ [e.1]),
          ¬(q <+: u ++ [e.1] ∧ q ≠ u ++ [e.1]) := by
        rintro e he q hq ⟨hqp, hqne⟩
        have hql := pref_strict_len hqp hqne
        simp only [List.length_append, List.length_singleton] at hql
        rcases List.mem_append.mp hq with hq | hq
        · have h5 := hmono_head q hq
          have h6 : q.length = u.length := by omega
          have h7 : q <+: u := pref_shorten hqp (by omega)
          have h8 : q = u := pref_eq_of_length h7 (by omega)
          rw [h8] at hq
          exact hu_not_mem hq
        · rw [List.mem_map] at hq
          obtain ⟨e', _, hqe⟩ := hq
          have := congrArg List.length hqe
          simp at this
          omega
      have hnew_settled : ∀ v, isNode ac.transitions v = true →
          (∀ q ∈ us' ++ (ac.transitions.getD (nodeState ac.transitions u) []).map
              (fun e => u ++ [e.1]), ¬(q <+: v ∧ q ≠ v)) →
          (∀ q ∈ u :: us', ¬(q <+: v ∧ q ≠ v)) ∨
            ∃ e ∈ ac.transitions.getD (nodeState ac.transitions u) [],
              v = u ++ [e.1] := by
        intro v hv hset
        by_cases hold : ∀ q ∈ u :: us', ¬(q <+: v ∧ q ≠ v)
        · exact Or.inl hold
        · right
          push_neg at hold
          obtain ⟨q, hq, hqp, hqne⟩ := hold
          rcases List.mem_cons.mp hq with rfl | hq
          · exact settled_child_mem hu_node hv hqp hqne
              (fun e he hcon => hset (q ++ [e.1])
                (List.mem_append_right _ (List.mem_map.mpr ⟨e, he, rfl⟩)) hcon)
          · exact absurd ⟨hqp, hqne⟩ (hset q (List.mem_append_left _ hq))
      have hold_settled_new : ∀ v, (∀ q ∈ u :: us', ¬(q <+: v ∧ q ≠ v)) →
          (∀ q ∈ us' ++ (ac.transitions.getD (nodeState ac.transitions u) []).map
              (fun e => u ++ [e.1]), ¬(q <+: v ∧ q ≠ v)) := by
        rintro v hold q hq ⟨hqp, hqne⟩
        rcases List.mem_append.mp hq with hq | hq
        · exact hold q (List.mem_cons_of_mem _ hq) ⟨hqp, hqne⟩
        · rw [List.mem_map] at hq
          obtain ⟨e, _, hqe⟩ := hq
          refine hold u (List.mem_cons_self _ _)
            ⟨pref_trans ⟨[e.1], hqe⟩ hqp, ?_⟩
          intro hcontra
          have h5 := pref_len hqp
          have h6 := congrArg List.length hqe
          rw [← hcontra] at h5
          simp at h6
          omega
      have hsettled_old_frame : ∀ v, isNode ac.transitions v = true →
          (∀ q ∈ u :: us', ¬(q <+: v ∧ q ≠ v)) →
          ∀ e ∈ ac.transitions.getD (nodeState ac.transitions u) [],
          nodeState ac.transitions v ≠ nodeState ac.transitions (u ++ [e.1]) := by
        intro v hv hold e he hcontra
        have hveq := stN_inj hinv hv (hchild_node e he) hcontra
        exact hold u (List.mem_cons_self _ _)
          (by
            rw [hveq]
            exact ⟨⟨[e.1], rfl⟩, hucs_ne e⟩)
      -- step the loop
      have hstep : buildLoop (fuel + 1)
          ((u :: us').map (nodeState ac.transitions)) acc =
          buildLoop fuel ((us'.map (nodeState ac.transitions)) ++
              (acc.transitions.getD (nodeState ac.transitions u) []).map
                (fun e => e.2))
            (buildChildrenGo (nodeState ac.transitions u) acc
              (acc.transitions.getD (nodeState ac.transitions u) [])) := by
        rw [List.map_cons]
        rfl
      rw [hstep, hbfs.trans_eq]
      have hmap : (ac.transitions.getD (nodeState ac.transitions u) []).map
          (fun e => e.2) =
          ((ac.transitions.getD (nodeState ac.transitions u) []).map
            (fun e => u ++ [e.1])).map (nodeState ac.transitions) := by
        rw [List.map_map]
        apply List.map_congr_left
        intro e he
        show e.2 = nodeState ac.transitions (u ++ [e.1])
        rw [nodeState, child_state hinv hu_node he]
        rfl
      have hqeq : (us'.map (nodeState ac.transitions)) ++
          (ac.transitions.getD (nodeState ac.transitions u) []).map (fun e => e.2) =
          (us' ++ (ac.transitions.getD (nodeState ac.transitions u) []).map
            (fun e => u ++ [e.1])).map (nodeState ac.transitions) := by
        rw [List.map_append, hmap]
      rw [hqeq]
      -- nodup of the child targets
      have htargets_nodup : (((ac.transitions.getD (nodeState ac.transitions u) []).map
          (fun e => e.2)).Nodup) := by
        rw [List.Nodup, List.pairwise_map]
        have hk : (ac.transitions.getD (nodeState ac.transitions u) []).Pairwise
            (fun a b => a.1 ≠ b.1) := by
          have := hrow_keys
          rw [List.Nodup, List.pairwise_map] at this
          exact this
        refine List.Pairwise.imp_of_mem ?_ hk
        intro a b ha hb hab hcontra
        rcases hinv.indeg _ _ hcur_lt hcur_lt a ha b hb hcontra with ⟨_, hkeys⟩
        exact hab hkeys
      -- the pending set shrinks by the children
      have hS_sub : ((ac.transitions.getD (nodeState ac.transitions u) []).map
          (fun e => e.2)).toFinset ⊆ pend := by
        intro s hs
        rw [List.mem_toFinset, List.mem_map] at hs
        obtain ⟨e, he, hse⟩ := hs
        have : nodeState ac.transitions (u ++ [e.1]) = s := by
          rw [nodeState, child_state hinv hu_node he, ← hse]
          rfl
        rw [← this]
        exact hpend (u ++ [e.1]) (hchild_node e he)
          ⟨u, List.mem_cons_self _ _, ⟨[e.1], rfl⟩, hucs_ne e⟩
      have hS_card : ((ac.transitions.getD (nodeState ac.transitions u) []).map
          (fun e => e.2)).toFinset.card =
          (ac.transitions.getD (nodeState ac.transitions u) []).length := by
        rw [List.toFinset_card_of_nodup htargets_nodup]
        rw [List.length_map]
      apply ih (us' ++ (ac.transitions.getD (nodeState ac.transitions u) []).map
          (fun e => u ++ [e.1]))
        (buildChildrenGo (nodeState ac.transitions u) acc
          (ac.transitions.getD (nodeState ac.transitions u) []))
        (pend \ ((ac.transitions.getD (nodeState ac.transitions u) []).map
          (fun e => e.2)).toFinset)
      · -- the invariant for the new queue
        refine ⟨G1, G2, G3, G4, ?_, ?_, ?_, ?_, ?_, ?_, ?_, ?_, ?_⟩
        · intro q hq
          rcases List.mem_append.mp hq with hq | hq
          · exact hbfs.q_node q (List.mem_cons_of_mem _ hq)
          · rw [List.mem_map] at hq
            obtain ⟨e, he, hqe⟩ := hq
            exact ⟨by rw [← hqe]; exact hchild_node e he, by rw [← hqe]; simp⟩
        · rw [List.pairwise_append]
          refine ⟨(List.pairwise_cons.mp hbfs.q_mono).2, ?_, ?_⟩
          · rw [List.pairwise_map]
            have hk : (ac.transitions.getD (nodeState ac.transitions u) []).Pairwise
                (fun a b => a.1 ≠ b.1) := by
              have := hrow_keys
              rw [List.Nodup, List.pairwise_map] at this
              exact this
            exact hk.imp (fun _ => by simp)
          · intro a ha b hb
            rw [List.mem_map] at hb
            obtain ⟨e, _, hbe⟩ := hb
            have h5 := hbfs.q_band u (List.mem_cons_self _ _) a
              (List.mem_cons_of_mem _ ha)
            rw [← hbe]
            simp
            omega
        · intro a ha b hb
          rcases List.mem_append.mp ha with ha | ha <;>
            rcases List.mem_append.mp hb with hb | hb
          · exact hbfs.q_band a (List.mem_cons_of_mem _ ha) b
              (List.mem_cons_of_mem _ hb)
          · rw [List.mem_map] at hb
            obtain ⟨e, _, hbe⟩ := hb
            have h5 := hmono_head a ha
            rw [← hbe]
            simp
            omega
          · rw [List.mem_map] at ha
            obtain ⟨e, _, hae⟩ := ha
            have h5 := hbfs.q_band u (List.mem_cons_self _ _) b
              (List.mem_cons_of_mem _ hb)
            rw [← hae]
            simp
            omega
          · rw [List.mem_map] at ha hb
            obtain ⟨e, _, hae⟩ := ha
            obtain ⟨e', _, hbe⟩ := hb
            rw [← hae, ← hbe]
            simp
        · rw [List.pairwise_append]
          refine ⟨(List.pairwise_cons.mp hbfs.q_incomp).2, ?_, ?_⟩
          · rw [List.pairwise_map]
            have hk : (ac.transitions.getD (nodeState ac.transitions u) []).Pairwise
                (fun a b => a.1 ≠ b.1) := by
              have := hrow_keys
              rw [List.Nodup, List.pairwise_map] at this
              exact this
            refine hk.imp ?_
            intro a b hab
            constructor
            · intro hp
              have h5 := pref_eq_of_length hp (by simp)
              have h6 := List.append_inj' h5 (by simp)
              simp at h6
              exact hab h6
            · intro hp
              have h5 := pref_eq_of_length hp (by simp)
              have h6 := List.append_inj' h5 (by simp)
              simp at h6
              exact hab h6.symm
          · intro a ha b hb
            rw [List.mem_map] at hb
            obtain ⟨e, he, hbe⟩ := hb
            have h5 := hmono_head a ha
            have h6 := hbfs.q_band u (List.mem_cons_self _ _) a
              (List.mem_cons_of_mem _ ha)
            constructor
            · intro hp
              rw [← hbe] at hp
              rcases Nat.lt_or_ge a.length (u.length + 1) with h7 | h7
              · have h8 : a <+: u := pref_shorten hp (by omega)
                have h9 : a = u := pref_eq_of_length h8 (by omega)
                rw [h9] at ha
                exact hu_not_mem ha
              · have h9 : a = u ++ [e.1] :=
                  pref_eq_of_length hp (by simp; omega)
                have := (hincomp_head a ha).1
                rw [h9] at this
                exact this ⟨[e.1], rfl⟩
            · intro hp
              rw [← hbe] at hp
              have h7 := pref_len hp
              simp at h7
              have h9 : u ++ [e.1] = a :=
                pref_eq_of_length hp (by simp; omega)
              have := (hincomp_head a ha).1
              rw [← h9] at this
              exact this ⟨[e.1], rfl⟩
        · intro v hv hset q hq
          rcases hnew_settled v hv hset with hold | ⟨e, he, hve⟩
          · rcases List.mem_append.mp hq with hq | hq
            · exact hbfs.settled_le v hv hold q (List.mem_cons_of_mem _ hq)
            · rw [List.mem_map] at hq
              obtain ⟨e, _, hqe⟩ := hq
              have h5 := hbfs.settled_le v hv hold u (List.mem_cons_self _ _)
              rw [← hqe]
              simp
              omega
          · rcases List.mem_append.mp hq with hq | hq
            · have h5 := hmono_head q hq
              rw [hve]
              simp
              omega
            · rw [List.mem_map] at hq
              obtain ⟨e', _, hqe⟩ := hq
              rw [hve, ← hqe]
              simp
        · have h0 : (0 : Nat) ≠ nodeState ac.transitions u ∨ True := Or.inr trivial
          have hframe := (G5 0 (by
            intro e he hcontra
            have : u ++ [e.1] = [] :=
              stN_eq_zero hinv (hchild_node e he) hcontra.symm
            simp at this)).1
          rw [hframe]
          exact hbfs.fail_root
        · intro v hv hvne hset
          rcases hnew_settled v hv hset with hold | ⟨e, he, hve⟩
          · rw [(G5 _ (hsettled_old_frame v hv hold)).1]
            exact hbfs.fail_settled v hv hvne hold
          · rw [hve]
            exact G6 e he
        · intro v hv hset p
          have hmns_node := mns_node ac.transitions v.tail
          have hmns_settled_old : ∀ q ∈ u :: us',
              ¬(q <+: mns ac.transitions v.tail ∧ q ≠ mns ac.transitions v.tail) := by
            apply hsettled_short
            have h5 := mns_length_le ac.transitions v.tail
            have h6 : v.tail.length ≤ v.length - 1 := by
              cases v with
              | nil => simp
              | cons a as => simp
            rcases hnew_settled v hv hset with hold | ⟨e, he, hve⟩
            · have h7 := hbfs.settled_le v hv hold u (List.mem_cons_self _ _)
              omega
            · have h7 : v.length = u.length + 1 := by
                rw [hve]
                simp
              omega
          have hmns_frame := (G5 _ (hsettled_old_frame _ hmns_node
            hmns_settled_old)).2
          rcases hnew_settled v hv hset with hold | ⟨e, he, hve⟩
          · rw [(G5 _ (hsettled_old_frame v hv hold)).2, hmns_frame]
            exact hbfs.out_settled v hv hold p
          · have h2v : 2 ≤ v.length := by
              rw [hve]
              simp
              omega
            constructor
            · intro hp
              rw [hve] at hp
              rcases (G7 e he p).mp hp with hp | hp
              · exact Or.inl (by rw [hve]; exact hp)
              · refine Or.inr ⟨h2v, ?_⟩
                rw [hmns_frame]
                rw [hve]
                exact hp
            · rintro (hp | ⟨_, hp⟩)
              · rw [hve]
                rw [G7 e he p]
                exact Or.inl (by rw [← hve]; exact hp)
              · rw [hve]
                rw [G7 e he p]
                rw [hmns_frame, hve] at hp
                exact Or.inr hp
        · intro v hv hvuns
          have hvuns_old := hnew_unsettled v hvuns
          have hvnotchild : ∀ e ∈ ac.transitions.getD (nodeState ac.transitions u) [],
              nodeState ac.transitions v ≠ nodeState ac.transitions (u ++ [e.1]) := by
            intro e he hcontra
            have hveq := stN_inj hinv hv (hchild_node e he) hcontra
            obtain ⟨q, hq, hqp, hqne⟩ := hvuns
            rw [hveq] at hqp hqne
            exact hchild_settled e he q hq ⟨hqp, hqne⟩
          rw [(G5 _ hvnotchild).2]
          exact hbfs.out_pristine v hv hvuns_old
      · -- the pending states of the new queue
        intro v hv hvuns
        rw [Finset.mem_sdiff]
        constructor
        · exact hpend v hv (hnew_unsettled v hvuns)
        · rw [List.mem_toFinset, List.mem_map]
          rintro ⟨e, he, hse⟩
          have hcontra : nodeState ac.transitions v =
              nodeState ac.transitions (u ++ [e.1]) := by
            simp only [nodeState] at hse ⊢
            rw [child_state hinv hu_node he, ← hse]
            rfl
          have hveq := stN_inj hinv hv (hchild_node e he) hcontra
          obtain ⟨q, hq, hqp, hqne⟩ := hvuns
          rw [hveq] at hqp hqne
          exact hchild_settled e he q hq ⟨hqp, hqne⟩
      · -- fuel accounting
        rw [Finset.card_sdiff hS_sub, hS_card]
        have h5 : (ac.transitions.getD (nodeState ac.transitions u) []).length ≤
            pend.card := by
          rw [← hS_card]
          exact Finset.card_le_card hS_sub
        simp only [List.length_append, List.length_map]
        simp at hcard
        omega

theorem set_zero_eq {f : List Nat} (hz : ∀ v ∈ f, v = 0) (n : Nat) :
    f.set n 0 = f := by
  apply List.ext_getElem?
  intro i
  rw [List.getElem?_set]
  by_cases h : n = i
  · subst h
    by_cases hlen : n < f.length
    · rw [if_pos rfl, if_pos hlen]
      rw [List.getElem?_eq_getElem hlen]
      rw [hz _ (List.getElem_mem hlen)]
    · rw [if_pos rfl, if_neg hlen]
      exact (List.getElem?_eq_none (by omega)).symm
  · rw [if_neg h]

theorem foldl_set_zero :
    ∀ (l : List Nat) (f : List Nat), (∀ v ∈ f, v = 0) →
    l.foldl (fun f n => f.set n 0) f = f := by
  intro l
  induction l with
  | nil => intro f _; rfl
  | cons n l ih =>
    intro f hz
    rw [List.foldl_cons, set_zero_eq hz n]
    exact ih f hz

theorem row_targets_nodup {ac : AhoCorasick} (hinv : TrieInv ac) {s : Nat}
    (hs : s < ac.transitions.length) :
    ((ac.transitions.getD s []).map (fun e => e.2)).Nodup := by
  rw [List.Nodup, List.pairwise_map]
  have hk : (ac.transitions.getD s []).Pairwise (fun a b => a.1 ≠ b.1) := by
    have := hinv.keys_nodup s hs
    rw [List.Nodup, List.pairwise_map] at this
    exact this
  refine List.Pairwise.imp_of_mem ?_ hk
  intro a b ha hb hab hcontra
  rcases hinv.indeg _ _ hs hs a ha b hb hcontra with ⟨_, hkeys⟩
  exact hab hkeys

/-- What `build` establishes: transitions untouched, `is_built` set,
`fail[0] = 0`, every non-root node's failure link pointing at its longest
proper node-suffix, and every node's output set being its original
output set united with the (final) output set of its failure target. -/
theorem build_spec (ac : AhoCorasick) (hinv : TrieInv ac) (hpre : PreBuild ac) :
    (build ac).transitions = ac.transitions ∧
    (build ac).is_built = true ∧
    (build ac).outputs.length = ac.transitions.length ∧
    (build ac).fail.length = ac.transitions.length ∧
    (build ac).fail.getD 0 0 = 0 ∧
    (∀ v, isNode ac.transitions v = true → v ≠ [] →
      (build ac).fail.getD (nodeState ac.transitions v) 0 =
        nodeState ac.transitions (mns ac.transitions v.tail)) ∧
    (∀ v, isNode ac.transitions v = true → ∀ p,
      p ∈ (build ac).outputs.getD (nodeState ac.transitions v) [] ↔
        (p ∈ ac.outputs.getD (nodeState ac.transitions v) [] ∨
          (2 ≤ v.length ∧ p ∈ (build ac).outputs.getD
            (nodeState ac.transitions (mns ac.transitions v.tail)) []))) := by
  have hroot_node : isNode ac.transitions [] = true := rfl
  have hchild0 : ∀ e ∈ ac.transitions.getD 0 [],
      stateOf ac.transitions 0 [e.1] = some e.2 := by
    intro e he
    have := child_state (u := []) hinv hroot_node (by rw [stN_nil]; exact he)
    simpa using this
  have hchild0_node : ∀ e ∈ ac.transitions.getD 0 [],
      isNode ac.transitions [e.1] = true := by
    intro e he
    rw [isNode, hchild0 e he]
    rfl
  have hk0 : (ac.transitions.getD 0 []).Pairwise (fun a b => a.1 ≠ b.1) := by
    have := hinv.keys_nodup 0 hinv.root_lt
    rw [List.Nodup, List.pairwise_map] at this
    exact this
  have hfold : ((ac.transitions.getD 0 []).map (fun e => e.2)).foldl
      (fun f n => f.set n 0) ac.fail = ac.fail :=
    foldl_set_zero _ ac.fail hpre.fail_zero
  have hbuild : build ac =
      { buildLoop ac.transitions.length
          ((ac.transitions.getD 0 []).map (fun e => e.2)) ac with
        is_built := true } := by
    simp only [build]
    rw [hfold]
  have hroots_eq : (ac.transitions.getD 0 []).map (fun e => e.2) =
      ((ac.transitions.getD 0 []).map (fun e => [e.1])).map
        (nodeState ac.transitions) := by
    rw [List.map_map]
    apply List.map_congr_left
    intro e he
    show e.2 = nodeState ac.transitions [e.1]
    rw [nodeState, hchild0 e he]
    rfl
  -- the strict one-character prefix of any deeper node is a root child
  have hdeep_unsettled : ∀ v : List Char, isNode ac.transitions v = true →
      2 ≤ v.length →
      ∃ q ∈ (ac.transitions.getD 0 []).map (fun e => [e.1]),
        q <+: v ∧ q ≠ v := by
    intro v hv hlen
    cases v with
    | nil => simp at hlen
    | cons d rest =>
      have hd_pref : [d] <+: d :: rest := ⟨rest, rfl⟩
      have hd_node := isNode_of_pref hd_pref hv
      have hd := stateOf_stN hd_node
      have hd2 : stateOf ac.transitions 0 ([] ++ [d]) =
          some (nodeState ac.transitions [d]) := by simpa using hd
      rw [stateOf_concat] at hd2
      have h3 : stateOf ac.transitions 0 ([] : List Char) = some 0 := rfl
      rw [h3, Option.some_bind] at hd2
      have hmem := lookupTrans_mem hd2
      refine ⟨[d], List.mem_map.mpr ⟨(d, nodeState ac.transitions [d]), hmem, rfl⟩,
        hd_pref, ?_⟩
      intro hcontra
      injection hcontra with _ h8
      rw [← h8] at hlen
      simp at hlen
  have hbfs0 : BfsInv ac ((ac.transitions.getD 0 []).map (fun e => [e.1])) ac := by
    refine ⟨rfl, rfl, hinv.len_out, hinv.len_fail, ?_, ?_, ?_, ?_, ?_, ?_, ?_, ?_, ?_⟩
    · intro q hq
      rw [List.mem_map] at hq
      obtain ⟨e, he, hqe⟩ := hq
      exact ⟨by rw [← hqe]; exact hchild0_node e he, by rw [← hqe]; simp⟩
    · rw [List.pairwise_map]
      exact hk0.imp (fun _ => by simp)
    · intro a ha b hb
      rw [List.mem_map] at ha hb
      obtain ⟨e, _, hae⟩ := ha
      obtain ⟨e', _, hbe⟩ := hb
      rw [← hae, ← hbe]
      simp
    · rw [List.pairwise_map]
      refine hk0.imp ?_
      intro a b hab
      constructor
      · intro hp
        have h5 := pref_eq_of_length hp (by simp)
        simp at h5
        exact hab h5
      · intro hp
        have h5 := pref_eq_of_length hp (by simp)
        simp at h5
        exact hab h5.symm
    · intro v hv hset q hq
      rw [List.mem_map] at hq
      obtain ⟨e, _, hqe⟩ := hq
      rcases Nat.lt_or_ge v.length 2 with hlen | hlen
      · rw [← hqe]
        simp
        omega
      · exfalso
        obtain ⟨q', hq', hq'p, hq'ne⟩ := hdeep_unsettled v hv hlen
        exact hset q' hq' ⟨hq'p, hq'ne⟩
    · exact fail_getD_zero hpre 0
    · intro v hv hvne hset
      rcases Nat.lt_or_ge v.length 2 with hlen | hlen
      · cases v with
        | nil => cases hvne rfl
        | cons d rest =>
          have hrest : rest = [] := by
            simp at hlen
            exact List.eq_nil_of_length_eq_zero (by omega)
          subst hrest
          rw [fail_getD_zero hpre]
          show (0 : Nat) = nodeState ac.transitions (mns ac.transitions [])
          rfl
      · exfalso
        obtain ⟨q', hq', hq'p, hq'ne⟩ := hdeep_unsettled v hv hlen
        exact hset q' hq' ⟨hq'p, hq'ne⟩
    · intro v hv hset p
      rcases Nat.lt_or_ge v.length 2 with hlen | hlen
      · constructor
        · intro hp
          exact Or.inl hp
        · rintro (hp | ⟨h2, _⟩)
          · exact hp
          · omega
      · exfalso
        obtain ⟨q', hq', hq'p, hq'ne⟩ := hdeep_unsettled v hv hlen
        exact hset q' hq' ⟨hq'p, hq'ne⟩
    · intro v _ _
      rfl
  have hpend0 : ∀ v, isNode ac.transitions v = true →
      (∃ q ∈ (ac.transitions.getD 0 []).map (fun e => [e.1]), q <+: v ∧ q ≠ v) →
      nodeState ac.transitions v ∈
        Finset.range ac.transitions.length \
          insert 0 (((ac.transitions.getD 0 []).map (fun e => e.2)).toFinset) := by
    rintro v hv ⟨q, hq, hqp, hqne⟩
    rw [List.mem_map] at hq
    obtain ⟨e, he, hqe⟩ := hq
    have hvlen : 2 ≤ v.length := by
      have h5 := pref_strict_len hqp hqne
      rw [← hqe] at h5
      simp at h5
      omega
    rw [Finset.mem_sdiff]
    constructor
    · rw [Finset.mem_range]
      exact stN_lt hinv hv
    · rw [Finset.mem_insert]
      rintro (h0 | hmem)
      · have := stN_eq_zero hinv hv h0
        rw [this] at hvlen
        simp at hvlen
      · rw [List.mem_toFinset, List.mem_map] at hmem
        obtain ⟨e', he', hse⟩ := hmem
        have hcontra : nodeState ac.transitions v =
            nodeState ac.transitions [e'.1] := by
          have h6 : nodeState ac.transitions [e'.1] = e'.2 := by
            rw [nodeState, hchild0 e' he']
            rfl
          rw [h6, hse]
        have := stN_inj hinv hv (hchild0_node e' he') hcontra
        rw [this] at hvlen
        simp at hvlen
  have htargets0 := row_targets_nodup hinv hinv.root_lt
  have hsub0 : insert 0 (((ac.transitions.getD 0 []).map (fun e => e.2)).toFinset) ⊆
      Finset.range ac.transitions.length := by
    intro s hs
    rw [Finset.mem_insert] at hs
    rw [Finset.mem_range]
    rcases hs with rfl | hs
    · exact hinv.root_lt
    · rw [List.mem_toFinset, List.mem_map] at hs
      obtain ⟨e, he, hse⟩ := hs
      rw [← hse]
      exact (hinv.target 0 hinv.root_lt e he).2
  have hzero_notmem : (0 : Nat) ∉
      ((ac.transitions.getD 0 []).map (fun e => e.2)).toFinset := by
    rw [List.mem_toFinset, List.mem_map]
    rintro ⟨e, he, hse⟩
    have := (hinv.target 0 hinv.root_lt e he).1
    omega
  have hfuel : ((ac.transitions.getD 0 []).map (fun e => [e.1])).length +
      (Finset.range ac.transitions.length \
        insert 0 (((ac.transitions.getD 0 []).map
          (fun e => e.2)).toFinset)).card ≤ ac.transitions.length := by
    rw [Finset.card_sdiff hsub0, Finset.card_insert_of_not_mem hzero_notmem,
      List.toFinset_card_of_nodup htargets0, Finset.card_range]
    have hle := Finset.card_le_card hsub0
    rw [Finset.card_insert_of_not_mem hzero_notmem,
      List.toFinset_card_of_nodup htargets0, Finset.card_range] at hle
    simp only [List.length_map] at hle ⊢
    omega
  have hres := buildLoop_spec ac hinv ac.transitions.length
    ((ac.transitions.getD 0 []).map (fun e => [e.1])) ac
    (Finset.range ac.transitions.length \
      insert 0 (((ac.transitions.getD 0 []).map (fun e => e.2)).toFinset))
    hbfs0 hpend0 hfuel
  rw [← hroots_eq] at hres
  rw [hbuild]
  refine ⟨hres.trans_eq, rfl, hres.len_out, hres.len_fail, hres.fail_root, ?_, ?_⟩
  · intro v hv hvne
    exact hres.fail_settled v hv hvne (fun q hq => absurd hq (List.not_mem_nil q))
  · intro v hv p
    exact hres.out_settled v hv (fun q hq => absurd hq (List.not_mem_nil q)) p

theorem out_root_empty {ac : AhoCorasick} {ps : List (List Char)}
    (hinv : TrieInv ac) (hout : OutSem ac ps) (hne : ∀ p ∈ ps, p ≠ []) :
    ∀ p, p ∉ ac.outputs.getD 0 [] := by
  intro p hp
  rw [hout 0 hinv.root_lt p] at hp
  obtain ⟨hps, hst⟩ := hp
  have hnode : isNode ac.transitions p = true := by
    rw [isNode, hst]
    rfl
  have hzero : nodeState ac.transitions p = 0 := by
    rw [nodeState, hst]
    rfl
  exact hne p hps (stN_eq_zero hinv hnode hzero)

theorem built_out_root_empty {ac : AhoCorasick} {ps : List (List Char)}
    (hinv : TrieInv ac) (hpre : PreBuild ac) (hout : OutSem ac ps)
    (hne : ∀ p ∈ ps, p ≠ []) :
    ∀ p, p ∉ (build ac).outputs.getD 0 [] := by
  intro p hp
  have hspec := build_spec ac hinv hpre
  have h := (hspec.2.2.2.2.2.2 [] rfl p).mp hp
  rcases h with h | ⟨h2, _⟩
  · exact out_root_empty hinv hout hne p h
  · simp at h2

/-- Output inheritance on the built automaton: after `build`, every
state's output set contains its failure target's output set, provided
every added pattern is non-empty. -/
theorem build_inherit {ac : AhoCorasick} {ps : List (List Char)}
    (hinv : TrieInv ac) (hpre : PreBuild ac) (hout : OutSem ac ps)
    (hne : ∀ p ∈ ps, p ≠ []) :
    ∀ s p, p ∈ (build ac).outputs.getD ((build ac).fail.getD s 0) [] →
      p ∈ (build ac).outputs.getD s [] := by
  intro s p hp
  have hspec := build_spec ac hinv hpre
  obtain ⟨htr, hbuilt, hlo, hlf, hf0, hfail, houts⟩ := hspec
  by_cases hs : s < ac.transitions.length
  · obtain ⟨u, hu⟩ := hinv.reach s hs
    have hu_node : isNode ac.transitions u = true := by
      rw [isNode, hu]
      rfl
    have hu_st : nodeState ac.transitions u = s := by
      rw [nodeState, hu]
      rfl
    cases hueq : u with
    | nil =>
      rw [hueq] at hu_st
      rw [stN_nil] at hu_st
      rw [← hu_st] at hp
      rw [hf0] at hp
      exact absurd hp (built_out_root_empty hinv hpre hout hne p)
    | cons d rest =>
      rw [hueq] at hu_node hu_st
      have hfl := hfail (d :: rest) hu_node (by simp)
      rw [hu_st] at hfl
      rcases Nat.lt_or_ge (d :: rest).length 2 with hlen | hlen
      · have hrest : rest = [] := by
          simp at hlen
          exact List.eq_nil_of_length_eq_zero (by omega)
        subst hrest
        have hfl0 : (build ac).fail.getD s 0 = 0 := by
          rw [hfl]
          rfl
        rw [hfl0] at hp
        exact absurd hp (built_out_root_empty hinv hpre hout hne p)
      · rw [← hu_st]
        rw [houts (d :: rest) hu_node p]
        right
        refine ⟨hlen, ?_⟩
        rw [← hfl]
        exact hp
  · have hsf : (build ac).fail.getD s 0 = 0 := by
      apply List.getD_eq_default
      omega
    rw [hsf] at hp
    exact absurd hp (built_out_root_empty hinv hpre hout hne p)

theorem search_pres_built {ac : AhoCorasick} (hb : ac.is_built = true)
    (t : List Char) (f : Option (List WordFilter)) : (search ac t f).1 = ac := by
  simp only [search, hb]
  rfl

theorem search_normalized_pres_built {ac : AhoCorasick} (hb : ac.is_built = true)
    (t : List Char) (f : Option (List WordFilter)) :
    (search_normalized ac t f).1 = ac := by
  rw [search_normalized]
  exact search_pres_built hb t f

/-- C3 — After `build()` returns: state 0 is the root (the empty walk
ends at state 0), `fail[0] = 0`, output inheritance (`outputs[s]` a
superset of `outputs[fail[s]]`) holds at every state provided every
added pattern is non-empty, and `search` / `search_normalized` return
the automaton record unchanged (no mutation of the transition, fail or
output tables). -/
theorem claimC3 (ps : List (List Char)) (hne : ∀ p ∈ ps, p ≠ []) :
    stateOf (build (addPatterns AhoCorasick.init ps)).transitions 0 [] = some 0 ∧
    (build (addPatterns AhoCorasick.init ps)).fail.getD 0 0 = 0 ∧
    (∀ s p, p ∈ (build (addPatterns AhoCorasick.init ps)).outputs.getD
        ((build (addPatterns AhoCorasick.init ps)).fail.getD s 0) [] →
      p ∈ (build (addPatterns AhoCorasick.init ps)).outputs.getD s []) ∧
    (∀ t f, (search (build (addPatterns AhoCorasick.init ps)) t f).1 =
      build (addPatterns AhoCorasick.init ps)) ∧
    (∀ t f, (search_normalized (build (addPatterns AhoCorasick.init ps)) t f).1 =
      build (addPatterns AhoCorasick.init ps)) := by
  obtain ⟨hinv, hpre, hout, _⟩ := addPatterns_inv ps
  refine ⟨rfl, (build_spec _ hinv hpre).2.2.2.2.1,
    build_inherit hinv hpre hout hne, ?_, ?_⟩
  · intro t f
    exact search_pres_built rfl t f
  · intro t f
    exact search_normalized_pres_built rfl t f

theorem claimC3_witness :
    (∀ p ∈ [[' ']], p ≠ []) ∧
    (stateOf (build (addPatterns AhoCorasick.init [[' ']])).transitions 0 [] =
        some 0 ∧
      (build (addPatterns AhoCorasick.init [[' ']])).fail.getD 0 0 = 0 ∧
      (∀ s p, p ∈ (build (addPatterns AhoCorasick.init [[' ']])).outputs.getD
          ((build (addPatterns AhoCorasick.init [[' ']])).fail.getD s 0) [] →
        p ∈ (build (addPatterns AhoCorasick.init [[' ']])).outputs.getD s []) ∧
      (∀ t f, (search (build (addPatterns AhoCorasick.init [[' ']])) t f).1 =
        build (addPatterns AhoCorasick.init [[' ']])) ∧
      (∀ t f, (search_normalized (build (addPatterns AhoCorasick.init [[' ']]))
          t f).1 = build (addPatterns AhoCorasick.init [[' ']]))) :=
  ⟨by decide, claimC3 [[' ']] (by decide)⟩

theorem claimC3_counterexample :
    [] ∈ (build (addPatterns AhoCorasick.init [[], ['a']])).outputs.getD
      ((build (addPatterns AhoCorasick.init [[], ['a']])).fail.getD 1 0) [] ∧
    [] ∉ (build (addPatterns AhoCorasick.init [[], ['a']])).outputs.getD 1 [] := by
  decide

theorem searchStep_lt {ac : AhoCorasick}
    (hroot : 0 < ac.transitions.length)
    (htgt : ∀ s, s < ac.transitions.length →
      ∀ e ∈ ac.transitions.getD s [], e.2 < ac.transitions.length)
    (st : Nat) (c : Char) : searchStep ac st c < ac.transitions.length := by
  simp only [searchStep]
  cases h : lookupTrans
      (ac.transitions.getD (failWalk ac c ac.transitions.length st) []) c with
  | none => simpa using hroot
  | some n =>
    by_cases hst : failWalk ac c ac.transitions.length st < ac.transitions.length
    · have hmem := lookupTrans_mem h
      simpa using htgt _ hst _ hmem
    · rw [List.getD_eq_default _ _ (by omega)] at h
      rw [lookupTrans_nil] at h
      cases h

theorem scanl_lt {f : Nat → Char → Nat} {N : Nat}
    (hf : ∀ st c, f st c < N) :
    ∀ (t : List Char) (s₀ : Nat), s₀ < N → ∀ s ∈ List.scanl f s₀ t, s < N := by
  intro t
  induction t with
  | nil =>
    intro s₀ h0 s hs
    simp only [List.scanl, List.mem_singleton] at hs
    rw [hs]
    exact h0
  | cons c rest ih =>
    intro s₀ h0 s hs
    simp only [List.scanl, List.mem_cons] at hs
    rcases hs with rfl | hs
    · exact h0
    · exact ih (f s₀ c) (hf s₀ c) s hs

theorem build_fail_lt {ac : AhoCorasick} (hinv : TrieInv ac) (hpre : PreBuild ac) :
    ∀ i, (build ac).fail.getD i 0 < ac.transitions.length := by
  intro i
  obtain ⟨_, _, _, hlf, hf0, hfail, _⟩ := build_spec ac hinv hpre
  by_cases hi : i < ac.transitions.length
  · obtain ⟨u, hu⟩ := hinv.reach i hi
    have hu_node : isNode ac.transitions u = true := by
      rw [isNode, hu]
      rfl
    have hu_st : nodeState ac.transitions u = i := by
      rw [nodeState, hu]
      rfl
    cases u with
    | nil =>
      rw [stN_nil] at hu_st
      rw [← hu_st, hf0]
      exact hinv.root_lt
    | cons d rest =>
      have h := hfail (d :: rest) hu_node (by simp)
      rw [hu_st] at h
      rw [h]
      exact stN_lt hinv (mns_node ac.transitions rest)
  · rw [List.getD_eq_default _ _ (by omega)]
    exact hinv.root_lt

/-- C9 — `search` on a never-built automaton first builds it
(`is_built` becomes `true`), a later `add_pattern` raises the
cannot-add-after-build error though the caller never called `build()`,
and the scan itself never fails: every failure link, every transition
target and every state the scan walks through is a valid index of the
automaton's tables. -/
theorem claimC9 (ps : List (List Char)) (t : List Char)
    (f : Option (List WordFilter)) (p' : List Char) :
    (addPatterns AhoCorasick.init ps).is_built = false ∧
    (search (addPatterns AhoCorasick.init ps) t f).1 =
      build (addPatterns AhoCorasick.init ps) ∧
    (search (addPatterns AhoCorasick.init ps) t f).1.is_built = true ∧
    add_pattern (search (addPatterns AhoCorasick.init ps) t f).1 p' =
      .error "Cannot add patterns after building the automaton." ∧
    (∀ i, (search (addPatterns AhoCorasick.init ps) t f).1.fail.getD i 0 <
      (search (addPatterns AhoCorasick.init ps) t f).1.transitions.length) ∧
    (∀ s, ∀ e ∈ (search (addPatterns AhoCorasick.init ps) t f).1.transitions.getD
        s [], e.2 <
      (search (addPatterns AhoCorasick.init ps) t f).1.transitions.length) ∧
    (∀ s ∈ List.scanl
        (searchStep (search (addPatterns AhoCorasick.init ps) t f).1) 0 t,
      s < (search (addPatterns AhoCorasick.init ps) t f).1.transitions.length) := by
  obtain ⟨hinv, hpre, _, _⟩ := addPatterns_inv ps
  have hsf : (search (addPatterns AhoCorasick.init ps) t f).1 =
      build (addPatterns AhoCorasick.init ps) := by
    simp only [search, hpre.not_built]
    rfl
  have htr : (build (addPatterns AhoCorasick.init ps)).transitions =
      (addPatterns AhoCorasick.init ps).transitions :=
    (build_spec _ hinv hpre).1
  have hroot : 0 < (build (addPatterns AhoCorasick.init ps)).transitions.length := by
    rw [htr]
    exact hinv.root_lt
  have htgt : ∀ s, s < (build (addPatterns AhoCorasick.init ps)).transitions.length →
      ∀ e ∈ (build (addPatterns AhoCorasick.init ps)).transitions.getD s [],
      e.2 < (build (addPatterns AhoCorasick.init ps)).transitions.length := by
    rw [htr]
    intro s hs e he
    exact (hinv.target s hs e he).2
  refine ⟨hpre.not_built, hsf, ?_, ?_, ?_, ?_, ?_⟩
  · rw [hsf]
    rfl
  · rw [hsf]
    rfl
  · rw [hsf]
    intro i
    have := build_fail_lt hinv hpre i
    rw [← htr] at this
    exact this
  · rw [hsf]
    intro s e he
    by_cases hs : s < (build (addPatterns AhoCorasick.init ps)).transitions.length
    · exact htgt s hs e he
    · rw [List.getD_eq_default _ _ (by omega)] at he
      cases he
  · rw [hsf]
    exact scanl_lt (searchStep_lt hroot htgt) t 0 hroot

/-- Completeness of the built output sets: every non-empty pattern that
is a suffix of a node lies in that node's final output set (through the
inheritance chain). -/
theorem build_complete {ac : AhoCorasick} {ps : List (List Char)}
    (hinv : TrieInv ac) (hpre : PreBuild ac) (hout : OutSem ac ps)
    (hnodesem : NodeSem ac.transitions ps) :
    ∀ (n : Nat) (v : List Char), v.length ≤ n → isNode ac.transitions v = true →
    ∀ p ∈ ps, p ≠ [] → p <:+ v →
    p ∈ (build ac).outputs.getD (nodeState ac.transitions v) [] := by
  have houts := (build_spec ac hinv hpre).2.2.2.2.2.2
  intro n
  induction n with
  | zero =>
    intro v hlen _ p _ hpne hsuf
    have hv0 : v = [] := List.eq_nil_of_length_eq_zero (by omega)
    subst hv0
    cases hpne (List.suffix_nil.mp hsuf)
  | succ n ih =>
    intro v hlen hv p hps hpne hsuf
    rw [houts v hv p]
    by_cases hpv : p = v
    · left
      rw [hout _ (stN_lt hinv hv) p]
      refine ⟨hps, ?_⟩
      rw [hpv]
      exact stateOf_stN hv
    · cases v with
      | nil => cases hpne (List.suffix_nil.mp hsuf)
      | cons d rest =>
        have hsuf' : p <:+ rest := by
          rcases List.suffix_cons_iff.mp hsuf with h | h
          · cases hpv h
          · exact h
        have hpnode : isNode ac.transitions p = true :=
          (hnodesem p).mpr (Or.inr ⟨p, hps, List.prefix_rfl⟩)
        have hm : p <:+ mns ac.transitions rest :=
          mns_longest ac.transitions rest p hpnode hsuf'
        have h2 : 2 ≤ (d :: rest).length := by
          have h3 := hsuf'.length_le
          have h4 : 0 < p.length := List.length_pos.mpr hpne
          simp
          omega
        right
        refine ⟨h2, ?_⟩
        have hlen' : (mns ac.transitions rest).length ≤ n := by
          have := mns_length_le ac.transitions rest
          simp at hlen
          omega
        exact ih (mns ac.transitions rest) hlen'
          (mns_node ac.transitions rest) p hps hpne hm

/-- One scan step from the state of the longest node-suffix of the text
read so far lands on the state of the longest node-suffix after the next
character: the failure walk of `search` mirrors the failure chain. -/
theorem searchStep_mns {ac : AhoCorasick} (hinv : TrieInv ac) (hpre : PreBuild ac)
    (w : List Char) (c : Char) :
    searchStep (build ac) (nodeState ac.transitions (mns ac.transitions w)) c =
      nodeState ac.transitions (mns ac.transitions (w ++ [c])) := by
  have htr := (build_spec ac hinv hpre).1
  have hfail := (build_spec ac hinv hpre).2.2.2.2.2.1
  have hmnode := mns_node ac.transitions w
  have hlen_lt : (mns ac.transitions w).length < ac.transitions.length := by
    have h1 := stN_len_lt hinv hmnode
    have h2 := stN_lt hinv hmnode
    omega
  simp only [searchStep]
  rw [htr]
  rw [failWalk_spec hinv htr c (mns ac.transitions w).length (mns ac.transitions w)
    ac.transitions.length hmnode le_rfl hlen_lt
    (fun u hu hune _ => hfail u hu hune)]
  have hznode : isNode ac.transitions
      (failFindStr ac.transitions c (mns ac.transitions w).length
        (mns ac.transitions w)) = true :=
    ffs_node ac.transitions c _ _ le_rfl hmnode
  rw [mns_snoc ac w c (mns ac.transitions w).length le_rfl]
  cases hlk : lookupTrans (ac.transitions.getD (nodeState ac.transitions
      (failFindStr ac.transitions c (mns ac.transitions w).length
        (mns ac.transitions w))) []) c with
  | none =>
    rw [if_neg (by simp)]
    rfl
  | some nxt =>
    rw [if_pos (show (some nxt).isSome = true from rfl)]
    have hst : stateOf ac.transitions 0
        (failFindStr ac.transitions c (mns ac.transitions w).length
          (mns ac.transitions w) ++ [c]) = some nxt := by
      rw [stateOf_concat, stateOf_stN hznode, Option.some_bind, hlk]
    rw [nodeState, hst]

/-- The state register of `search`'s scan always holds the state of the
longest node-suffix of the text read so far. -/
theorem foldl_searchStep_mns {ac : AhoCorasick} (hinv : TrieInv ac)
    (hpre : PreBuild ac) :
    ∀ (w : List Char), List.foldl (searchStep (build ac)) 0 w =
      nodeState ac.transitions (mns ac.transitions w) := by
  intro w
  induction w using List.reverseRecOn with
  | nil => rfl
  | append_singleton w c ih =>
    rw [List.foldl_append, List.foldl_cons, List.foldl_nil, ih]
    exact searchStep_mns hinv hpre w c

theorem searchGo_mono (ac : AhoCorasick) (text : List Char) (wfs : List WordFilter)
    (hf : Bool) (allowed : List Char) :
    ∀ (rest : List Char) (i st : Nat) (cws : Option Nat) (results : List ACMatch)
      (m : ACMatch), m ∈ results →
      m ∈ (searchGo ac text wfs hf allowed rest i st cws results).1 := by
  intro rest
  induction rest with
  | nil =>
    intro i st cws results m hm
    exact hm
  | cons c rest ih =>
    intro i st cws results m hm
    simp only [searchGo]
    split
    · split
      · exact ih _ _ _ _ m (List.mem_append_left _ hm)
      · cases cws with
        | some ws =>
          exact ih _ _ _ _ m (List.mem_append_left _ (List.mem_append_left _ hm))
        | none => exact ih _ _ _ _ m (List.mem_append_left _ hm)
    · exact ih _ _ _ _ m (List.mem_append_left _ hm)

/-- Everything emitted at any scan position ends up in the results of
the character loop. -/
theorem searchGo_emit (ac : AhoCorasick) (text : List Char) (wfs : List WordFilter)
    (hf : Bool) (allowed : List Char) :
    ∀ (rest : List Char) (i st : Nat) (cws : Option Nat) (results : List ACMatch)
      (j : Nat), j < rest.length →
      ∀ m ∈ emitMatches text (i + j)
          (List.foldl (searchStep ac) st (rest.take (j + 1))) ac,
      m ∈ (searchGo ac text wfs hf allowed rest i st cws results).1 := by
  intro rest
  induction rest with
  | nil =>
    intro i st cws results j hj
    simp at hj
  | cons c rest ih =>
    intro i st cws results j hj m hm
    cases j with
    | zero =>
      simp only [Nat.add_zero, List.take_succ_cons, List.take_zero,
        List.foldl_cons, List.foldl_nil] at hm
      have hm' : m ∈ results ++ emitMatches text i (searchStep ac st c) ac :=
        List.mem_append_right _ hm
      simp only [searchGo]
      split
      · split
        · exact searchGo_mono ac text wfs hf allowed _ _ _ _ _ m hm'
        · cases cws with
          | some ws =>
            exact searchGo_mono ac text wfs hf allowed _ _ _ _ _ m
              (List.mem_append_left _ hm')
          | none => exact searchGo_mono ac text wfs hf allowed _ _ _ _ _ m hm'
      · exact searchGo_mono ac text wfs hf allowed _ _ _ _ _ m hm'
    | succ j =>
      have hstep : i + (j + 1) = (i + 1) + j := by omega
      rw [hstep] at hm
      simp only [List.take_succ_cons, List.foldl_cons] at hm
      have hj' : j < rest.length := by
        simp at hj
        omega
      simp only [searchGo]
      split
      · split
        · exact ih _ _ _ _ j hj' m hm
        · cases cws with
          | some ws => exact ih _ _ _ _ j hj' m hm
          | none => exact ih _ _ _ _ j hj' m hm
      · exact ih _ _ _ _ j hj' m hm

/-- The scan results of the character loop survive the tail word-filter
flush of `search`. -/
theorem search_sup {ac₀ : AhoCorasick} (hpre : PreBuild ac₀) (t : List Char)
    (f : Option (List WordFilter)) (m : ACMatch)
    (hm : m ∈ (searchGo (build ac₀) t (f.getD []) (pyTruthyOptList f)
      (allowedSpecialChars (f.getD [])) t 0 0 none []).1) :
    m ∈ (search ac₀ t f).2 := by
  simp only [search, hpre.not_built, Bool.false_eq_true, if_false]
  cases hb : pyTruthyOptList f with
  | false =>
    rw [hb] at hm
    exact hm
  | true =>
    rw [hb] at hm
    cases hr : (searchGo (build ac₀) t (f.getD []) true
        (allowedSpecialChars (f.getD [])) t 0 0 none []).2 with
    | none => exact hm
    | some ws => exact List.mem_append_left _ hm

/-- The match record `search` emits for a reported pattern, field by
field. -/
theorem emitMatches_mem (text : List Char) (i : Nat) {st : Nat}
    {ac : AhoCorasick} {p : List Char} (hp : p ∈ ac.outputs.getD st []) :
    ∃ m ∈ emitMatches text i st ac,
      m.keyword = p ∧ m.start = i + 1 - p.length ∧ m.mend = i + 1 ∧
      m.is_word_start = (decide (i + 1 - p.length = 0) ||
        !pyIsAlnumChar (text.getD (i + 1 - p.length - 1) ' ')) ∧
      m.is_word_end = (decide (i + 1 = text.length) ||
        !pyIsAlnumChar (text.getD (i + 1) ' ')) ∧
      m.match_type = (if (m.is_word_start && m.is_word_end) = true
        then MATCH_FULL_WORD
        else if m.is_word_start = true then MATCH_PREFIX
        else if m.is_word_end = true then MATCH_SUFFIX
        else MATCH_SUBSTRING) ∧
      m.weight = matchWeight m.match_type := by
  simp only [emitMatches]
  exact ⟨_, List.mem_map_of_mem _ hp, rfl, rfl, rfl, rfl, rfl, rfl, rfl⟩

/-- C1 — Amended with `P ≠ []`: every non-empty pattern `P` added
before `build()` that occurs in the text at position `s` as a
standalone token (non-alphanumric or absent neighbours on both sides)
is reported by `search` as a match with keyword `P`, start `s`, end
`s + len(P)`, match type FULL_WORD and weight 1.0. -/
theorem claimC1 (ps : List (List Char)) (P t : List Char) (s : Nat)
    (hP : P ∈ ps) (hPne : P ≠ [])
    (hocc : (t.drop s).take P.length = P) (hlen : s + P.length ≤ t.length)
    (hstart : s = 0 ∨ pyIsAlnumChar (t.getD (s - 1) ' ') = false)
    (hend : s + P.length = t.length ∨
      pyIsAlnumChar (t.getD (s + P.length) ' ') = false)
    (f : Option (List WordFilter)) :
    ∃ m ∈ (search (addPatterns AhoCorasick.init ps) t f).2,
      m.keyword = P ∧ m.start = s ∧ m.mend = s + P.length ∧
      m.match_type = MATCH_FULL_WORD ∧ m.weight = 1 := by
  obtain ⟨hinv, hpre, hout, hnodesem⟩ := addPatterns_inv ps
  have hPlen : 0 < P.length := List.length_pos.mpr hPne
  have hj1 : s + P.length - 1 + 1 = s + P.length := by omega
  have hjlt : s + P.length - 1 < t.length := by omega
  have hw_suffix : P <:+ t.take (s + P.length) := by
    rw [List.take_add]
    exact ⟨t.take s, by rw [hocc]⟩
  have hPnode : isNode (addPatterns AhoCorasick.init ps).transitions P = true :=
    (hnodesem P).mpr (Or.inr ⟨P, hP, List.prefix_rfl⟩)
  have hPmns : P <:+ mns (addPatterns AhoCorasick.init ps).transitions
      (t.take (s + P.length)) :=
    mns_longest _ _ P hPnode hw_suffix
  have hPout : P ∈ (build (addPatterns AhoCorasick.init ps)).outputs.getD
      (nodeState (addPatterns AhoCorasick.init ps).transitions
        (mns (addPatterns AhoCorasick.init ps).transitions
          (t.take (s + P.length)))) [] :=
    build_complete hinv hpre hout hnodesem _ _ le_rfl
      (mns_node _ _) P hP hPne hPmns
  obtain ⟨m, hmem, hkw, hstart', hmend', hwsf, hwef, hmtf, hwf⟩ :=
    emitMatches_mem t (s + P.length - 1) hPout
  have hm_search : m ∈ (search (addPatterns AhoCorasick.init ps) t f).2 := by
    apply search_sup hpre t f m
    apply searchGo_emit (build (addPatterns AhoCorasick.init ps)) t (f.getD [])
      (pyTruthyOptList f) (allowedSpecialChars (f.getD [])) t 0 0 none []
      (s + P.length - 1) hjlt m
    rw [Nat.zero_add, foldl_searchStep_mns hinv hpre, hj1]
    exact hmem
  have e1 : s + P.length - 1 + 1 - P.length = s := by omega
  rw [e1] at hwsf
  rw [hj1] at hwef hmend'
  have hb1 : m.is_word_start = true := by
    rcases hstart with h | h
    · rw [hwsf, h]
      simp
    · rw [hwsf, h]
      simp
  have hb2 : m.is_word_end = true := by
    rcases hend with h | h
    · rw [hwef, h]
      simp
    · rw [hwef, h]
      simp
  have hmt : m.match_type = MATCH_FULL_WORD := by
    rw [hmtf, hb1, hb2]
    rfl
  have hw1 : m.weight = 1 := by
    rw [hwf, hmt]
    rfl
  refine ⟨m, hm_search, hkw, ?_, hmend', hmt, hw1⟩
  rw [hstart', e1]

theorem claimC1_witness :
    (['a'] ∈ [['a']] ∧ ['a'] ≠ ([] : List Char) ∧
      ((['a'] : List Char).drop 0).take (['a'] : List Char).length = ['a'] ∧
      0 + (['a'] : List Char).length ≤ (['a'] : List Char).length ∧
      (0 = 0 ∨ pyIsAlnumChar ((['a'] : List Char).getD (0 - 1) ' ') = false) ∧
      (0 + (['a'] : List Char).length = (['a'] : List Char).length ∨
        pyIsAlnumChar ((['a'] : List Char).getD
          (0 + (['a'] : List Char).length) ' ') = false)) ∧
    (∃ m ∈ (search (addPatterns AhoCorasick.init [['a']]) ['a'] none).2,
      m.keyword = ['a'] ∧ m.start = 0 ∧ m.mend = 0 + (['a'] : List Char).length ∧
      m.match_type = MATCH_FULL_WORD ∧ m.weight = 1) :=
  ⟨⟨by decide, by decide, by decide, by decide, by decide, by decide⟩,
    claimC1 [['a']] ['a'] ['a'] 0 (by decide) (by decide) (by decide) (by decide)
      (by decide) (by decide) none⟩

theorem claimC1_counterexample :
    ([] : List Char) ∈ [([] : List Char)] ∧
    ((['!'].drop 0).take ([] : List Char).length = ([] : List Char)) ∧
    0 + ([] : List Char).length ≤ ['!'].length ∧
    (0 = 0 ∨ pyIsAlnumChar (['!'].getD (0 - 1) ' ') = false) ∧
    (0 + ([] : List Char).length = ['!'].length ∨
      pyIsAlnumChar (['!'].getD (0 + ([] : List Char).length) ' ') = false) ∧
    ¬ ∃ m ∈ (search (addPatterns AhoCorasick.init [[]]) ['!'] none).2,
      m.keyword = ([] : List Char) ∧ m.start = 0 ∧
      m.mend = 0 + ([] : List Char).length ∧
      m.match_type = MATCH_FULL_WORD ∧ m.weight = 1 := by
  decide

end BondApis
